import Mathlib

/-!
# BattleChess (OpenSpiel game `battle_chess`): a verification development

Shallow embedding of `open_spiel/games/battle_chess.{h,cc}`:

* the board store (`board_`, a flat row-major vector of `CellState`),
* the piece registry (`whitePieces`, `blackPieces`),
* the per-piece candidate generators `KingAction`, `DefenderAction`, `AttackerAction`,
* `LegalActions`, `DoApplyAction`, `UndoAction`, `IsTerminal`.

C++ `int` / `Action` values are modelled by `Int` (no value in this program comes near
the machine bounds: coordinates are below 5, action ids below 5625, the move count is at
most 1000).  A failed `SPIEL_CHECK_*` or a call of `SpielFatalError` is modelled by `none`.
-/

namespace BattleChess

/-! ## Data model (battle_chess.h) -/

/-- State of a cell (`enum class CellState`). -/
inductive CellState where
  | kEmpty
  | kBlackKing
  | kBlackDefender
  | kBlackAttacker
  | kWhiteKing
  | kWhiteDefender
  | kWhiteAttacker
  deriving DecidableEq, Repr

/-- Registry entry (`struct Piece`). -/
structure Piece where
  row : Int
  col : Int
  pieceType : CellState
  deriving DecidableEq, Repr

def kNumPlayers : Int := 2
def kBlackPlayerId : Int := 1
def kWhitePlayerId : Int := 0
def kDefaultRows : Int := 5
def kDefaultColumns : Int := 5

/-- Modelled from the spec: the host framework constant `kInvalidPlayer` (declared in the
framework header `open_spiel/spiel_utils.h`, outside the game's own files).  The spec calls
this winner value "unset"; `IsTerminal` tests `winner_ >= 0`, so it is a negative
sentinel.  OpenSpiel uses `-3`. -/
def kInvalidPlayer : Int := -3

/-- Modelled from the spec: the host framework constant `kTerminalPlayerId`, the player id
reported by `CurrentPlayer` once the state is terminal (OpenSpiel uses `-4`). -/
def kTerminalPlayerId : Int := -4

/-- The fields of `class BattleChessState`, with the member initialisers of the header.
`history_` is the action history owned by the framework base class `State`. -/
structure BattleChessState where
  cur_player_ : Int := kInvalidPlayer
  winner_ : Int := kInvalidPlayer
  total_moves_ : Int := -1
  whitePieces : List Piece := []
  blackPieces : List Piece := []
  rows_ : Int := kDefaultRows
  cols_ : Int := kDefaultColumns
  board_ : List CellState := []
  history_ : List Int := []
  deriving DecidableEq, Repr

/-! ## Helpers of the anonymous namespace (battle_chess.cc) -/

/-- `StateToColor`: white = 0, black = 1, empty = -1. -/
def StateToColor : CellState → Int
  | .kBlackKing => 1
  | .kBlackDefender => 1
  | .kBlackAttacker => 1
  | .kWhiteKing => 0
  | .kWhiteDefender => 0
  | .kWhiteAttacker => 0
  | .kEmpty => -1

/-- `StateType`: the cell value named by a capture tag; `SpielFatalError("wrong value")`
for every other integer. -/
def StateType (capture : Int) : Option CellState :=
  if capture = 0 then some .kEmpty
  else if capture = 1 then some .kWhiteAttacker
  else if capture = 2 then some .kWhiteDefender
  else if capture = 3 then some .kWhiteKing
  else if capture = 4 then some .kBlackAttacker
  else if capture = 5 then some .kBlackDefender
  else if capture = 6 then some .kBlackKing
  else none

/-- `getCaptureValue`: the capture tag of a cell value. -/
def getCaptureValue (state : CellState) : Int :=
  if state = .kWhiteAttacker then 1
  else if state = .kWhiteDefender then 2
  else if state = .kWhiteKing then 3
  else if state = .kBlackAttacker then 4
  else if state = .kBlackDefender then 5
  else if state = .kBlackKing then 6
  else 0

/-! ## Framework helpers used by the game -/

/-- Modelled from the spec: `RankActionMixedBase` of the framework file
`open_spiel/spiel_utils` (outside the game's own files).  Spec 4.3: the fields are the
digits of a mixed-radix number with the given radices, most significant first. -/
def RankActionMixedBase (bases digits : List Int) : Int :=
  (List.zip bases digits).foldl (fun action bd => action * bd.1 + bd.2) 0

/-- Modelled from the spec: `UnrankActionMixedBase` of the framework file
`open_spiel/spiel_utils` (outside the game's own files).  Spec 4.3: decoding reconstructs
the digits of the mixed-radix number, least significant digit first, by the C++ operators
`%` and `/` (which truncate towards zero).  The spec defines decoding on the address space
`[0, rows * cols * rows * cols * 9)` only; what the framework function does with an id
outside it is not in the spec, and the value of this definition there (the same digit
extraction) is a choice of the model. -/
def UnrankActionMixedBase (action : Int) (bases : List Int) : List Int :=
  (bases.foldr (fun b (acc : Int × List Int) => (acc.1.tdiv b, acc.1.tmod b :: acc.2))
    (action, [])).2

/-- Modelled from the spec: `NextPlayerRoundRobin` of the framework file
`open_spiel/spiel_utils` (outside the game's own files).  Spec 4.5 step 4: advance the
current player round-robin. -/
def NextPlayerRoundRobin (player nplayers : Int) : Int :=
  if player + 1 < nplayers then player + 1 else 0

/-- Modelled from the spec: `PreviousPlayerRoundRobin` of the framework file
`open_spiel/spiel_utils` (outside the game's own files).  Spec 4.5, undo: reverses the
round-robin advance. -/
def PreviousPlayerRoundRobin (player nplayers : Int) : Int :=
  if player - 1 ≥ 0 then player - 1 else nplayers - 1

/-! ## Board store and piece registry -/

/-- `BattleChessState::InBounds`. -/
def InBounds (s : BattleChessState) (r c : Int) : Bool :=
  decide (r ≥ 0) && decide (r < s.rows_) && decide (c ≥ 0) && decide (c < s.cols_)

/-- `BattleChessState::board`: `board_[row * cols_ + col]`.  The C++ accessor does no
bounds check; every call site in the program is guarded by `InBounds`, and the default
`kEmpty` below is only the value of the model outside the vector. -/
def board (s : BattleChessState) (row col : Int) : CellState :=
  s.board_.getD (row * s.cols_ + col).toNat .kEmpty

/-- `BattleChessState::SetBoard`: `board_[r * cols_ + c] = cs`. -/
def SetBoard (s : BattleChessState) (r c : Int) (cs : CellState) : BattleChessState :=
  { s with board_ := s.board_.set (r * s.cols_ + c).toNat cs }

/-- `BattleChessState::AddPiece`: append to the white list when the colour of `state` is 0,
to the black list otherwise. -/
def AddPiece (s : BattleChessState) (r c : Int) (state : CellState) : BattleChessState :=
  let piece : Piece := { row := r, col := c, pieceType := state }
  if StateToColor state = 0 then { s with whitePieces := s.whitePieces ++ [piece] }
  else { s with blackPieces := s.blackPieces ++ [piece] }

/-- The loop test of `DeletePiece`: `piece->row == r && piece->col == c`. -/
def pieceAt (r c : Int) (piece : Piece) : Bool :=
  decide (piece.row = r) && decide (piece.col = c)

/-- `BattleChessState::DeletePiece`: erase the first entry of the list chosen by the colour
of `state` whose coordinates are `(r, c)`; `SpielFatalError` when there is none. -/
def DeletePiece (s : BattleChessState) (r c : Int) (state : CellState) :
    Option BattleChessState :=
  if StateToColor state = 0 then
    if s.whitePieces.any (pieceAt r c) then
      some { s with whitePieces := s.whitePieces.eraseP (pieceAt r c) }
    else none
  else
    if s.blackPieces.any (pieceAt r c) then
      some { s with blackPieces := s.blackPieces.eraseP (pieceAt r c) }
    else none

/-- `BattleChessState::InitPieces`. -/
def InitPieces (s : BattleChessState) (color : Int) : BattleChessState :=
  if color = 0 then { s with whitePieces := [] }
  else if color = 1 then { s with blackPieces := [] }
  else s

/-! ## Candidate generators -/

/-- The array `dir` / `dir1` of the generators: the four orthogonal unit steps. -/
def dir1 : List (Int × Int) := [(0, 1), (0, -1), (1, 0), (-1, 0)]

/-- The array `dir2` of the generators: the four diagonal unit steps. -/
def dir2 : List (Int × Int) := [(1, 1), (1, -1), (-1, -1), (-1, 1)]

/-- `KingAction`: the candidates `{r1, c1, r1 + dr, c1 + dc, 0}` pushed on an empty
vector. -/
def KingAction (r1 c1 : Int) : List (List Int) :=
  dir1.map fun d => [r1, c1, r1 + d.1, c1 + d.2, 0]

/-- `DefenderAction`: four orthogonal candidates with capture field 0, then four diagonal
candidates with capture field -1. -/
def DefenderAction (r1 c1 : Int) : List (List Int) :=
  (dir1.map fun d => [r1, c1, r1 + d.1, c1 + d.2, 0]) ++
  (dir2.map fun d => [r1, c1, r1 + d.1, c1 + d.2, -1])

/-- `AttackerAction`: four diagonal candidates with capture field 0, then four orthogonal
candidates with capture field -1. -/
def AttackerAction (r1 c1 : Int) : List (List Int) :=
  (dir2.map fun d => [r1, c1, r1 + d.1, c1 + d.2, 0]) ++
  (dir1.map fun d => [r1, c1, r1 + d.1, c1 + d.2, -1])

/-! ## Game state machine -/

/-- `BattleChessState::IsTerminal`. -/
def IsTerminal (s : BattleChessState) : Bool := decide (s.winner_ ≥ 0)

/-- `BattleChessState::CurrentPlayer`. -/
def CurrentPlayer (s : BattleChessState) : Int :=
  if IsTerminal s then kTerminalPlayerId else s.cur_player_

/-- The vector `{rows_, cols_, rows_, cols_, 9}` of radices. -/
def action_bases (s : BattleChessState) : List Int :=
  [s.rows_, s.cols_, s.rows_, s.cols_, 9]

/-- The body of the inner loop over `kingActions` in `LegalActions` (the same text for
both colours): the ids pushed on `movelist` for one candidate. -/
def kingStep (s : BattleChessState) (cand : List Int) : List Int :=
  match cand with
  | [a0, a1, a2, a3, a4] =>
    if !InBounds s a2 a3 then []
    else if StateToColor (board s a0 a1) ≠ StateToColor (board s a2 a3) then
      let a4new :=
        if StateToColor (board s a2 a3) ≠ -1 then getCaptureValue (board s a2 a3) else a4
      [RankActionMixedBase (action_bases s) [a0, a1, a2, a3, a4new]]
    else []
  | _ => []

/-- The body of the inner loop over `defenderActions` / `attackerActions` in
`LegalActions`; `enemy` is the colour literal the capture branch compares with (1 in the
white half, 0 in the black half). -/
def captureStep (s : BattleChessState) (enemy : Int) (cand : List Int) : List Int :=
  match cand with
  | [a0, a1, a2, a3, a4] =>
    if !InBounds s a2 a3 then []
    else
      (if a4 = 0 then
        (if StateToColor (board s a2 a3) = -1 then
          [RankActionMixedBase (action_bases s) [a0, a1, a2, a3, a4]] else [])
      else []) ++
      (if a4 = -1 then
        (if StateToColor (board s a2 a3) = enemy then
          [RankActionMixedBase (action_bases s)
            [a0, a1, a2, a3, getCaptureValue (board s a2 a3)]] else [])
      else [])
  | _ => []

/-- One iteration of the outer loop of `LegalActions` over a piece list: the three
`if (pieceType == ...)` blocks in order, each starting with
`SPIEL_CHECK_TRUE(InBounds(row, col))`. -/
def pieceActions (s : BattleChessState) (king defender attacker : CellState) (enemy : Int)
    (p : Piece) : Option (List Int) := do
  let m1 ←
    if p.pieceType = king then
      (if InBounds s p.row p.col then some ((KingAction p.row p.col).flatMap (kingStep s))
       else none)
    else some []
  let m2 ←
    if p.pieceType = defender then
      (if InBounds s p.row p.col then
        some ((DefenderAction p.row p.col).flatMap (captureStep s enemy))
       else none)
    else some []
  let m3 ←
    if p.pieceType = attacker then
      (if InBounds s p.row p.col then
        some ((AttackerAction p.row p.col).flatMap (captureStep s enemy))
       else none)
    else some []
  pure (m1 ++ m2 ++ m3)

/-- The outer loop of `LegalActions` over one piece list. -/
def collectActions (s : BattleChessState) (king defender attacker : CellState) (enemy : Int) :
    List Piece → Option (List Int)
  | [] => some []
  | p :: ps => do
    let m ← pieceActions s king defender attacker enemy p
    let rest ← collectActions s king defender attacker enemy ps
    pure (m ++ rest)

/-- `BattleChessState::LegalActions`.  `std::sort` on the ids is modelled by insertion sort
(the sorted arrangement of a list of integers is unique); the diagnostic print
`getPiecesStatus()` on an empty list has no effect on the state or the result. -/
def LegalActions (s : BattleChessState) : Option (List Int) :=
  if IsTerminal s then some []
  else do
    let player := CurrentPlayer s
    let m0 ←
      if player = 0 then
        collectActions s .kWhiteKing .kWhiteDefender .kWhiteAttacker 1 s.whitePieces
      else some []
    let m1 ←
      if player = 1 then
        collectActions s .kBlackKing .kBlackDefender .kBlackAttacker 0 s.blackPieces
      else some []
    pure ((m0 ++ m1).insertionSort (· ≤ ·))

/-- `BattleChessState::DoApplyAction`. -/
def DoApplyAction (s : BattleChessState) (action : Int) : Option BattleChessState :=
  match UnrankActionMixedBase action [s.rows_, s.cols_, s.rows_, s.cols_, 9] with
  | [r1, c1, r2, c2, capture] =>
    if !InBounds s r1 c1 then none
    else if !InBounds s r2 c2 then none
    else do
      let s1 ←
        if capture > 0 then
          if 1 - StateToColor (board s r2 c2) ≠ StateToColor (board s r1 c1) then none
          else do
            let sa ← DeletePiece s r2 c2 (board s r2 c2)
            let sb := if board sa r2 c2 = .kBlackKing then { sa with winner_ := 0 } else sa
            let sc := if board sb r2 c2 = .kWhiteKing then { sb with winner_ := 1 } else sb
            pure sc
        else pure s
      let s2 ← DeletePiece s1 r1 c1 (board s1 r1 c1)
      let s3 := AddPiece s2 r2 c2 (board s2 r1 c1)
      let s4 := SetBoard s3 r2 c2 (board s3 r1 c1)
      let s5 := SetBoard s4 r1 c1 .kEmpty
      let s6 := { s5 with
        cur_player_ := NextPlayerRoundRobin s5.cur_player_ kNumPlayers
        total_moves_ := s5.total_moves_ + 1 }
      pure (if s6.total_moves_ ≥ 1000 then { s6 with winner_ := 1 } else s6)
  | _ => none

/-- Modelled from the spec: the framework entry point `State::ApplyAction` (in
`open_spiel/spiel.h`, outside the game's own files).  Spec 2: applying a chosen action
mutates the state through `DoApplyAction` and pushes an undo record on the history. -/
def ApplyAction (s : BattleChessState) (action : Int) : Option BattleChessState :=
  (DoApplyAction s action).map fun t => { t with history_ := t.history_ ++ [action] }

/-- `BattleChessState::UndoAction` (the `player` argument is not read).  `pop_back` on the
history is modelled by `dropLast`. -/
def UndoAction (s : BattleChessState) (action : Int) : Option BattleChessState :=
  match UnrankActionMixedBase action [s.rows_, s.cols_, s.rows_, s.cols_, 9] with
  | [r1, c1, r2, c2, capture] =>
    if !InBounds s r1 c1 then none
    else if !InBounds s r2 c2 then none
    else do
      let s1 := { s with
        cur_player_ := PreviousPlayerRoundRobin s.cur_player_ 2
        total_moves_ := s.total_moves_ - 1
        winner_ := kInvalidPlayer }
      let s2 := SetBoard s1 r1 c1 (board s1 r2 c2)
      let s3 := SetBoard s2 r2 c2 .kEmpty
      let s4 ←
        if capture > 0 then do
          let state ← StateType capture
          pure (AddPiece (SetBoard s3 r2 c2 state) r2 c2 state)
        else pure s3
      pure { s4 with history_ := s4.history_.dropLast }
  | _ => none

/-- The constructor `BattleChessState::BattleChessState`: an empty `rows_ * cols_` board,
the two back rows, winner unset, player 0 to move, move count 0.  The two checks
`SPIEL_CHECK_GT(rows_, 1)` and `SPIEL_CHECK_GT(cols_, 1)` hold for the member initialisers
`rows_ = cols_ = 5`, the only values the constructor ever sees. -/
def NewInitialState : BattleChessState :=
  let s0 : BattleChessState :=
    { board_ := List.replicate (kDefaultRows * kDefaultColumns).toNat .kEmpty }
  let put (s : BattleChessState) (r c : Int) (cs : CellState) : BattleChessState :=
    AddPiece (SetBoard s r c cs) r c cs
  let s1 := put s0 0 0 .kBlackAttacker
  let s2 := put s1 0 1 .kBlackDefender
  let s3 := put s2 0 2 .kBlackKing
  let s4 := put s3 0 3 .kBlackDefender
  let s5 := put s4 0 4 .kBlackAttacker
  let s6 := put s5 4 0 .kWhiteAttacker
  let s7 := put s6 4 1 .kWhiteDefender
  let s8 := put s7 4 2 .kWhiteKing
  let s9 := put s8 4 3 .kWhiteDefender
  let s10 := put s9 4 4 .kWhiteAttacker
  { s10 with winner_ := kInvalidPlayer, cur_player_ := 0, total_moves_ := 0 }

/-- `BattleChessGame::NumDistinctActions`. -/
def NumDistinctActions : Int :=
  kDefaultRows * kDefaultColumns * kDefaultRows * kDefaultColumns * 9

/-! ## Outcome and serialization (battle_chess.cc, battle_chess.h) -/

/-- `BattleChessGame::MaxGameLength`. -/
def MaxGameLength : Int := 1000

/-- `BattleChessState::Returns`.  The payoffs are the doubles `1.0`, `-1.0` and `0.0`, all
integers, and are modelled by `Int`. -/
def Returns (s : BattleChessState) : List Int :=
  if s.winner_ = 0 then [1, -1]
  else if s.winner_ = 1 then [-1, 1]
  else [0, 0]

/-- `CellToString`: the one-character string of a cell value.  A `std::string` is modelled
by the list of its `char`s. -/
def CellToString : CellState → List Char
  | .kBlackKing => ['k']
  | .kBlackDefender => ['d']
  | .kBlackAttacker => ['a']
  | .kWhiteKing => ['K']
  | .kWhiteDefender => ['D']
  | .kWhiteAttacker => ['A']
  | .kEmpty => ['.']

/-- `BattleChessState::Serialize`: the cell strings appended row by row. -/
def Serialize (s : BattleChessState) : List Char :=
  (List.range s.rows_.toNat).flatMap fun r =>
    (List.range s.cols_.toNat).flatMap fun c => CellToString (board s r c)

/-- The body of the inner loop of `DeserializeState` for the character `ch = str.at(i)`:
`AddPiece` then `SetBoard` for a piece letter, `SetBoard` alone for `.`, and
`SpielFatalError` for every other character. -/
def deserializeCell (st : BattleChessState) (r c : Int) (ch : Char) :
    Option BattleChessState :=
  if ch = 'k' then some (SetBoard (AddPiece st r c .kBlackKing) r c .kBlackKing)
  else if ch = 'd' then some (SetBoard (AddPiece st r c .kBlackDefender) r c .kBlackDefender)
  else if ch = 'a' then some (SetBoard (AddPiece st r c .kBlackAttacker) r c .kBlackAttacker)
  else if ch = 'K' then some (SetBoard (AddPiece st r c .kWhiteKing) r c .kWhiteKing)
  else if ch = 'D' then some (SetBoard (AddPiece st r c .kWhiteDefender) r c .kWhiteDefender)
  else if ch = 'A' then some (SetBoard (AddPiece st r c .kWhiteAttacker) r c .kWhiteAttacker)
  else if ch = '.' then some (SetBoard st r c .kEmpty)
  else none

/-- The body of the inner loop of `DeserializeState`: read `str.at(i)` (a failure outside
the string), run the character's branch for the cell `(r, c)`, then `i++`. -/
def deserializeStep (str : List Char) (r c : Nat) (acc : BattleChessState × Nat) :
    Option (BattleChessState × Nat) :=
  match str[acc.2]? with
  | none => none
  | some ch => (deserializeCell acc.1 (r : Int) (c : Int) ch).map fun st => (st, acc.2 + 1)

/-- `BattleChessGame::DeserializeState` (the game's `rows_` and `cols_` are the defaults):
a fresh initial state, the length check, both piece lists cleared, then the two nested
loops over `r` and `c` with the running index `i` into the string. -/
def DeserializeState (str : List Char) : Option BattleChessState :=
  let state := NewInitialState
  if (str.length : Int) ≠ kDefaultRows * kDefaultColumns then none
  else
    let bstate := InitPieces (InitPieces state 0) 1
    ((List.range kDefaultRows.toNat).foldlM (fun (acc : BattleChessState × Nat) (r : Nat) =>
      (List.range kDefaultColumns.toNat).foldlM
        (fun (acc2 : BattleChessState × Nat) (c : Nat) => deserializeStep str r c acc2)
        acc) (bstate, 0)).map fun (res : BattleChessState × Nat) => res.1

/-! ## Specification vocabulary -/

/-- The piece list of a colour: `whitePieces` for 0, `blackPieces` otherwise. -/
def pieces (s : BattleChessState) (color : Int) : List Piece :=
  if color = 0 then s.whitePieces else s.blackPieces

/-- Coordinate of a registry entry. -/
def coord (p : Piece) : Int × Int := (p.row, p.col)

/-- Both piece lists, white first. -/
def registry (s : BattleChessState) : List Piece := s.whitePieces ++ s.blackPieces

/-- The board/registry consistency invariant on the 5x5 board: the board store has
`rows_ * cols_ = 25` cells; every entry of the white (black) list lies on the board, the
cell at its coordinate holds its type, and that type is a white (black) cell value; every
non-empty cell has a registry entry at its coordinate; no two entries share a
coordinate. -/
structure Consistent (s : BattleChessState) : Prop where
  rows_eq : s.rows_ = 5
  cols_eq : s.cols_ = 5
  board_len : s.board_.length = 25
  white_ok : ∀ p ∈ s.whitePieces,
    InBounds s p.row p.col = true ∧ board s p.row p.col = p.pieceType ∧
      StateToColor p.pieceType = 0
  black_ok : ∀ p ∈ s.blackPieces,
    InBounds s p.row p.col = true ∧ board s p.row p.col = p.pieceType ∧
      StateToColor p.pieceType = 1
  covered : ∀ r c, InBounds s r c = true → board s r c ≠ .kEmpty →
    ∃ p ∈ registry s, p.row = r ∧ p.col = c
  distinct : ((registry s).map coord).Nodup

/-- States reachable from the initial state by applying actions taken from `LegalActions`
(through the framework entry point `ApplyAction`). -/
inductive Reachable : BattleChessState → Prop where
  | init : Reachable NewInitialState
  | step {s t : BattleChessState} {l : List Int} {a : Int} :
      Reachable s → LegalActions s = some l → a ∈ l → ApplyAction s a = some t →
      Reachable t

/-- The piece lists compared as unordered sets of `(row, col, type)`. -/
def sameEntries (l₁ l₂ : List Piece) : Prop := ∀ p, p ∈ l₁ ↔ p ∈ l₂

/-- Orthogonal unit neighbours. -/
def orthNeighbour (r1 c1 r2 c2 : Int) : Prop :=
  (r2 = r1 ∧ c2 = c1 + 1) ∨ (r2 = r1 ∧ c2 = c1 - 1) ∨
  (r2 = r1 + 1 ∧ c2 = c1) ∨ (r2 = r1 - 1 ∧ c2 = c1)

/-- Diagonal unit neighbours. -/
def diagNeighbour (r1 c1 r2 c2 : Int) : Prop :=
  (r2 = r1 + 1 ∧ c2 = c1 + 1) ∨ (r2 = r1 + 1 ∧ c2 = c1 - 1) ∨
  (r2 = r1 - 1 ∧ c2 = c1 - 1) ∨ (r2 = r1 - 1 ∧ c2 = c1 + 1)

/-- The encoding of a move descriptor on the 5x5 board. -/
def encode (r1 c1 r2 c2 t : Int) : Int :=
  RankActionMixedBase [kDefaultRows, kDefaultColumns, kDefaultRows, kDefaultColumns, 9]
    [r1, c1, r2, c2, t]

/-- The decoding of an action id on the 5x5 board. -/
def decode (a : Int) : List Int :=
  UnrankActionMixedBase a [kDefaultRows, kDefaultColumns, kDefaultRows, kDefaultColumns, 9]

/-- Valid move descriptors: every digit below its radix. -/
def validDescriptor (r1 c1 r2 c2 t : Int) : Prop :=
  (0 ≤ r1 ∧ r1 < kDefaultRows) ∧ (0 ≤ c1 ∧ c1 < kDefaultColumns) ∧
  (0 ≤ r2 ∧ r2 < kDefaultRows) ∧ (0 ≤ c2 ∧ c2 < kDefaultColumns) ∧ (0 ≤ t ∧ t < 9)

instance (r1 c1 r2 c2 t : Int) : Decidable (validDescriptor r1 c1 r2 c2 t) := by
  unfold validDescriptor
  infer_instance

/-- The King cell value of a player (0 = White, otherwise Black). -/
def kingOf (p : Int) : CellState := if p = 0 then .kWhiteKing else .kBlackKing

/-- The Defender cell value of a player. -/
def defenderOf (p : Int) : CellState := if p = 0 then .kWhiteDefender else .kBlackDefender

/-- The Attacker cell value of a player. -/
def attackerOf (p : Int) : CellState := if p = 0 then .kWhiteAttacker else .kBlackAttacker

/-- The ids that one iteration of the outer loop of `LegalActions` pushes for the piece
`p` once its `InBounds` check has passed (the value of `pieceActions` in that case). -/
def pieceMoves (s : BattleChessState) (king defender attacker : CellState) (enemy : Int)
    (p : Piece) : List Int :=
  (if p.pieceType = king then (KingAction p.row p.col).flatMap (kingStep s) else []) ++
  (if p.pieceType = defender then
    (DefenderAction p.row p.col).flatMap (captureStep s enemy) else []) ++
  (if p.pieceType = attacker then
    (AttackerAction p.row p.col).flatMap (captureStep s enemy) else [])

/-- A move descriptor that is sound in state `s`: both endpoints on the board and
distinct, the origin occupied, the destination empty or of the other colour, and the tag
the capture value of the destination cell (0 for an empty cell). -/
structure SoundMove (s : BattleChessState) (r1 c1 r2 c2 t : Int) : Prop where
  src_in : InBounds s r1 c1 = true
  dst_in : InBounds s r2 c2 = true
  apart : ¬ (r2 = r1 ∧ c2 = c1)
  src_occ : board s r1 c1 ≠ .kEmpty
  color_ne : StateToColor (board s r2 c2) ≠ StateToColor (board s r1 c1)
  tag_eq : t = getCaptureValue (board s r2 c2)

/-- What `DoApplyAction` does to the fields of the state for the move
`(r1, c1) -> (r2, c2)`: `s` is the state before, `s'` the state after. -/
structure ApplyFacts (s s' : BattleChessState) (r1 c1 r2 c2 : Int) : Prop where
  rows_eq : s'.rows_ = s.rows_
  cols_eq : s'.cols_ = s.cols_
  history_eq : s'.history_ = s.history_
  board_eq : s'.board_ = (SetBoard (SetBoard s r2 c2 (board s r1 c1)) r1 c1 .kEmpty).board_
  player_eq : s'.cur_player_ = NextPlayerRoundRobin s.cur_player_ kNumPlayers
  moves_eq : s'.total_moves_ = s.total_moves_ + 1
  winner_eq : s'.winner_ =
    if s.total_moves_ + 1 ≥ 1000 then 1
    else if board s r2 c2 = .kBlackKing then 0
    else if board s r2 c2 = .kWhiteKing then 1
    else s.winner_
  own_eq : pieces s' (StateToColor (board s r1 c1)) =
    (pieces s (StateToColor (board s r1 c1))).eraseP (pieceAt r1 c1) ++
      [{ row := r2, col := c2, pieceType := board s r1 c1 }]
  enemy_eq : pieces s' (1 - StateToColor (board s r1 c1)) =
    if board s r2 c2 = .kEmpty then pieces s (1 - StateToColor (board s r1 c1))
    else (pieces s (1 - StateToColor (board s r1 c1))).eraseP (pieceAt r2 c2)

/-- Bookkeeping invariant of reachable states: the winner field is unset, 0 or 1; the move
count is non-negative; the player to move is the parity of the move count; and while the
winner is unset the move count is below the cap. -/
structure Bookkeeping (s : BattleChessState) : Prop where
  winner_cases : s.winner_ = kInvalidPlayer ∨ s.winner_ = 0 ∨ s.winner_ = 1
  moves_nonneg : 0 ≤ s.total_moves_
  parity : s.cur_player_ = s.total_moves_ % 2
  below_cap : s.winner_ = kInvalidPlayer → s.total_moves_ < 1000

/-- Apply an action of the legal list, staying put when `ApplyAction` fails (used to name
example positions). -/
def play (s : BattleChessState) (a : Int) : BattleChessState :=
  (ApplyAction s a).getD s

/-- Example position after 1. K(4,2)-(3,2)  d(0,1)-(1,1)  2. K(3,2)-(2,2): Black to move,
the Black Defender on (1,1) attacks the White King on (2,2). -/
def whiteKingAttacked : BattleChessState :=
  play (play (play NewInitialState 5103) 279) 3933

/-- Example position after 1. A(4,0)-(3,1)  a(0,0)-(1,1)  2. A(3,1)-(2,2)  k(0,2)-(1,2):
White to move, the White Attacker on (2,2) attacks the Black King on (1,2). -/
def blackKingAttacked : BattleChessState :=
  play (play (play (play NewInitialState 4644) 54) 3708) 513

/-- The decoded origin `(r1, c1)` of an action id. -/
def originOf (a : Int) : Int × Int :=
  match decode a with
  | [r1, c1, _, _, _] => (r1, c1)
  | _ => (0, 0)

/-- The decoded destination `(r2, c2)` of an action id. -/
def destOf (a : Int) : Int × Int :=
  match decode a with
  | [_, _, r2, c2, _] => (r2, c2)
  | _ => (0, 0)

/-- The destination fields of a candidate vector. -/
def candDest (cand : List Int) : Int × Int := (cand.getD 2 0, cand.getD 3 0)

/-- The destination of the action `a` holds a King in state `s`: applying `a` captures a
King. -/
def capturesKing (s : BattleChessState) (a : Int) : Prop :=
  board s (destOf a).1 (destOf a).2 = .kBlackKing ∨
  board s (destOf a).1 (destOf a).2 = .kWhiteKing

instance (s : BattleChessState) (a : Int) : Decidable (capturesKing s a) := by
  unfold capturesKing
  infer_instance

/-- `ReachedIn k s`: the state `s` is reached from the initial state by a sequence of `k`
legal actions none of which captures a King. -/
inductive ReachedIn : Nat → BattleChessState → Prop where
  | init : ReachedIn 0 NewInitialState
  | step {k : Nat} {s t : BattleChessState} {l : List Int} {a : Int} :
      ReachedIn k s → LegalActions s = some l → a ∈ l → ¬ capturesKing s a →
      ApplyAction s a = some t → ReachedIn (k + 1) t

/-- A King-shuffle position: White to move, winner unset, 5x5 board, the White King on
(4,2) with (3,2) empty and the Black King on (0,2) with (1,2) empty. -/
structure ShufflePos (s : BattleChessState) : Prop where
  turn : s.cur_player_ = 0
  rows_eq : s.rows_ = 5
  cols_eq : s.cols_ = 5
  wk : board s 4 2 = .kWhiteKing
  wfree : board s 3 2 = .kEmpty
  bk : board s 0 2 = .kBlackKing
  bfree : board s 1 2 = .kEmpty

/-- The cell value written by a character of the flat serialization, if any (the inverse
of `CellToString`). -/
def cellOfChar (ch : Char) : Option CellState :=
  if ch = 'k' then some .kBlackKing
  else if ch = 'd' then some .kBlackDefender
  else if ch = 'a' then some .kBlackAttacker
  else if ch = 'K' then some .kWhiteKing
  else if ch = 'D' then some .kWhiteDefender
  else if ch = 'A' then some .kWhiteAttacker
  else if ch = '.' then some .kEmpty
  else none

/-- The cell values written by a string, when every character is one of `. k d a K D A`. -/
def cellsOfString : List Char → Option (List CellState)
  | [] => some []
  | ch :: rest =>
    match cellOfChar ch, cellsOfString rest with
    | some v, some vs => some (v :: vs)
    | _, _ => none

/-- The white registry entry that a cell value contributes at `(r, c)`. -/
def whiteEntry (r c : Int) (v : CellState) : List Piece :=
  if StateToColor v = 0 then [{ row := r, col := c, pieceType := v }] else []

/-- The black registry entry that a cell value contributes at `(r, c)`. -/
def blackEntry (r c : Int) (v : CellState) : List Piece :=
  if StateToColor v = 1 then [{ row := r, col := c, pieceType := v }] else []

/-- The effect of one iteration of the deserializer for the cell value `v` at `(r, c)`:
the cell is written and a piece, if any, is appended to the list of its colour. -/
def placeCell (st : BattleChessState) (r c : Int) (v : CellState) : BattleChessState :=
  { st with
    whitePieces := st.whitePieces ++ whiteEntry r c v
    blackPieces := st.blackPieces ++ blackEntry r c v
    board_ := st.board_.set (r * st.cols_ + c).toNat v }

/-- The coordinates of the 5x5 board in row-major order. -/
def cellCoords : List (Nat × Nat) :=
  (List.range 5).flatMap fun r => (List.range 5).map fun c => (r, c)

/-- The deserializer loop over a list of coordinates and the characters still to read. -/
def readCells : List (Nat × Nat) → List Char → BattleChessState → Option BattleChessState
  | [], _, st => some st
  | _ :: _, [], _ => none
  | rc :: rcs, ch :: rest, st =>
    (deserializeCell st (rc.1 : Int) (rc.2 : Int) ch).bind (readCells rcs rest)

/-- All cells of a list placed at the given coordinates, in order. -/
def placeAll : List (Nat × Nat) → List CellState → BattleChessState → BattleChessState
  | rc :: rcs, v :: vs, st => placeAll rcs vs (placeCell st (rc.1 : Int) (rc.2 : Int) v)
  | _, _, st => st

/-- The state that the deserializer builds from 25 cell values: the initial state with both
piece lists cleared and every cell placed in row-major order. -/
def stateOfCells (cells : List CellState) : BattleChessState :=
  placeAll cellCoords cells (InitPieces (InitPieces NewInitialState 0) 1)

/-! ## Reporting: utilities, observation planes, move notation -/

/-- `BattleChessGame::MinUtility`. -/
def MinUtility : Int := -1

/-- `BattleChessGame::UtilitySum`. -/
def UtilitySum : Int := 0

/-- `BattleChessGame::MaxUtility`. -/
def MaxUtility : Int := 1

/-- `kCellStates = 1 + 3 * kNumPlayers`: the number of cell values. -/
def kCellStates : Int := 1 + 3 * kNumPlayers

/-- The `switch` of `observation_plane` on a cell value (`plane` starts at -1 and every
case assigns it). -/
def planeOfCell : CellState → Int
  | .kBlackKing => 0
  | .kBlackDefender => 1
  | .kBlackAttacker => 2
  | .kWhiteKing => 3
  | .kWhiteDefender => 4
  | .kWhiteAttacker => 5
  | .kEmpty => 6

/-- `BattleChessState::observation_plane`. -/
def observation_plane (s : BattleChessState) (r c : Int) : Int :=
  planeOfCell (board s r c)

/-- Modelled from the spec: the framework class `TensorView<3>` (in
`open_spiel/utils/tensor_view.h`, outside the game's own files) addresses a flat vector of
shape `{d0, d1, d2}` in row-major order, so the entry `{p, r, c}` of the 7 x rows x cols
observation is stored at `(p * rows + r) * cols + c`. -/
def tensorIndex (s : BattleChessState) (p r c : Int) : Nat :=
  ((p * s.rows_ + r) * s.cols_ + c).toNat

/-- The entry `(p, r, c)` of an observation tensor stored as a flat vector. -/
def tensorAt (s : BattleChessState) (values : List Int) (p r c : Int) : Int :=
  values.getD (tensorIndex s p r c) 0

/-- The body of the inner loop of `ObservationTensor`: the plane of the cell, the check
`SPIEL_CHECK_TRUE(plane >= 0 && plane < kCellStates)`, then `view[{plane, r, c}] = 1.0`. -/
def observationStep (s : BattleChessState) (r c : Nat) (view : List Int) :
    Option (List Int) :=
  let plane := observation_plane s (r : Int) (c : Int)
  if plane ≥ 0 ∧ plane < kCellStates then
    some (view.set (tensorIndex s plane (r : Int) (c : Int)) 1)
  else none

/-- `BattleChessState::ObservationTensor`: the two checks on `player` (`num_players_` is
`kNumPlayers`), the view reset to zeros (`TensorView` constructed with `reset = true`),
then the two nested loops.  The doubles `0.0` and `1.0` are modelled by `Int`. -/
def ObservationTensor (s : BattleChessState) (player : Int) : Option (List Int) :=
  if ¬ (player ≥ 0) then none
  else if ¬ (player < kNumPlayers) then none
  else
    let view : List Int := List.replicate (kCellStates * s.rows_ * s.cols_).toNat 0
    (List.range s.rows_.toNat).foldlM (fun (v : List Int) (r : Nat) =>
      (List.range s.cols_.toNat).foldlM
        (fun (v2 : List Int) (c : Nat) => observationStep s r c v2) v) view

/-- The conversion `static_cast<char>(i)` of an `int`: the character whose byte value is
`i` modulo 256. -/
def charOfInt (i : Int) : Char := Char.ofNat (i % 256).toNat

/-- `RowLabel`: the one-character string `'1' + (rows - 1 - row)`. -/
def RowLabel (rows row : Int) : List Char :=
  [charOfInt (('1'.toNat : Int) + (rows - 1 - row))]

/-- `ColLabel`: the one-character string `'a' + col`. -/
def ColLabel (col : Int) : List Char :=
  [charOfInt (('a'.toNat : Int) + col)]

/-- `PieceName`: the letter of a capture tag; the empty string for a tag outside 0..6. -/
def PieceName (capture : Int) : List Char :=
  if capture = 0 then ['-']
  else if capture = 1 then ['A']
  else if capture = 2 then ['D']
  else if capture = 3 then ['K']
  else if capture = 4 then ['a']
  else if capture = 5 then ['d']
  else if capture = 6 then ['k']
  else []

/-- `BattleChessState::ActionToString` (the `player` argument is not read). -/
def ActionToString (s : BattleChessState) (_player : Int) (action : Int) : List Char :=
  match UnrankActionMixedBase action [s.rows_, s.cols_, s.rows_, s.cols_, 9] with
  | [r1, c1, r2, c2, capture] =>
    ColLabel c1 ++ RowLabel s.rows_ r1 ++ ColLabel c2 ++ RowLabel s.rows_ r2 ++
      PieceName capture
  | _ => []

/-- The decoded capture digit of an action id. -/
def tagOf (a : Int) : Int :=
  match decode a with
  | [_, _, _, _, t] => t
  | _ => 0

/-- Lexicographic order on move descriptors `(r1, c1, r2, c2, captureTag)`. -/
def lexLt (r1 c1 r2 c2 t r1' c1' r2' c2' t' : Int) : Prop :=
  r1 < r1' ∨ (r1 = r1' ∧ (c1 < c1' ∨ (c1 = c1' ∧ (r2 < r2' ∨ (r2 = r2' ∧
    (c2 < c2' ∨ (c2 = c2' ∧ t < t')))))))

/-- Two cell values are pieces of opposite colours: one white and one black. -/
def oppositeColours (v w : CellState) : Prop :=
  (StateToColor v = 0 ∧ StateToColor w = 1) ∨ (StateToColor v = 1 ∧ StateToColor w = 0)

instance (v w : CellState) : Decidable (oppositeColours v w) := by
  unfold oppositeColours
  infer_instance

/-- The fatal checks of `DoApplyAction`, in program order: the two bounds assertions, the
colour assertion of a capture, and the `SpielFatalError` of the two `DeletePiece` calls. -/
inductive ApplyCheck where
  | originBounds
  | destBounds
  | colour
  | deleteCaptured
  | deleteMover
  deriving DecidableEq, Repr

/-- `BattleChessState::DoApplyAction` with the point of failure recorded: the result
`Except.error (check, st)` says that `check` failed when the state was `st`.  The decoded
fields are read from the vector `values`, initialised with `-1`; `tail` is the part of the
body after the capture block. -/
def DoApplyActionTraced (s : BattleChessState) (action : Int) :
    Except (ApplyCheck × BattleChessState) BattleChessState :=
  let values := UnrankActionMixedBase action [s.rows_, s.cols_, s.rows_, s.cols_, 9]
  let r1 := values.getD 0 (-1)
  let c1 := values.getD 1 (-1)
  let r2 := values.getD 2 (-1)
  let c2 := values.getD 3 (-1)
  let capture := values.getD 4 (-1)
  if !InBounds s r1 c1 then .error (.originBounds, s)
  else if !InBounds s r2 c2 then .error (.destBounds, s)
  else
    let tail (s1 : BattleChessState) :
        Except (ApplyCheck × BattleChessState) BattleChessState :=
      match DeletePiece s1 r1 c1 (board s1 r1 c1) with
      | none => .error (.deleteMover, s1)
      | some s2 =>
        let s3 := AddPiece s2 r2 c2 (board s2 r1 c1)
        let s4 := SetBoard s3 r2 c2 (board s3 r1 c1)
        let s5 := SetBoard s4 r1 c1 .kEmpty
        let s6 := { s5 with
          cur_player_ := NextPlayerRoundRobin s5.cur_player_ kNumPlayers
          total_moves_ := s5.total_moves_ + 1 }
        .ok (if s6.total_moves_ ≥ 1000 then { s6 with winner_ := 1 } else s6)
    if capture > 0 then
      if 1 - StateToColor (board s r2 c2) ≠ StateToColor (board s r1 c1) then
        .error (.colour, s)
      else
        match DeletePiece s r2 c2 (board s r2 c2) with
        | none => .error (.deleteCaptured, s)
        | some sa =>
          let sb := if board sa r2 c2 = .kBlackKing then { sa with winner_ := 0 } else sa
          let sc := if board sb r2 c2 = .kWhiteKing then { sb with winner_ := 1 } else sb
          tail sc
    else tail s

/-- Play in progress: the states reached from the initial state by interleaving applied
actions and undos.  An action is applied while the state is not terminal and may be any
action that `DoApplyAction` accepts (pushed on the history by the framework), in
particular every action of `LegalActions`, which is empty in a terminal state; an undo
takes back the most recent action of the history. -/
inductive Played : BattleChessState → Prop where
  | init : Played NewInitialState
  | apply {s t : BattleChessState} {a : Int} :
      Played s → IsTerminal s = false → ApplyAction s a = some t → Played t
  | undo {s t : BattleChessState} {a : Int} :
      Played s → s.history_.getLast? = some a → UndoAction s a = some t → Played t

/-- The initial position with the counters of the last move before the cap: 999 moves
made, Black to move (used to evaluate the cap branch of `DoApplyAction`). -/
def capEve : BattleChessState :=
  { NewInitialState with total_moves_ := 999, cur_player_ := 1 }

/-- One move of play by a legal action: `ApplyAction` on `a` when `a` is in the list of
`LegalActions s`, nothing otherwise. -/
def legalPlay (s : BattleChessState) (a : Int) : Option BattleChessState :=
  match LegalActions s with
  | some l => if a ∈ l then ApplyAction s a else none
  | none => none

/-- `UndoAction` of the most recent action of the history. -/
def undoLast (s : BattleChessState) : Option BattleChessState :=
  match s.history_.getLast? with
  | some a => UndoAction s a
  | none => none

/-- A line of play by legal actions with one undo: 1. A(4,0)-(3,1) d(0,1)-(1,1), the Black
move taken back, then 1... k(0,2)-(1,2)  2. A(3,1)-(2,2) k(1,2)-(1,1)  3. A(4,4)-(3,3)
k(1,1)-(1,2)  4. A(2,2)-(1,1). -/
def staleEntryLine : Option BattleChessState :=
  ((((((((legalPlay NewInitialState 4644).bind (legalPlay · 279)).bind undoLast).bind
    (legalPlay · 513)).bind (legalPlay · 3708)).bind (legalPlay · 1629)).bind
    (legalPlay · 5562)).bind (legalPlay · 1413)).bind (legalPlay · 2754)

/-- The position at the end of `staleEntryLine`: Black to move, the Black King on (1,2), a
White Attacker on (1,1), and the entry of the Black King's earlier stay on (1,1) still in
the black list. -/
def staleEntryPosition : BattleChessState :=
  staleEntryLine.getD NewInitialState

/-- The fatal checks of `UndoAction`, in program order: the two bounds assertions and the
`SpielFatalError` of `StateType`. -/
inductive UndoCheck where
  | originBounds
  | destBounds
  | stateType
  deriving DecidableEq, Repr

/-- `BattleChessState::UndoAction` with the point of failure recorded: the result
`Except.error (check, st)` says that `check` failed when the state was `st`.  The player,
the move count, the winner and the two board cells are written before `StateType` is
called, so a failure of `StateType` leaves them written. -/
def UndoActionTraced (s : BattleChessState) (action : Int) :
    Except (UndoCheck × BattleChessState) BattleChessState :=
  let values := UnrankActionMixedBase action [s.rows_, s.cols_, s.rows_, s.cols_, 9]
  let r1 := values.getD 0 (-1)
  let c1 := values.getD 1 (-1)
  let r2 := values.getD 2 (-1)
  let c2 := values.getD 3 (-1)
  let capture := values.getD 4 (-1)
  if !InBounds s r1 c1 then .error (.originBounds, s)
  else if !InBounds s r2 c2 then .error (.destBounds, s)
  else
    let s1 := { s with
      cur_player_ := PreviousPlayerRoundRobin s.cur_player_ 2
      total_moves_ := s.total_moves_ - 1
      winner_ := kInvalidPlayer }
    let s2 := SetBoard s1 r1 c1 (board s1 r2 c2)
    let s3 := SetBoard s2 r2 c2 .kEmpty
    if capture > 0 then
      match StateType capture with
      | none => .error (.stateType, s3)
      | some state =>
        let s4 := AddPiece (SetBoard s3 r2 c2 state) r2 c2 state
        .ok { s4 with history_ := s4.history_.dropLast }
    else .ok { s3 with history_ := s3.history_.dropLast }

/-- The state `s` with the move count `n` and the history `h` in place of its own. -/
def withCounters (s : BattleChessState) (n : Int) (h : List Int) : BattleChessState :=
  { s with total_moves_ := n, history_ := h }

/-- Four plies that return to the same board: a(0,4)-(1,3), K(4,2)-(3,2), a(1,3)-(0,4),
K(3,2)-(4,2). -/
def shuffleCycle : List Int := [972, 5103, 1836, 4023]

/-- The position of `staleEntryPosition` after one `shuffleCycle`. -/
def staleBase : BattleChessState :=
  (shuffleCycle.foldlM legalPlay staleEntryPosition).getD NewInitialState

/-- `staleBase` after a(0,4)-(1,3). -/
def staleBase1 : BattleChessState := (legalPlay staleBase 972).getD NewInitialState

/-- `staleBase` after a(0,4)-(1,3), K(4,2)-(3,2). -/
def staleBase2 : BattleChessState := (legalPlay staleBase1 5103).getD NewInitialState

/-- `staleBase` after a(0,4)-(1,3), K(4,2)-(3,2), a(1,3)-(0,4). -/
def staleBase3 : BattleChessState := (legalPlay staleBase2 1836).getD NewInitialState

/-- The two winner assignments of the capture block of `DoApplyAction`, on the state `sa`
left by the removal of the captured piece. -/
def captureWinner (sa : BattleChessState) (r2 c2 : Int) : BattleChessState :=
  let sb := if board sa r2 c2 = .kBlackKing then { sa with winner_ := 0 } else sa
  if board sb r2 c2 = .kWhiteKing then { sb with winner_ := 1 } else sb

/-- The part of `DoApplyAction` after the removal of the moving piece, on the state `s2`
left by that removal: the piece re-added at the destination, the two board cells written,
the player advanced, the move count incremented and the cap applied. -/
def applyTail (s2 : BattleChessState) (r1 c1 r2 c2 : Int) : BattleChessState :=
  let s3 := AddPiece s2 r2 c2 (board s2 r1 c1)
  let s4 := SetBoard s3 r2 c2 (board s3 r1 c1)
  let s5 := SetBoard s4 r1 c1 .kEmpty
  let s6 := { s5 with
    cur_player_ := NextPlayerRoundRobin s5.cur_player_ kNumPlayers
    total_moves_ := s5.total_moves_ + 1 }
  if s6.total_moves_ ≥ 1000 then { s6 with winner_ := 1 } else s6

/-- A line of play by legal actions with one undo that reaches the last move before the
cap: `staleEntryLine`, then the four plies of `shuffleCycle`, then 247 times these four
plies again. -/
def capLine : Option BattleChessState :=
  (staleEntryLine.bind fun s => shuffleCycle.foldlM legalPlay s).bind fun s =>
    (List.replicate 247 shuffleCycle).flatten.foldlM legalPlay s

/-- The position at the end of `capLine`: the board and the piece lists of `staleBase`
after 999 moves, Black to move. -/
def capEveStale : BattleChessState :=
  withCounters staleBase 999 (staleBase.history_ ++ (List.replicate 247 shuffleCycle).flatten)

/-! ## The action codec -/

theorem rank_five (b0 b1 b2 b3 b4 r1 c1 r2 c2 t : Int) :
    RankActionMixedBase [b0, b1, b2, b3, b4] [r1, c1, r2, c2, t]
      = (((r1 * b1 + c1) * b2 + r2) * b3 + c2) * b4 + t := by
  simp [RankActionMixedBase]

theorem unrank_five (a : Int) (h : 0 ≤ a) :
    UnrankActionMixedBase a [5, 5, 5, 5, 9]
      = [a / 1125 % 5, a / 225 % 5, a / 45 % 5, a / 9 % 5, a % 9] := by
  have h9 : a.tdiv 9 = a / 9 := Int.tdiv_eq_ediv h (by decide)
  have h9' : (0 : Int) ≤ a / 9 := by omega
  have h45 : (a / 9).tdiv 5 = a / 45 := by
    rw [Int.tdiv_eq_ediv h9' (by decide)]; omega
  have h45' : (0 : Int) ≤ a / 45 := by omega
  have h225 : (a / 45).tdiv 5 = a / 225 := by
    rw [Int.tdiv_eq_ediv h45' (by decide)]; omega
  have h225' : (0 : Int) ≤ a / 225 := by omega
  have h1125 : (a / 225).tdiv 5 = a / 1125 := by
    rw [Int.tdiv_eq_ediv h225' (by decide)]; omega
  have h1125' : (0 : Int) ≤ a / 1125 := by omega
  simp only [UnrankActionMixedBase, List.foldr, h9, h45, h225, h1125,
    Int.tmod_eq_emod h (show (0:Int) ≤ 9 by decide),
    Int.tmod_eq_emod h9' (show (0:Int) ≤ 5 by decide),
    Int.tmod_eq_emod h45' (show (0:Int) ≤ 5 by decide),
    Int.tmod_eq_emod h225' (show (0:Int) ≤ 5 by decide),
    Int.tmod_eq_emod h1125' (show (0:Int) ≤ 5 by decide)]

theorem unrank_rank (r1 c1 r2 c2 t : Int)
    (hr1 : 0 ≤ r1 ∧ r1 < 5) (hc1 : 0 ≤ c1 ∧ c1 < 5) (hr2 : 0 ≤ r2 ∧ r2 < 5)
    (hc2 : 0 ≤ c2 ∧ c2 < 5) (ht : 0 ≤ t ∧ t < 9) :
    UnrankActionMixedBase (RankActionMixedBase [5, 5, 5, 5, 9] [r1, c1, r2, c2, t])
      [5, 5, 5, 5, 9] = [r1, c1, r2, c2, t] := by
  rw [rank_five, unrank_five _ (by omega)]
  simp only [List.cons.injEq, and_true]
  refine ⟨?_, ?_, ?_, ?_, ?_⟩ <;> omega

/-- C4. Action codec round trip: on the 5x5 board, decoding the mixed-radix id obtained by
encoding a valid move descriptor `(r1, c1, r2, c2, tag)` (digits below the radices
`{rows, cols, rows, cols, 9}`) returns exactly `[r1, c1, r2, c2, tag]`. -/
theorem codec_round_trip (r1 c1 r2 c2 t : Int) (h : validDescriptor r1 c1 r2 c2 t) :
    decode (encode r1 c1 r2 c2 t) = [r1, c1, r2, c2, t] := by
  obtain ⟨h1, h2, h3, h4, h5⟩ := h
  simp only [kDefaultRows, kDefaultColumns] at h1 h2 h3 h4
  exact unrank_rank r1 c1 r2 c2 t h1 h2 h3 h4 h5

theorem codec_round_trip_witness :
    validDescriptor 4 0 3 1 0 ∧ decode (encode 4 0 3 1 0) = [4, 0, 3, 1, 0] :=
  ⟨by decide, codec_round_trip 4 0 3 1 0 (by decide)⟩

/-- C5. The action codec is a bijection between the valid move descriptors and the range
`[0, NumDistinctActions())`, with `NumDistinctActions() = 5625`: every encoded id lies in
the range; every id of the range decodes to a valid descriptor whose encoding is the id;
and two valid descriptors with the same id are equal. -/
theorem codec_bijection :
    NumDistinctActions = 5625 ∧
    (∀ r1 c1 r2 c2 t, validDescriptor r1 c1 r2 c2 t →
      0 ≤ encode r1 c1 r2 c2 t ∧ encode r1 c1 r2 c2 t < NumDistinctActions) ∧
    (∀ a, 0 ≤ a → a < NumDistinctActions →
      ∃ r1 c1 r2 c2 t, decode a = [r1, c1, r2, c2, t] ∧ validDescriptor r1 c1 r2 c2 t ∧
        encode r1 c1 r2 c2 t = a) ∧
    (∀ r1 c1 r2 c2 t r1' c1' r2' c2' t', validDescriptor r1 c1 r2 c2 t →
      validDescriptor r1' c1' r2' c2' t' →
      encode r1 c1 r2 c2 t = encode r1' c1' r2' c2' t' →
      r1 = r1' ∧ c1 = c1' ∧ r2 = r2' ∧ c2 = c2' ∧ t = t') := by
  refine ⟨by decide, ?_, ?_, ?_⟩
  · intro r1 c1 r2 c2 t h
    obtain ⟨h1, h2, h3, h4, h5⟩ := h
    simp only [kDefaultRows, kDefaultColumns] at h1 h2 h3 h4
    simp only [encode, kDefaultRows, kDefaultColumns, rank_five, NumDistinctActions]
    constructor <;> omega
  · intro a h0 h1
    simp only [NumDistinctActions, kDefaultRows, kDefaultColumns] at h1
    refine ⟨a / 1125 % 5, a / 225 % 5, a / 45 % 5, a / 9 % 5, a % 9, ?_, ?_, ?_⟩
    · simp only [decode, kDefaultRows, kDefaultColumns]
      exact unrank_five a h0
    · simp only [validDescriptor, kDefaultRows, kDefaultColumns]
      omega
    · simp only [encode, kDefaultRows, kDefaultColumns, rank_five]
      omega
  · intro r1 c1 r2 c2 t r1' c1' r2' c2' t' h h' he
    obtain ⟨h1, h2, h3, h4, h5⟩ := h
    obtain ⟨h1', h2', h3', h4', h5'⟩ := h'
    simp only [kDefaultRows, kDefaultColumns] at h1 h2 h3 h4 h1' h2' h3' h4'
    simp only [encode, kDefaultRows, kDefaultColumns, rank_five] at he
    omega

theorem codec_bijection_witness :
    (0 ≤ encode 4 0 3 1 0 ∧ encode 4 0 3 1 0 < NumDistinctActions) ∧
    (∃ r1 c1 r2 c2 t, decode 5562 = [r1, c1, r2, c2, t] ∧ validDescriptor r1 c1 r2 c2 t ∧
        encode r1 c1 r2 c2 t = 5562) :=
  ⟨codec_bijection.2.1 4 0 3 1 0 (by decide),
   codec_bijection.2.2.1 5562 (by decide) (by decide)⟩

/-! ## Board store lemmas -/

theorem inBounds_iff (s : BattleChessState) (r c : Int) :
    InBounds s r c = true ↔ 0 ≤ r ∧ r < s.rows_ ∧ 0 ≤ c ∧ c < s.cols_ := by
  simp [InBounds, and_assoc]

theorem board_SetBoard (s : BattleChessState) (hc : s.cols_ = 5) (hl : s.board_.length = 25)
    (hr : s.rows_ = 5)
    (r c : Int) (v : CellState) (r' c' : Int)
    (h : InBounds s r c = true) (h' : InBounds s r' c' = true) :
    board (SetBoard s r c v) r' c' = if r' = r ∧ c' = c then v else board s r' c' := by
  rw [inBounds_iff] at h h'
  simp only [board, SetBoard, List.getD_eq_getElem?_getD, List.getElem?_set, hc]
  rw [hc, hr] at h h'
  by_cases he : r' = r ∧ c' = c
  · obtain ⟨rfl, rfl⟩ := he
    have : (r' * 5 + c').toNat < s.board_.length := by omega
    simp [this]
  · have : (r * 5 + c).toNat ≠ (r' * 5 + c').toNat := by omega
    simp [this, he]

theorem color_cases (v : CellState) (h : v ≠ .kEmpty) :
    StateToColor v = 0 ∨ StateToColor v = 1 := by
  cases v <;> simp [StateToColor] at h ⊢

theorem color_empty_iff (v : CellState) : StateToColor v = -1 ↔ v = .kEmpty := by
  cases v <;> simp [StateToColor]

theorem pieceAt_iff (r c : Int) (p : Piece) : pieceAt r c p = true ↔ p.row = r ∧ p.col = c := by
  simp [pieceAt]

theorem mem_registry (s : BattleChessState) (p : Piece) :
    p ∈ registry s ↔ p ∈ pieces s 0 ∨ p ∈ pieces s 1 := by
  simp [registry, pieces]

theorem Consistent.side {s : BattleChessState} (h : Consistent s) (k : Int)
    (hk : k = 0 ∨ k = 1) :
    ∀ p ∈ pieces s k, InBounds s p.row p.col = true ∧ board s p.row p.col = p.pieceType ∧
      StateToColor p.pieceType = k := by
  rcases hk with rfl | rfl
  · simpa [pieces] using h.white_ok
  · simpa [pieces] using h.black_ok

theorem occupied_any {s : BattleChessState} (h : Consistent s) (r c : Int)
    (hin : InBounds s r c = true) (hne : board s r c ≠ .kEmpty) :
    (pieces s (StateToColor (board s r c))).any (pieceAt r c) = true := by
  obtain ⟨p, hp, hr, hc⟩ := h.covered r c hin hne
  rw [List.any_eq_true]
  refine ⟨p, ?_, (pieceAt_iff r c p).2 ⟨hr, hc⟩⟩
  rw [mem_registry] at hp
  rcases hp with hp | hp
  · obtain ⟨_, hb, hcol⟩ := h.side 0 (Or.inl rfl) p hp
    rw [hr, hc] at hb
    rw [hb, hcol]; exact hp
  · obtain ⟨_, hb, hcol⟩ := h.side 1 (Or.inr rfl) p hp
    rw [hr, hc] at hb
    rw [hb, hcol]; exact hp

theorem captureValue_range (v : CellState) :
    0 ≤ getCaptureValue v ∧ getCaptureValue v < 9 := by
  cases v <;> simp [getCaptureValue]

theorem captureValue_pos_iff (v : CellState) : 0 < getCaptureValue v ↔ v ≠ .kEmpty := by
  cases v <;> simp [getCaptureValue]

@[simp] theorem board_setWhite (s : BattleChessState) (l : List Piece) (r c : Int) :
    board { s with whitePieces := l } r c = board s r c := rfl

@[simp] theorem board_setBlack (s : BattleChessState) (l : List Piece) (r c : Int) :
    board { s with blackPieces := l } r c = board s r c := rfl

@[simp] theorem board_setWinner (s : BattleChessState) (w : Int) (r c : Int) :
    board { s with winner_ := w } r c = board s r c := rfl

theorem board_mk (s : BattleChessState) (cp w tm : Int) (wp bp : List Piece)
    (hist : List Int) (r c : Int) :
    board ⟨cp, w, tm, wp, bp, s.rows_, s.cols_, s.board_, hist⟩ r c = board s r c := rfl

theorem DeletePiece_white (s : BattleChessState) (r c : Int) (v : CellState)
    (hv : StateToColor v = 0) (hany : s.whitePieces.any (pieceAt r c) = true) :
    DeletePiece s r c v = some { s with whitePieces := s.whitePieces.eraseP (pieceAt r c) } := by
  simp only [DeletePiece, hv, hany, if_true]

theorem DeletePiece_black (s : BattleChessState) (r c : Int) (v : CellState)
    (hv : StateToColor v = 1) (hany : s.blackPieces.any (pieceAt r c) = true) :
    DeletePiece s r c v = some { s with blackPieces := s.blackPieces.eraseP (pieceAt r c) } := by
  simp only [DeletePiece, hv, hany, if_true]
  simp

theorem AddPiece_white (s : BattleChessState) (r c : Int) (v : CellState)
    (hv : StateToColor v = 0) :
    AddPiece s r c v = { s with whitePieces := s.whitePieces ++ [⟨r, c, v⟩] } := by
  simp only [AddPiece, hv, if_true]

theorem AddPiece_black (s : BattleChessState) (r c : Int) (v : CellState)
    (hv : StateToColor v = 1) :
    AddPiece s r c v = { s with blackPieces := s.blackPieces ++ [⟨r, c, v⟩] } := by
  simp only [AddPiece, hv]
  simp

theorem doApply_sound {s : BattleChessState} (h : Consistent s) {r1 c1 r2 c2 t : Int}
    (m : SoundMove s r1 c1 r2 c2 t) :
    ∃ s', DoApplyAction s (encode r1 c1 r2 c2 t) = some s' ∧ ApplyFacts s s' r1 c1 r2 c2 := by
  have hsrc := (inBounds_iff s r1 c1).1 m.src_in
  have hdst := (inBounds_iff s r2 c2).1 m.dst_in
  rw [h.rows_eq, h.cols_eq] at hsrc hdst
  have ht := captureValue_range (board s r2 c2)
  rw [← m.tag_eq] at ht
  have hun : UnrankActionMixedBase (encode r1 c1 r2 c2 t) [s.rows_, s.cols_, s.rows_, s.cols_, 9]
      = [r1, c1, r2, c2, t] := by
    rw [h.rows_eq, h.cols_eq]
    exact unrank_rank r1 c1 r2 c2 t ⟨hsrc.1, hsrc.2.1⟩ ⟨hsrc.2.2.1, hsrc.2.2.2⟩
      ⟨hdst.1, hdst.2.1⟩ ⟨hdst.2.2.1, hdst.2.2.2⟩ ht
  have hany1 := occupied_any h r1 c1 m.src_in m.src_occ
  have hcv := color_cases _ m.src_occ
  have hcne := m.color_ne
  unfold DoApplyAction
  rw [hun]
  simp only [m.src_in, m.dst_in, Bool.not_true, Bool.false_eq_true, if_false]
  by_cases hd : board s r2 c2 = .kEmpty
  · have ht0 : t = 0 := by rw [m.tag_eq, hd]; rfl
    subst ht0
    simp only [gt_iff_lt, lt_irrefl, if_false, Option.pure_def, Option.bind_eq_bind,
      Option.some_bind]
    rcases hcv with hcv | hcv
    · rw [hcv] at hany1
      simp only [pieces, if_true] at hany1
      rw [DeletePiece_white s r1 c1 _ hcv hany1]
      simp only [Option.some_bind, board_setWhite]
      rw [AddPiece_white _ r2 c2 _ hcv]
      refine ⟨_, rfl, ?_⟩
      by_cases hm : 1000 ≤ s.total_moves_ + 1 <;>
      constructor <;> simp [SetBoard, pieces, hcv, hd, hm]
    · rw [hcv] at hany1
      simp only [pieces, one_ne_zero, if_false] at hany1
      rw [DeletePiece_black s r1 c1 _ hcv hany1]
      simp only [Option.some_bind, board_setBlack]
      rw [AddPiece_black _ r2 c2 _ hcv]
      refine ⟨_, rfl, ?_⟩
      by_cases hm : 1000 ≤ s.total_moves_ + 1 <;>
      constructor <;> simp [SetBoard, pieces, hcv, hd, hm]
  · have htpos : t > 0 := by rw [m.tag_eq]; exact (captureValue_pos_iff _).2 hd
    have hcd := color_cases _ hd
    have hany2 := occupied_any h r2 c2 m.dst_in hd
    have hking : (board s r2 c2 = .kBlackKing ∧ ¬ board s r2 c2 = .kWhiteKing) ∨
        (¬ board s r2 c2 = .kBlackKing ∧ board s r2 c2 = .kWhiteKing) ∨
        (¬ board s r2 c2 = .kBlackKing ∧ ¬ board s r2 c2 = .kWhiteKing) := by
      cases board s r2 c2 <;> simp
    simp only [htpos, if_true, Option.pure_def, Option.bind_eq_bind]
    rcases hcv with hcv | hcv
    · have hcd1 : StateToColor (board s r2 c2) = 1 := by omega
      rw [hcv] at hany1
      rw [hcd1] at hany2
      simp only [pieces, one_ne_zero, if_false, if_true] at hany1 hany2
      have hchk : ¬ (1 - StateToColor (board s r2 c2) ≠ StateToColor (board s r1 c1)) := by
        rw [hcd1, hcv]; decide
      simp only [hchk, if_false]
      rw [DeletePiece_black s r2 c2 _ hcd1 hany2]
      simp only [Option.some_bind, board_setBlack]
      by_cases hm : 1000 ≤ s.total_moves_ + 1 <;>
      rcases hking with ⟨hbk, hwk⟩ | ⟨hbk, hwk⟩ | ⟨hbk, hwk⟩ <;>
      simp only [hbk, hwk, if_true, if_false, board_mk, DeletePiece, AddPiece, hcv, hany1,
        Option.some_bind, reduceCtorEq] <;>
      refine ⟨_, rfl, ?_⟩ <;>
      constructor <;> simp [SetBoard, pieces, hcv, hd, hm, hbk, hwk]
    · have hcd0 : StateToColor (board s r2 c2) = 0 := by omega
      rw [hcv] at hany1
      rw [hcd0] at hany2
      simp only [pieces, one_ne_zero, if_false, if_true] at hany1 hany2
      have hchk : ¬ (1 - StateToColor (board s r2 c2) ≠ StateToColor (board s r1 c1)) := by
        rw [hcd0, hcv]; decide
      simp only [hchk, if_false]
      rw [DeletePiece_white s r2 c2 _ hcd0 hany2]
      simp only [Option.some_bind, board_setWhite]
      by_cases hm : 1000 ≤ s.total_moves_ + 1 <;>
      rcases hking with ⟨hbk, hwk⟩ | ⟨hbk, hwk⟩ | ⟨hbk, hwk⟩ <;>
      simp only [hbk, hwk, if_true, if_false, board_mk, DeletePiece, AddPiece, hcv, hany1,
        Option.some_bind, reduceCtorEq, one_ne_zero] <;>
      refine ⟨_, rfl, ?_⟩ <;>
      constructor <;> simp [SetBoard, pieces, hcv, hd, hm, hbk, hwk]

/-! ## Preservation of the consistency invariant -/

theorem not_at_of_mem_eraseP (l : List Piece) (r c : Int) (hn : (l.map coord).Nodup)
    (p : Piece) (hp : p ∈ l.eraseP (pieceAt r c)) : ¬ (p.row = r ∧ p.col = c) := by
  induction l with
  | nil => simp at hp
  | cons q l ih =>
    rw [List.map_cons, List.nodup_cons] at hn
    by_cases hq : pieceAt r c q = true
    · rw [List.eraseP_cons_of_pos hq] at hp
      rintro ⟨h1, h2⟩
      rw [pieceAt_iff] at hq
      apply hn.1
      rw [List.mem_map]
      exact ⟨p, hp, by simp [coord, h1, h2, hq.1, hq.2]⟩
    · rw [List.eraseP_cons_of_neg hq] at hp
      rcases List.mem_cons.1 hp with rfl | hp
      · rwa [pieceAt_iff] at hq
      · exact ih hn.2 hp

theorem mem_eraseP_of_not_at (l : List Piece) (r c : Int) (p : Piece) (hp : p ∈ l)
    (h : ¬ (p.row = r ∧ p.col = c)) : p ∈ l.eraseP (pieceAt r c) := by
  rw [List.mem_eraseP_of_neg]
  · exact hp
  · rwa [pieceAt_iff]

theorem registry_perm (s : BattleChessState) (k : Int) (hk : k = 0 ∨ k = 1) :
    (registry s).Perm (pieces s k ++ pieces s (1 - k)) := by
  rcases hk with rfl | rfl
  · simp [registry, pieces]
  · simpa [registry, pieces] using List.perm_append_comm

theorem board_of_facts {s s' : BattleChessState} (h : Consistent s) {r1 c1 r2 c2 : Int}
    (f : ApplyFacts s s' r1 c1 r2 c2) (hsrc : InBounds s r1 c1 = true)
    (hdst : InBounds s r2 c2 = true) (r c : Int) (hin : InBounds s r c = true) :
    board s' r c =
      if r = r1 ∧ c = c1 then .kEmpty
      else if r = r2 ∧ c = c2 then board s r1 c1 else board s r c := by
  have e : board s' r c = board (SetBoard (SetBoard s r2 c2 (board s r1 c1)) r1 c1 .kEmpty) r c := by
    simp only [board, f.board_eq, f.cols_eq]
    rfl
  rw [e]
  have hs2 : (SetBoard s r2 c2 (board s r1 c1)).board_.length = 25 := by
    simp [SetBoard, h.board_len]
  rw [board_SetBoard (SetBoard s r2 c2 (board s r1 c1)) h.cols_eq hs2 h.rows_eq r1 c1 _ r c
      hsrc hin,
    board_SetBoard s h.cols_eq h.board_len h.rows_eq r2 c2 _ r c hdst hin]

theorem inBounds_of_facts {s s' : BattleChessState} {r1 c1 r2 c2 : Int}
    (f : ApplyFacts s s' r1 c1 r2 c2) (r c : Int) : InBounds s' r c = InBounds s r c := by
  simp only [InBounds, f.rows_eq, f.cols_eq]

theorem consistent_step {s s' : BattleChessState} (h : Consistent s) {r1 c1 r2 c2 t : Int}
    (m : SoundMove s r1 c1 r2 c2 t) (f : ApplyFacts s s' r1 c1 r2 c2) : Consistent s' := by
  have hk := color_cases _ m.src_occ
  have hcne := m.color_ne
  have hown' := f.own_eq
  have hen' := f.enemy_eq
  obtain ⟨k, hvk⟩ : ∃ k, StateToColor (board s r1 c1) = k := ⟨_, rfl⟩
  rw [hvk] at hk hcne hown' hen'
  have hk' : 1 - k = 0 ∨ 1 - k = 1 := by omega
  have hown := h.side k hk
  have hen := h.side (1 - k) hk'
  have hnd : ((pieces s k ++ pieces s (1 - k)).map coord).Nodup :=
    ((registry_perm s k hk).map coord).nodup_iff.1 h.distinct
  have hnd_own : ((pieces s k).map coord).Nodup := by
    rw [List.map_append] at hnd; exact hnd.of_append_left
  have hnd_en : ((pieces s (1 - k)).map coord).Nodup := by
    rw [List.map_append] at hnd; exact hnd.of_append_right
  -- entries of the mover's list that stay
  have own_er : ∀ p ∈ (pieces s k).eraseP (pieceAt r1 c1),
      p ∈ pieces s k ∧ ¬ (p.row = r1 ∧ p.col = c1) ∧ ¬ (p.row = r2 ∧ p.col = c2) := by
    intro p hp
    have hp' := List.mem_of_mem_eraseP hp
    refine ⟨hp', not_at_of_mem_eraseP _ r1 c1 hnd_own p hp, ?_⟩
    rintro ⟨e1, e2⟩
    obtain ⟨_, hb, hc⟩ := hown p hp'
    rw [e1, e2] at hb
    rw [hb, hc] at hcne
    exact hcne rfl
  -- entries of the other list that stay
  have en_er : ∀ p ∈ pieces s' (1 - k),
      p ∈ pieces s (1 - k) ∧ ¬ (p.row = r1 ∧ p.col = c1) ∧ ¬ (p.row = r2 ∧ p.col = c2) := by
    intro p hp
    rw [hen'] at hp
    have hp' : p ∈ pieces s (1 - k) := by
      split at hp
      · exact hp
      · exact List.mem_of_mem_eraseP hp
    obtain ⟨_, hb, hc⟩ := hen p hp'
    refine ⟨hp', ?_, ?_⟩
    · rintro ⟨e1, e2⟩
      rw [e1, e2] at hb
      rw [hb, hc] at hvk
      omega
    · split at hp
      · rename_i hd
        rintro ⟨e1, e2⟩
        rw [e1, e2, hd] at hb
        rw [← hb] at hc
        simp [StateToColor] at hc
        omega
      · exact not_at_of_mem_eraseP _ r2 c2 hnd_en p hp
  have keep : ∀ p : Piece, InBounds s p.row p.col = true →
      ¬ (p.row = r1 ∧ p.col = c1) → ¬ (p.row = r2 ∧ p.col = c2) →
      board s' p.row p.col = board s p.row p.col := by
    intro p hin h1 h2
    rw [board_of_facts h f m.src_in m.dst_in _ _ hin, if_neg h1, if_neg h2]
  have side' : ∀ j, j = k ∨ j = 1 - k → ∀ p ∈ pieces s' j,
      InBounds s' p.row p.col = true ∧ board s' p.row p.col = p.pieceType ∧
        StateToColor p.pieceType = j := by
    intro j hj p hp
    rw [inBounds_of_facts f]
    rcases hj with rfl | rfl
    · rw [hown', List.mem_append, List.mem_singleton] at hp
      rcases hp with hp | rfl
      · obtain ⟨hp', h1, h2⟩ := own_er p hp
        obtain ⟨hin, hb, hc⟩ := hown p hp'
        exact ⟨hin, (keep p hin h1 h2).trans hb, hc⟩
      · refine ⟨m.dst_in, ?_, hvk⟩
        rw [board_of_facts h f m.src_in m.dst_in _ _ m.dst_in, if_neg m.apart]
        simp
    · obtain ⟨hp', h1, h2⟩ := en_er p hp
      obtain ⟨hin, hb, hc⟩ := hen p hp'
      exact ⟨hin, (keep p hin h1 h2).trans hb, hc⟩
  have hsplit : ∀ j : Int, j = 0 ∨ j = 1 → j = k ∨ j = 1 - k := by
    intro j hj; omega
  refine ⟨f.rows_eq.trans h.rows_eq, f.cols_eq.trans h.cols_eq, ?_, ?_, ?_, ?_, ?_⟩
  · rw [f.board_eq]; simp [SetBoard, h.board_len]
  · simpa [pieces] using side' 0 (hsplit 0 (Or.inl rfl))
  · simpa [pieces] using side' 1 (hsplit 1 (Or.inr rfl))
  · intro r c hin hne
    rw [inBounds_of_facts f] at hin
    rw [board_of_facts h f m.src_in m.dst_in _ _ hin] at hne
    have hmem : ∀ p, p ∈ pieces s' k ∨ p ∈ pieces s' (1 - k) → p ∈ registry s' := by
      intro p hp
      exact (registry_perm s' k hk).mem_iff.2 (List.mem_append.2 hp)
    by_cases e1 : r = r1 ∧ c = c1
    · rw [if_pos e1] at hne; exact absurd rfl hne
    · rw [if_neg e1] at hne
      by_cases e2 : r = r2 ∧ c = c2
      · refine ⟨⟨r2, c2, board s r1 c1⟩, hmem _ (Or.inl ?_), e2.1.symm, e2.2.symm⟩
        rw [hown']; simp
      · rw [if_neg e2] at hne
        obtain ⟨p, hp, hr, hc⟩ := h.covered r c hin hne
        refine ⟨p, hmem p ?_, hr, hc⟩
        have hp2 := (registry_perm s k hk).mem_iff.1 hp
        have n1 : ¬ (p.row = r1 ∧ p.col = c1) := by rw [hr, hc]; exact e1
        have n2 : ¬ (p.row = r2 ∧ p.col = c2) := by rw [hr, hc]; exact e2
        rcases List.mem_append.1 hp2 with hp2 | hp2
        · left
          rw [hown']
          exact List.mem_append_left _ (mem_eraseP_of_not_at _ r1 c1 p hp2 n1)
        · right
          rw [hen']
          split
          · exact hp2
          · exact mem_eraseP_of_not_at _ r2 c2 p hp2 n2
  · rw [((registry_perm s' k hk).map coord).nodup_iff, hown']
    have hsub : (pieces s' (1 - k)).Sublist (pieces s (1 - k)) := by
      rw [hen']
      split
      · exact List.Sublist.refl _
      · exact List.eraseP_sublist _
    have hperm2 : (((pieces s k).eraseP (pieceAt r1 c1) ++
        [({ row := r2, col := c2, pieceType := board s r1 c1 } : Piece)]) ++
          pieces s' (1 - k)).Perm
        (({ row := r2, col := c2, pieceType := board s r1 c1 } : Piece) ::
          ((pieces s k).eraseP (pieceAt r1 c1) ++ pieces s' (1 - k))) := by
      rw [List.append_assoc]
      exact List.perm_middle
    rw [(hperm2.map coord).nodup_iff, List.map_cons, List.nodup_cons]
    constructor
    · rw [List.mem_map]
      rintro ⟨p, hp, hc⟩
      simp only [coord, Prod.mk.injEq] at hc
      rcases List.mem_append.1 hp with hp | hp
      · exact (own_er p hp).2.2 hc
      · exact (en_er p hp).2.2 hc
    · exact hnd.sublist (((List.eraseP_sublist _).append hsub).map coord)

/-! ## Characterisation of `LegalActions` -/

theorem pieceActions_eq (s : BattleChessState) (K D A : CellState) (enemy : Int) (p : Piece)
    (hin : InBounds s p.row p.col = true) :
    pieceActions s K D A enemy p = some (pieceMoves s K D A enemy p) := by
  unfold pieceActions pieceMoves
  simp only [hin, if_true]
  split_ifs <;> simp

theorem collectActions_eq (s : BattleChessState) (K D A : CellState) (enemy : Int)
    (l : List Piece) (hin : ∀ p ∈ l, InBounds s p.row p.col = true) :
    collectActions s K D A enemy l = some (l.flatMap (pieceMoves s K D A enemy)) := by
  induction l with
  | nil => rfl
  | cons p l ih =>
    have h1 := pieceActions_eq s K D A enemy p (hin p (List.mem_cons_self _ _))
    have h2 := ih (fun q hq => hin q (List.mem_cons_of_mem _ hq))
    simp [collectActions, h1, h2]

theorem legalActions_eq {s : BattleChessState} (h : Consistent s)
    (hnt : IsTerminal s = false) (p : Int) (hp : p = 0 ∨ p = 1) (hcp : s.cur_player_ = p) :
    LegalActions s = some (((pieces s p).flatMap
      (pieceMoves s (kingOf p) (defenderOf p) (attackerOf p) (1 - p))).insertionSort
        (· ≤ ·)) := by
  have hin := fun q hq => (h.side p hp q hq).1
  have hc := collectActions_eq s (kingOf p) (defenderOf p) (attackerOf p) (1 - p) _ hin
  unfold LegalActions CurrentPlayer
  rcases hp with rfl | rfl
  · simp only [kingOf, defenderOf, attackerOf, pieces, if_true, sub_zero] at hc
    simp [hnt, hcp, hc, kingOf, defenderOf, attackerOf, pieces]
  · simp only [kingOf, defenderOf, attackerOf, pieces, one_ne_zero, if_false, sub_self] at hc
    simp [hnt, hcp, hc, kingOf, defenderOf, attackerOf, pieces]

theorem action_bases_eq {s : BattleChessState} (hr : s.rows_ = 5) (hc : s.cols_ = 5) :
    action_bases s = [5, 5, 5, 5, 9] := by
  simp [action_bases, hr, hc]

theorem encode_eq (r1 c1 r2 c2 t : Int) :
    encode r1 c1 r2 c2 t = RankActionMixedBase [5, 5, 5, 5, 9] [r1, c1, r2, c2, t] := rfl

theorem mem_kingStep {s : BattleChessState} (hr : s.rows_ = 5) (hc : s.cols_ = 5)
    (r1 c1 r2 c2 a : Int) :
    a ∈ kingStep s [r1, c1, r2, c2, 0] ↔
      InBounds s r2 c2 = true ∧
      StateToColor (board s r1 c1) ≠ StateToColor (board s r2 c2) ∧
      a = encode r1 c1 r2 c2 (getCaptureValue (board s r2 c2)) := by
  simp only [kingStep, action_bases_eq hr hc, ← encode_eq]
  by_cases hin : InBounds s r2 c2 = true
  · by_cases hne : StateToColor (board s r1 c1) = StateToColor (board s r2 c2)
    · simp [hin, hne]
    · by_cases he : board s r2 c2 = .kEmpty
      · simp [hin, hne, he, StateToColor, getCaptureValue]
      · have : StateToColor (board s r2 c2) ≠ -1 := by
          rw [Ne, color_empty_iff]; exact he
        simp [hin, hne, this]
  · simp [hin]

theorem mem_captureStep_move {s : BattleChessState} (hr : s.rows_ = 5) (hc : s.cols_ = 5)
    (enemy r1 c1 r2 c2 a : Int) :
    a ∈ captureStep s enemy [r1, c1, r2, c2, 0] ↔
      InBounds s r2 c2 = true ∧ board s r2 c2 = .kEmpty ∧ a = encode r1 c1 r2 c2 0 := by
  simp only [captureStep, action_bases_eq hr hc, ← encode_eq, ← color_empty_iff]
  by_cases hin : InBounds s r2 c2 = true
  · by_cases he : StateToColor (board s r2 c2) = -1 <;> simp [hin, he]
  · simp [hin]

theorem mem_captureStep_take {s : BattleChessState} (hr : s.rows_ = 5) (hc : s.cols_ = 5)
    (enemy r1 c1 r2 c2 a : Int) :
    a ∈ captureStep s enemy [r1, c1, r2, c2, -1] ↔
      InBounds s r2 c2 = true ∧ StateToColor (board s r2 c2) = enemy ∧
      a = encode r1 c1 r2 c2 (getCaptureValue (board s r2 c2)) := by
  simp only [captureStep, action_bases_eq hr hc, ← encode_eq]
  by_cases hin : InBounds s r2 c2 = true
  · by_cases he : StateToColor (board s r2 c2) = enemy <;> simp [hin, he]
  · simp [hin]

theorem mem_dir1 (f : List Int → List Int) (x r1 c1 a : Int) (Q : Int → Int → Prop)
    (hf : ∀ r2 c2, a ∈ f [r1, c1, r2, c2, x] ↔ Q r2 c2) :
    a ∈ (dir1.map fun d => [r1, c1, r1 + d.1, c1 + d.2, x]).flatMap f ↔
      ∃ r2 c2, orthNeighbour r1 c1 r2 c2 ∧ Q r2 c2 := by
  simp only [dir1, List.map_cons, List.map_nil, List.flatMap_cons,
    List.flatMap_nil, List.append_nil, List.mem_append, hf, orthNeighbour]
  constructor
  · rintro (h | h | h | h)
    · exact ⟨_, _, Or.inl ⟨by ring, rfl⟩, h⟩
    · exact ⟨_, _, Or.inr (Or.inl ⟨by ring, by ring⟩), h⟩
    · exact ⟨_, _, Or.inr (Or.inr (Or.inl ⟨rfl, by ring⟩)), h⟩
    · exact ⟨_, _, Or.inr (Or.inr (Or.inr ⟨by ring, by ring⟩)), h⟩
  · rintro ⟨r2, c2, (⟨rfl, rfl⟩ | ⟨rfl, rfl⟩ | ⟨rfl, rfl⟩ | ⟨rfl, rfl⟩), h⟩
    · left; simpa using h
    · right; left; simpa [sub_eq_add_neg] using h
    · right; right; left; simpa using h
    · right; right; right; simpa [sub_eq_add_neg] using h

theorem mem_dir2 (f : List Int → List Int) (x r1 c1 a : Int) (Q : Int → Int → Prop)
    (hf : ∀ r2 c2, a ∈ f [r1, c1, r2, c2, x] ↔ Q r2 c2) :
    a ∈ (dir2.map fun d => [r1, c1, r1 + d.1, c1 + d.2, x]).flatMap f ↔
      ∃ r2 c2, diagNeighbour r1 c1 r2 c2 ∧ Q r2 c2 := by
  simp only [dir2, List.map_cons, List.map_nil, List.flatMap_cons,
    List.flatMap_nil, List.append_nil, List.mem_append, hf, diagNeighbour]
  constructor
  · rintro (h | h | h | h)
    · exact ⟨_, _, Or.inl ⟨rfl, rfl⟩, h⟩
    · exact ⟨_, _, Or.inr (Or.inl ⟨rfl, by ring⟩), h⟩
    · exact ⟨_, _, Or.inr (Or.inr (Or.inl ⟨by ring, by ring⟩)), h⟩
    · exact ⟨_, _, Or.inr (Or.inr (Or.inr ⟨by ring, rfl⟩)), h⟩
  · rintro ⟨r2, c2, (⟨rfl, rfl⟩ | ⟨rfl, rfl⟩ | ⟨rfl, rfl⟩ | ⟨rfl, rfl⟩), h⟩
    · left; simpa using h
    · right; left; simpa [sub_eq_add_neg] using h
    · right; right; left; simpa [sub_eq_add_neg] using h
    · right; right; right; simpa [sub_eq_add_neg] using h

theorem mem_king_moves {s : BattleChessState} (hr : s.rows_ = 5) (hc : s.cols_ = 5)
    (r1 c1 a : Int) :
    a ∈ (KingAction r1 c1).flatMap (kingStep s) ↔
      ∃ r2 c2, orthNeighbour r1 c1 r2 c2 ∧ InBounds s r2 c2 = true ∧
        StateToColor (board s r1 c1) ≠ StateToColor (board s r2 c2) ∧
        a = encode r1 c1 r2 c2 (getCaptureValue (board s r2 c2)) :=
  mem_dir1 (kingStep s) 0 r1 c1 a _ (fun r2 c2 => mem_kingStep hr hc r1 c1 r2 c2 a)

theorem mem_defender_moves {s : BattleChessState} (hr : s.rows_ = 5) (hc : s.cols_ = 5)
    (enemy r1 c1 a : Int) :
    a ∈ (DefenderAction r1 c1).flatMap (captureStep s enemy) ↔
      (∃ r2 c2, orthNeighbour r1 c1 r2 c2 ∧ InBounds s r2 c2 = true ∧
        board s r2 c2 = .kEmpty ∧ a = encode r1 c1 r2 c2 0) ∨
      (∃ r2 c2, diagNeighbour r1 c1 r2 c2 ∧ InBounds s r2 c2 = true ∧
        StateToColor (board s r2 c2) = enemy ∧
        a = encode r1 c1 r2 c2 (getCaptureValue (board s r2 c2))) := by
  rw [DefenderAction, List.flatMap_append, List.mem_append,
    mem_dir1 (captureStep s enemy) 0 r1 c1 a _
      (fun r2 c2 => mem_captureStep_move hr hc enemy r1 c1 r2 c2 a),
    mem_dir2 (captureStep s enemy) (-1) r1 c1 a _
      (fun r2 c2 => mem_captureStep_take hr hc enemy r1 c1 r2 c2 a)]

theorem mem_attacker_moves {s : BattleChessState} (hr : s.rows_ = 5) (hc : s.cols_ = 5)
    (enemy r1 c1 a : Int) :
    a ∈ (AttackerAction r1 c1).flatMap (captureStep s enemy) ↔
      (∃ r2 c2, diagNeighbour r1 c1 r2 c2 ∧ InBounds s r2 c2 = true ∧
        board s r2 c2 = .kEmpty ∧ a = encode r1 c1 r2 c2 0) ∨
      (∃ r2 c2, orthNeighbour r1 c1 r2 c2 ∧ InBounds s r2 c2 = true ∧
        StateToColor (board s r2 c2) = enemy ∧
        a = encode r1 c1 r2 c2 (getCaptureValue (board s r2 c2))) := by
  rw [AttackerAction, List.flatMap_append, List.mem_append,
    mem_dir2 (captureStep s enemy) 0 r1 c1 a _
      (fun r2 c2 => mem_captureStep_move hr hc enemy r1 c1 r2 c2 a),
    mem_dir1 (captureStep s enemy) (-1) r1 c1 a _
      (fun r2 c2 => mem_captureStep_take hr hc enemy r1 c1 r2 c2 a)]

theorem pieceMoves_king (s : BattleChessState) (p e : Int) (q : Piece)
    (h : q.pieceType = kingOf p) :
    pieceMoves s (kingOf p) (defenderOf p) (attackerOf p) e q =
      (KingAction q.row q.col).flatMap (kingStep s) := by
  by_cases hp : p = 0 <;> simp [pieceMoves, kingOf, defenderOf, attackerOf, hp] at h ⊢ <;>
    simp [h]

theorem pieceMoves_defender (s : BattleChessState) (p e : Int) (q : Piece)
    (h : q.pieceType = defenderOf p) :
    pieceMoves s (kingOf p) (defenderOf p) (attackerOf p) e q =
      (DefenderAction q.row q.col).flatMap (captureStep s e) := by
  by_cases hp : p = 0 <;> simp [pieceMoves, kingOf, defenderOf, attackerOf, hp] at h ⊢ <;>
    simp [h]

theorem pieceMoves_attacker (s : BattleChessState) (p e : Int) (q : Piece)
    (h : q.pieceType = attackerOf p) :
    pieceMoves s (kingOf p) (defenderOf p) (attackerOf p) e q =
      (AttackerAction q.row q.col).flatMap (captureStep s e) := by
  by_cases hp : p = 0 <;> simp [pieceMoves, kingOf, defenderOf, attackerOf, hp] at h ⊢ <;>
    simp [h]

theorem type_cases (p : Int) (hp : p = 0 ∨ p = 1) (v : CellState) (hv : StateToColor v = p) :
    v = kingOf p ∨ v = defenderOf p ∨ v = attackerOf p := by
  rcases hp with rfl | rfl <;> cases v <;>
    simp [StateToColor, kingOf, defenderOf, attackerOf] at hv ⊢

theorem not_empty_of_color {v : CellState} {p : Int} (hp : p = 0 ∨ p = 1)
    (hv : StateToColor v = p) : v ≠ .kEmpty := by
  rintro rfl
  simp [StateToColor] at hv
  omega

theorem orth_apart {r1 c1 r2 c2 : Int} (h : orthNeighbour r1 c1 r2 c2) :
    ¬ (r2 = r1 ∧ c2 = c1) := by
  unfold orthNeighbour at h; omega

theorem diag_apart {r1 c1 r2 c2 : Int} (h : diagNeighbour r1 c1 r2 c2) :
    ¬ (r2 = r1 ∧ c2 = c1) := by
  unfold diagNeighbour at h; omega

/-- Every id pushed for a piece of the player to move encodes a sound move from the
coordinate of that piece. -/
theorem pieceMoves_sound {s : BattleChessState} (h : Consistent s) (p : Int)
    (hp : p = 0 ∨ p = 1) (q : Piece) (hq : q ∈ pieces s p) (a : Int)
    (ha : a ∈ pieceMoves s (kingOf p) (defenderOf p) (attackerOf p) (1 - p) q) :
    ∃ r2 c2 t, a = encode q.row q.col r2 c2 t ∧ SoundMove s q.row q.col r2 c2 t := by
  obtain ⟨hin, hb, hc⟩ := h.side p hp q hq
  have hocc : board s q.row q.col ≠ .kEmpty := by
    rw [hb]; exact not_empty_of_color hp hc
  have hcol : StateToColor (board s q.row q.col) = p := by rw [hb]; exact hc
  rcases type_cases p hp _ hc with ht | ht | ht
  · rw [pieceMoves_king s p _ q ht, mem_king_moves h.rows_eq h.cols_eq] at ha
    obtain ⟨r2, c2, ho, hi, hne, rfl⟩ := ha
    exact ⟨r2, c2, _, rfl, ⟨hin, hi, orth_apart ho, hocc, Ne.symm hne, rfl⟩⟩
  · rw [pieceMoves_defender s p _ q ht, mem_defender_moves h.rows_eq h.cols_eq] at ha
    rcases ha with ⟨r2, c2, ho, hi, he, rfl⟩ | ⟨r2, c2, ho, hi, he, rfl⟩
    · refine ⟨r2, c2, 0, rfl, ⟨hin, hi, orth_apart ho, hocc, ?_, by rw [he]; rfl⟩⟩
      rw [he, hcol]; simp [StateToColor]; omega
    · refine ⟨r2, c2, _, rfl, ⟨hin, hi, diag_apart ho, hocc, ?_, rfl⟩⟩
      rw [he, hcol]; omega
  · rw [pieceMoves_attacker s p _ q ht, mem_attacker_moves h.rows_eq h.cols_eq] at ha
    rcases ha with ⟨r2, c2, ho, hi, he, rfl⟩ | ⟨r2, c2, ho, hi, he, rfl⟩
    · refine ⟨r2, c2, 0, rfl, ⟨hin, hi, diag_apart ho, hocc, ?_, by rw [he]; rfl⟩⟩
      rw [he, hcol]; simp [StateToColor]; omega
    · refine ⟨r2, c2, _, rfl, ⟨hin, hi, orth_apart ho, hocc, ?_, rfl⟩⟩
      rw [he, hcol]; omega

theorem legal_nonterminal {s : BattleChessState} {l : List Int} {a : Int}
    (hl : LegalActions s = some l) (ha : a ∈ l) :
    IsTerminal s = false ∧ (s.cur_player_ = 0 ∨ s.cur_player_ = 1) := by
  unfold LegalActions CurrentPlayer at hl
  by_cases ht : IsTerminal s = true
  · simp [ht] at hl; subst hl; simp at ha
  · simp only [Bool.not_eq_true] at ht
    refine ⟨ht, ?_⟩
    by_contra hc
    push_neg at hc
    simp [ht, hc.1, hc.2] at hl
    subst hl; simp at ha

/-- Every legal action of a consistent state encodes a sound move of a piece of the player
to move. -/
theorem legal_sound {s : BattleChessState} (h : Consistent s) {l : List Int} {a : Int}
    (hl : LegalActions s = some l) (ha : a ∈ l) :
    ∃ r1 c1 r2 c2 t, a = encode r1 c1 r2 c2 t ∧ SoundMove s r1 c1 r2 c2 t ∧
      StateToColor (board s r1 c1) = s.cur_player_ := by
  obtain ⟨hnt, hp⟩ := legal_nonterminal hl ha
  rw [legalActions_eq h hnt _ hp rfl] at hl
  injection hl with hl
  subst hl
  rw [List.mem_insertionSort, List.mem_flatMap] at ha
  obtain ⟨q, hq, ha⟩ := ha
  obtain ⟨r2, c2, t, he, hm⟩ := pieceMoves_sound h _ hp q hq a ha
  obtain ⟨_, hb, hc⟩ := h.side _ hp q hq
  exact ⟨q.row, q.col, r2, c2, t, he, hm, by rw [hb]; exact hc⟩

/-! ## Reachable states -/

theorem consistent_init : Consistent NewInitialState := by
  refine ⟨rfl, rfl, rfl, by decide, by decide, ?_, by decide⟩
  intro r c hin
  rw [inBounds_iff] at hin
  obtain ⟨h1, h2, h3, h4⟩ := hin
  have h2' : r < 5 := h2
  have h4' : c < 5 := h4
  interval_cases r <;> interval_cases c <;> decide

theorem applyAction_some {s t : BattleChessState} {a : Int} (h : ApplyAction s a = some t) :
    ∃ u, DoApplyAction s a = some u ∧ t = { u with history_ := u.history_ ++ [a] } := by
  unfold ApplyAction at h
  cases hd : DoApplyAction s a with
  | none => simp [hd] at h
  | some u =>
    simp [hd] at h
    exact ⟨u, rfl, h.symm⟩

theorem consistent_history {u : BattleChessState} (h : Consistent u) (hist : List Int) :
    Consistent { u with history_ := hist } :=
  ⟨h.rows_eq, h.cols_eq, h.board_len, h.white_ok, h.black_ok, h.covered, h.distinct⟩

theorem reachable_consistent {s : BattleChessState} (h : Reachable s) : Consistent s := by
  induction h with
  | init => exact consistent_init
  | step _ hl ha happ ih =>
    obtain ⟨u, hu, rfl⟩ := applyAction_some happ
    obtain ⟨r1, c1, r2, c2, t, rfl, m, _⟩ := legal_sound ih hl ha
    obtain ⟨s', hs', f⟩ := doApply_sound ih m
    rw [hs'] at hu
    injection hu with hu
    subst hu
    exact consistent_history (consistent_step ih m f) _

/-! ## Apply followed by undo -/

theorem stateType_captureValue (v : CellState) : StateType (getCaptureValue v) = some v := by
  cases v <;> rfl

theorem set_restore {α : Type} (b : List α) (i1 i2 : Nat) (h1 : i1 < b.length)
    (h2 : i2 < b.length) (e : α) :
    ((((b.set i2 b[i1]).set i1 e).set i1 b[i1]).set i2 b[i2]) = b := by
  apply List.ext_getElem?
  intro n
  simp only [List.getElem?_set, List.length_set]
  by_cases hn2 : i2 = n
  · subst hn2
    simp [h2]
  · by_cases hn1 : i1 = n
    · subst hn1
      simp [hn2, h1]
    · simp [hn1, hn2]

theorem getD_eq_getElem {α : Type} (b : List α) (i : Nat) (h : i < b.length) (e : α) :
    b.getD i e = b[i] := by
  simp [List.getD_eq_getElem?_getD, h]

theorem undo_after_apply {s t : BattleChessState} (h : Consistent s) {r1 c1 r2 c2 tag : Int}
    (m : SoundMove s r1 c1 r2 c2 tag) (f : ApplyFacts s t r1 c1 r2 c2)
    (hp : s.cur_player_ = 0 ∨ s.cur_player_ = 1) :
    ∃ u, UndoAction t (encode r1 c1 r2 c2 tag) = some u ∧ u.board_ = s.board_ ∧
      u.cur_player_ = s.cur_player_ ∧ u.total_moves_ = s.total_moves_ ∧
      u.winner_ = kInvalidPlayer := by
  have hsrc := (inBounds_iff s r1 c1).1 m.src_in
  have hdst := (inBounds_iff s r2 c2).1 m.dst_in
  rw [h.rows_eq, h.cols_eq] at hsrc hdst
  have ht := captureValue_range (board s r2 c2)
  rw [← m.tag_eq] at ht
  have hun : UnrankActionMixedBase (encode r1 c1 r2 c2 tag)
      [t.rows_, t.cols_, t.rows_, t.cols_, 9] = [r1, c1, r2, c2, tag] := by
    rw [f.rows_eq, f.cols_eq, h.rows_eq, h.cols_eq]
    exact unrank_rank r1 c1 r2 c2 tag ⟨hsrc.1, hsrc.2.1⟩ ⟨hsrc.2.2.1, hsrc.2.2.2⟩
      ⟨hdst.1, hdst.2.1⟩ ⟨hdst.2.2.1, hdst.2.2.2⟩ ht
  have hin1 : InBounds t r1 c1 = true := by rw [inBounds_of_facts f]; exact m.src_in
  have hin2 : InBounds t r2 c2 = true := by rw [inBounds_of_facts f]; exact m.dst_in
  have hst := stateType_captureValue (board s r2 c2)
  rw [← m.tag_eq] at hst
  have hi1 : (r1 * 5 + c1).toNat < s.board_.length := by rw [h.board_len]; omega
  have hi2 : (r2 * 5 + c2).toNat < s.board_.length := by rw [h.board_len]; omega
  have hine : (r1 * 5 + c1).toNat ≠ (r2 * 5 + c2).toNat := by
    have := m.apart
    omega
  have hv : board s r1 c1 = s.board_[(r1 * 5 + c1).toNat] := by
    simp only [board, h.cols_eq]; exact getD_eq_getElem _ _ hi1 _
  have hd : board s r2 c2 = s.board_[(r2 * 5 + c2).toNat] := by
    simp only [board, h.cols_eq]; exact getD_eq_getElem _ _ hi2 _
  have hbt : board t r2 c2 = board s r1 c1 := by
    rw [board_of_facts h f m.src_in m.dst_in _ _ m.dst_in, if_neg m.apart]; simp
  have hrestore := set_restore s.board_ _ _ hi1 hi2 CellState.kEmpty
  have hprev : PreviousPlayerRoundRobin t.cur_player_ 2 = s.cur_player_ := by
    rw [f.player_eq]
    rcases hp with hp | hp <;> (rw [hp]; decide)
  unfold UndoAction
  rw [hun]
  simp only [hin1, hin2, Bool.not_true, Bool.false_eq_true, if_false, Option.pure_def,
    Option.bind_eq_bind, hst]
  have hbmk : ∀ (cp w tm : Int) (wp bp : List Piece) (hist : List Int),
      board ⟨cp, w, tm, wp, bp, t.rows_, t.cols_, t.board_, hist⟩ r2 c2 = board s r1 c1 :=
    fun _ _ _ _ _ _ => hbt
  have htb : t.board_ = (s.board_.set (r2 * 5 + c2).toNat (board s r1 c1)).set
      (r1 * 5 + c1).toNat .kEmpty := by
    rw [f.board_eq]; simp only [SetBoard, h.cols_eq]
  have htc : t.cols_ = 5 := f.cols_eq.trans h.cols_eq
  by_cases htag : tag > 0
  · simp only [htag, if_true, Option.some_bind]
    refine ⟨_, rfl, ?_, ?_, ?_, ?_⟩
    · simp only [AddPiece, SetBoard]
      split <;> simp only [hbmk, List.set_set] <;> simp only [htc, htb, hv, hd] <;>
        exact hrestore
    · simp only [AddPiece, SetBoard]
      split <;> exact hprev
    · simp only [AddPiece, SetBoard]
      split <;> simp only [f.moves_eq] <;> ring
    · simp only [AddPiece, SetBoard]
      split <;> rfl
  · have ht0 : tag = 0 := by omega
    have hE : board s r2 c2 = .kEmpty := by
      by_contra hne
      have := (captureValue_pos_iff _).2 hne
      rw [← m.tag_eq] at this
      omega
    rw [hd] at hE
    rw [hE] at hrestore
    simp only [htag, if_false, Option.some_bind]
    refine ⟨_, rfl, ?_, hprev, ?_, rfl⟩
    · simp only [SetBoard, hbmk]
      simp only [htc, htb, hv]
      exact hrestore
    · simp only [SetBoard, f.moves_eq]; ring

/-! ## Steps from reachable states -/

theorem sound_valid {s : BattleChessState} (h : Consistent s) {r1 c1 r2 c2 t : Int}
    (m : SoundMove s r1 c1 r2 c2 t) : validDescriptor r1 c1 r2 c2 t := by
  have hsrc := (inBounds_iff s r1 c1).1 m.src_in
  have hdst := (inBounds_iff s r2 c2).1 m.dst_in
  rw [h.rows_eq, h.cols_eq] at hsrc hdst
  have ht := captureValue_range (board s r2 c2)
  rw [← m.tag_eq] at ht
  exact ⟨⟨hsrc.1, hsrc.2.1⟩, ⟨hsrc.2.2.1, hsrc.2.2.2⟩, ⟨hdst.1, hdst.2.1⟩,
    ⟨hdst.2.2.1, hdst.2.2.2⟩, ht⟩

theorem decode_encode (r1 c1 r2 c2 t : Int) (h : validDescriptor r1 c1 r2 c2 t) :
    decode (encode r1 c1 r2 c2 t) = [r1, c1, r2, c2, t] := by
  obtain ⟨h1, h2, h3, h4, h5⟩ := h
  simp only [kDefaultRows, kDefaultColumns] at h1 h2 h3 h4
  exact unrank_rank r1 c1 r2 c2 t h1 h2 h3 h4 h5

/-- A legal action of a consistent state is the encoding of a sound move of the player to
move, and `DoApplyAction` carries it out. -/
theorem step_facts {s : BattleChessState} (h : Consistent s) {l : List Int} {a : Int}
    (hl : LegalActions s = some l) (ha : a ∈ l) :
    ∃ r1 c1 r2 c2 tag t, a = encode r1 c1 r2 c2 tag ∧ SoundMove s r1 c1 r2 c2 tag ∧
      StateToColor (board s r1 c1) = s.cur_player_ ∧
      DoApplyAction s a = some t ∧ ApplyFacts s t r1 c1 r2 c2 := by
  obtain ⟨r1, c1, r2, c2, tag, rfl, m, hc⟩ := legal_sound h hl ha
  obtain ⟨t, ht, f⟩ := doApply_sound h m
  exact ⟨r1, c1, r2, c2, tag, t, rfl, m, hc, ht, f⟩

theorem meta_step {s t : BattleChessState} (hm : Bookkeeping s) {r1 c1 r2 c2 : Int}
    (f : ApplyFacts s t r1 c1 r2 c2) : Bookkeeping t := by
  obtain ⟨hw, hn, hp, hc⟩ := hm
  have hw' := f.winner_eq
  refine ⟨?_, ?_, ?_, ?_⟩
  · rw [hw']
    split_ifs <;> simp [hw]
  · rw [f.moves_eq]; omega
  · rw [f.player_eq, f.moves_eq, hp]
    unfold NextPlayerRoundRobin kNumPlayers
    split_ifs <;> omega
  · intro h
    rw [hw'] at h
    rw [f.moves_eq]
    unfold kInvalidPlayer at h
    split_ifs at h
    omega

theorem reachable_meta {s : BattleChessState} (h : Reachable s) : Bookkeeping s := by
  induction h with
  | init => exact ⟨Or.inl rfl, by decide, by decide, fun _ => by decide⟩
  | step hs hl ha happ ih =>
    obtain ⟨u, hu, rfl⟩ := applyAction_some happ
    obtain ⟨r1, c1, r2, c2, tag, t, _, _, _, ht, f⟩ := step_facts (reachable_consistent hs) hl ha
    rw [ht] at hu
    injection hu with hu
    subst hu
    obtain ⟨a, b, c, d⟩ := meta_step ih f
    exact ⟨a, b, c, d⟩

theorem nonterminal_winner {s : BattleChessState} (hm : Bookkeeping s) (hnt : IsTerminal s = false) :
    s.winner_ = kInvalidPlayer := by
  unfold IsTerminal at hnt
  simp at hnt
  rcases hm.winner_cases with h | h | h
  · exact h
  · omega
  · omega

/-! ## Example positions -/

theorem reachable_whiteKingAttacked : Reachable whiteKingAttacked := by
  have h1 : Reachable (play NewInitialState 5103) :=
    Reachable.step (l := [4644, 4869, 5103, 5337, 5562]) (a := 5103) Reachable.init
      (by rfl) (by decide) (by rfl)
  have h2 : Reachable (play (play NewInitialState 5103) 279) :=
    Reachable.step (l := [54, 279, 513, 747, 972]) (a := 279) h1 (by rfl) (by decide) (by rfl)
  exact Reachable.step (l := [3933, 3969, 3987, 4023, 4644, 4869, 4923, 5337, 5373, 5562])
    (a := 3933) h2 (by rfl) (by decide) (by rfl)

theorem reachable_blackKingAttacked : Reachable blackKingAttacked := by
  have h1 : Reachable (play NewInitialState 4644) :=
    Reachable.step (l := [4644, 4869, 5103, 5337, 5562]) (a := 4644) Reachable.init
      (by rfl) (by decide) (by rfl)
  have h2 : Reachable (play (play NewInitialState 4644) 54) :=
    Reachable.step (l := [54, 279, 513, 747, 972]) (a := 54) h1 (by rfl) (by decide) (by rfl)
  have h3 : Reachable (play (play (play NewInitialState 4644) 54) 3708) :=
    Reachable.step (l := [3690, 3708, 3780, 4905, 5103, 5337, 5562]) (a := 3708) h2
      (by rfl) (by decide) (by rfl)
  exact Reachable.step (l := [225, 513, 747, 972, 1350, 1440]) (a := 513) h3
    (by rfl) (by decide) (by rfl)

/-! ## The claims on apply, undo and the invariant -/

/-- C1. For every state reachable from the initial state by legal actions and every action
of its `LegalActions` list, `DoApplyAction` followed immediately by `UndoAction` succeeds
and yields a state whose board store (all 25 cells), current player, total move count and
winner field equal those of the state before. -/
theorem apply_undo_restores (s : BattleChessState) (hs : Reachable s) (l : List Int)
    (hl : LegalActions s = some l) (a : Int) (ha : a ∈ l) :
    ∃ t u, DoApplyAction s a = some t ∧ UndoAction t a = some u ∧
      u.board_ = s.board_ ∧ u.cur_player_ = s.cur_player_ ∧
      u.total_moves_ = s.total_moves_ ∧ u.winner_ = s.winner_ := by
  have hc := reachable_consistent hs
  obtain ⟨hnt, hp⟩ := legal_nonterminal hl ha
  obtain ⟨r1, c1, r2, c2, tag, t, rfl, m, _, ht, f⟩ := step_facts hc hl ha
  obtain ⟨u, hu, hb, hcp, hn, hw⟩ := undo_after_apply hc m f hp
  exact ⟨t, u, ht, hu, hb, hcp, hn, hw.trans (nonterminal_winner (reachable_meta hs) hnt).symm⟩

theorem apply_undo_restores_witness :
    ∃ t u, DoApplyAction NewInitialState 4644 = some t ∧ UndoAction t 4644 = some u ∧
      u.board_ = NewInitialState.board_ ∧ u.cur_player_ = NewInitialState.cur_player_ ∧
      u.total_moves_ = NewInitialState.total_moves_ ∧ u.winner_ = NewInitialState.winner_ :=
  apply_undo_restores NewInitialState Reachable.init [4644, 4869, 5103, 5337, 5562]
    (by rfl) 4644 (by decide)

/-- C2 (the code at two failing inputs).  (a) From the initial state the legal action 4644,
the White Attacker move (4,0) -> (3,1), is applied and undone: the board is restored, but
the white piece list still holds the Attacker at (3,1) and no entry at (4,0), so the white
list differs from the original as a set and the consistency invariant fails.  (b) In the
reachable position `whiteKingAttacked` the legal capture 1461, Black Defender (1,1) takes
the White King on (2,2), is applied and undone: the King is re-inserted at (2,2), but the
Defender entry stays at (2,2), so two registry entries share a coordinate. -/
theorem undo_leaves_registry_stale :
    (∃ l t u, LegalActions NewInitialState = some l ∧ (4644 : Int) ∈ l ∧
      decode 4644 = [4, 0, 3, 1, 0] ∧
      DoApplyAction NewInitialState 4644 = some t ∧ UndoAction t 4644 = some u ∧
      u.board_ = NewInitialState.board_ ∧
      (⟨3, 1, .kWhiteAttacker⟩ : Piece) ∈ u.whitePieces ∧
      (⟨4, 0, .kWhiteAttacker⟩ : Piece) ∉ u.whitePieces ∧
      (⟨4, 0, .kWhiteAttacker⟩ : Piece) ∈ NewInitialState.whitePieces ∧
      ¬ sameEntries u.whitePieces NewInitialState.whitePieces ∧
      ¬ Consistent u) ∧
    (∃ l t u, Reachable whiteKingAttacked ∧ LegalActions whiteKingAttacked = some l ∧
      (1461 : Int) ∈ l ∧ decode 1461 = [1, 1, 2, 2, 3] ∧
      DoApplyAction whiteKingAttacked 1461 = some t ∧ UndoAction t 1461 = some u ∧
      u.board_ = whiteKingAttacked.board_ ∧
      (⟨2, 2, .kWhiteKing⟩ : Piece) ∈ u.whitePieces ∧
      (⟨2, 2, .kBlackDefender⟩ : Piece) ∈ u.blackPieces ∧
      (⟨1, 1, .kBlackDefender⟩ : Piece) ∉ u.blackPieces ∧
      (⟨1, 1, .kBlackDefender⟩ : Piece) ∈ whiteKingAttacked.blackPieces ∧
      ¬ sameEntries u.blackPieces whiteKingAttacked.blackPieces ∧
      ¬ ((registry u).map coord).Nodup) := by
  constructor
  · refine ⟨_, _, _, rfl, by decide, by decide, rfl, rfl, by decide, by decide, by decide,
      by decide, ?_, ?_⟩
    · intro h
      exact absurd ((h ⟨4, 0, .kWhiteAttacker⟩).2 (by decide)) (by decide)
    · intro h
      exact absurd (h.white_ok ⟨3, 1, .kWhiteAttacker⟩ (by decide)).2.1 (by decide)
  · refine ⟨_, _, _, reachable_whiteKingAttacked, rfl, by decide, by decide, rfl, rfl,
      by decide, by decide, by decide, by decide, by decide, ?_, by decide⟩
    intro h
    exact absurd ((h ⟨1, 1, .kBlackDefender⟩).2 (by decide)) (by decide)

theorem countP_at_le_one (l : List Piece) (r c : Int) (hn : (l.map coord).Nodup) :
    l.countP (pieceAt r c) ≤ 1 := by
  induction l with
  | nil => simp
  | cons q l ih =>
    rw [List.map_cons, List.nodup_cons] at hn
    by_cases hq : pieceAt r c q = true
    · rw [List.countP_cons_of_pos _ _ hq]
      have : l.countP (pieceAt r c) = 0 := by
        rw [List.countP_eq_zero]
        intro p hp hpa
        rw [pieceAt_iff] at hq hpa
        apply hn.1
        rw [List.mem_map]
        exact ⟨p, hp, by simp [coord, hq.1, hq.2, hpa.1, hpa.2]⟩
      omega
    · rw [List.countP_cons_of_neg _ _ hq]
      exact ih hn.2

theorem countP_at_eq_one {s : BattleChessState} (h : Consistent s) (r c : Int)
    (hin : InBounds s r c = true) (hne : board s r c ≠ .kEmpty) :
    (registry s).countP (pieceAt r c) = 1 := by
  have h1 := countP_at_le_one (registry s) r c h.distinct
  obtain ⟨p, hp, hr, hcc⟩ := h.covered r c hin hne
  have h2 : 0 < (registry s).countP (pieceAt r c) := by
    rw [List.countP_pos_iff]
    exact ⟨p, hp, (pieceAt_iff r c p).2 ⟨hr, hcc⟩⟩
  omega

/-- C3. Board/registry consistency is an invariant of the step relation "apply an action
taken from `LegalActions`", starting from the initial state: in every reachable state,
every entry of the white (black) list has `board(row, col)` equal to its type, a white
(black) cell value; every non-empty board cell has exactly one registry entry at its
coordinate; and no two registry entries share a coordinate. -/
theorem reachable_consistency (s : BattleChessState) (hs : Reachable s) :
    (∀ p ∈ s.whitePieces, board s p.row p.col = p.pieceType ∧ StateToColor p.pieceType = 0) ∧
    (∀ p ∈ s.blackPieces, board s p.row p.col = p.pieceType ∧ StateToColor p.pieceType = 1) ∧
    (∀ r c, InBounds s r c = true → board s r c ≠ .kEmpty →
      (registry s).countP (pieceAt r c) = 1) ∧
    ((registry s).map coord).Nodup ∧ Consistent s := by
  have h := reachable_consistent hs
  exact ⟨fun p hp => (h.white_ok p hp).2, fun p hp => (h.black_ok p hp).2,
    fun r c hin hne => countP_at_eq_one h r c hin hne, h.distinct, h⟩

theorem reachable_consistency_witness :
    Reachable NewInitialState ∧
    (∀ p ∈ NewInitialState.whitePieces,
      board NewInitialState p.row p.col = p.pieceType ∧ StateToColor p.pieceType = 0) ∧
    (∀ p ∈ NewInitialState.blackPieces,
      board NewInitialState p.row p.col = p.pieceType ∧ StateToColor p.pieceType = 1) ∧
    (∀ r c, InBounds NewInitialState r c = true → board NewInitialState r c ≠ .kEmpty →
      (registry NewInitialState).countP (pieceAt r c) = 1) ∧
    ((registry NewInitialState).map coord).Nodup ∧ Consistent NewInitialState :=
  ⟨Reachable.init, reachable_consistency NewInitialState Reachable.init⟩

/-! ## King capture -/

/-- C10. In every state reachable by legal actions, for every legal action whose
destination holds the Black King, the capture tag is 6 and after `DoApplyAction` the winner
is 0 and `IsTerminal` is true; symmetrically, when the destination holds the White King
the tag is 3 and afterwards the winner is 1 and `IsTerminal` is true.  No restriction on
the move count is needed. -/
theorem king_capture_wins (s : BattleChessState) (hs : Reachable s) (l : List Int)
    (hl : LegalActions s = some l) (a : Int) (ha : a ∈ l) (r1 c1 r2 c2 tag : Int)
    (hdec : decode a = [r1, c1, r2, c2, tag]) :
    (board s r2 c2 = .kBlackKing →
      tag = 6 ∧ ∃ t, DoApplyAction s a = some t ∧ t.winner_ = 0 ∧ IsTerminal t = true) ∧
    (board s r2 c2 = .kWhiteKing →
      tag = 3 ∧ ∃ t, DoApplyAction s a = some t ∧ t.winner_ = 1 ∧ IsTerminal t = true) := by
  have hc := reachable_consistent hs
  have hm := reachable_meta hs
  obtain ⟨hnt, hp⟩ := legal_nonterminal hl ha
  have hw := nonterminal_winner hm hnt
  have hcap := hm.below_cap hw
  obtain ⟨r1', c1', r2', c2', tag', t, rfl, m, hcol, ht, f⟩ := step_facts hc hl ha
  rw [decode_encode _ _ _ _ _ (sound_valid hc m)] at hdec
  simp only [List.cons.injEq, and_true] at hdec
  obtain ⟨rfl, rfl, rfl, rfl, rfl⟩ := hdec
  have hwin := f.winner_eq
  have hne := m.color_ne
  have hpar := hm.parity
  constructor
  · intro hb
    rw [hb] at hne
    have hcol0 : s.cur_player_ = 0 := by
      rcases hp with h | h
      · exact h
      · rw [hcol, h] at hne; exact absurd rfl hne
    have : ¬ (s.total_moves_ + 1 ≥ 1000) := by omega
    refine ⟨by rw [m.tag_eq, hb]; rfl, t, ht, ?_, ?_⟩
    · rw [hwin, if_neg this, if_pos hb]
    · rw [IsTerminal, hwin, if_neg this, if_pos hb]; rfl
  · intro hb
    have h1 : t.winner_ = 1 := by
      rw [hwin, hb]; split_ifs <;> first | rfl | contradiction
    refine ⟨by rw [m.tag_eq, hb]; rfl, t, ht, h1, ?_⟩
    rw [IsTerminal, h1]; rfl

theorem king_capture_wins_witness :
    (board blackKingAttacked 1 2 = .kBlackKing ∧
      ∃ t, DoApplyAction blackKingAttacked 2769 = some t ∧ t.winner_ = 0 ∧
        IsTerminal t = true) ∧
    (board whiteKingAttacked 2 2 = .kWhiteKing ∧
      ∃ t, DoApplyAction whiteKingAttacked 1461 = some t ∧ t.winner_ = 1 ∧
        IsTerminal t = true) :=
  ⟨⟨by decide,
    ((king_capture_wins blackKingAttacked reachable_blackKingAttacked
      [2769, 2772, 2844, 2862, 4869, 4905, 5103, 5337, 5562] (by rfl) 2769 (by decide)
      2 2 1 2 6 (by decide)).1 (by decide)).2⟩,
   ⟨by decide,
    ((king_capture_wins whiteKingAttacked reachable_whiteKingAttacked
      [459, 513, 747, 972, 1359, 1395, 1413, 1449, 1461] (by rfl) 1461 (by decide)
      1 1 2 2 3 (by decide)).2 (by decide)).2⟩⟩

/-! ## The per-piece rules -/

/-- In a consistent non-terminal state the legal ids whose decoded origin is the coordinate
of a piece `q` of the player to move are exactly the ids pushed for `q`. -/
theorem legal_from_piece {s : BattleChessState} (h : Consistent s)
    (hnt : IsTerminal s = false) (p : Int) (hp : p = 0 ∨ p = 1) (hcp : s.cur_player_ = p)
    (q : Piece) (hq : q ∈ pieces s p) :
    ∃ l, LegalActions s = some l ∧ ∀ a,
      (a ∈ l ∧ ∃ r2 c2 t, decode a = [q.row, q.col, r2, c2, t]) ↔
      a ∈ pieceMoves s (kingOf p) (defenderOf p) (attackerOf p) (1 - p) q := by
  refine ⟨_, legalActions_eq h hnt p hp hcp, ?_⟩
  intro a
  rw [List.mem_insertionSort, List.mem_flatMap]
  constructor
  · rintro ⟨⟨q', hq', ha⟩, r2, c2, t, hd⟩
    obtain ⟨r2', c2', t', rfl, m⟩ := pieceMoves_sound h p hp q' hq' a ha
    rw [decode_encode _ _ _ _ _ (sound_valid h m)] at hd
    simp only [List.cons.injEq, and_true] at hd
    obtain ⟨e1, e2, _⟩ := hd
    obtain ⟨_, hb, _⟩ := h.side p hp q hq
    obtain ⟨_, hb', _⟩ := h.side p hp q' hq'
    have : q' = q := by
      cases q; cases q'
      simp only at e1 e2 hb hb'
      subst e1 e2
      rw [hb] at hb'
      simp [hb']
    rw [← this]; exact ha
  · intro ha
    refine ⟨⟨q, hq, ha⟩, ?_⟩
    obtain ⟨r2, c2, t, rfl, m⟩ := pieceMoves_sound h p hp q hq a ha
    exact ⟨r2, c2, t, decode_encode _ _ _ _ _ (sound_valid h m)⟩

theorem captureValue_empty_split (v : CellState) (t : Int) :
    ((v = .kEmpty → t = 0) ∧ (v ≠ .kEmpty → t = getCaptureValue v)) ↔
      t = getCaptureValue v := by
  by_cases hv : v = .kEmpty
  · subst hv; simp [getCaptureValue]
  · simp [hv]

theorem color_kingOf (p : Int) (hp : p = 0 ∨ p = 1) : StateToColor (kingOf p) = p := by
  rcases hp with rfl | rfl <;> rfl

/-- C6. King rule, soundness and completeness: in every consistent non-terminal state with
player `p` to move and a King of `p` at `(r1, c1)`, the ids of `LegalActions` whose decoded
origin is `(r1, c1)` are exactly the encodings of `(r1, c1, r2, c2, t)` with `(r2, c2)` an
orthogonal unit neighbour on the board whose cell is not owned by `p`, `t = 0` when that
cell is empty and `t` the capture value of its occupant otherwise. -/
theorem king_rule (s : BattleChessState) (h : Consistent s) (hnt : IsTerminal s = false)
    (p : Int) (hp : p = 0 ∨ p = 1) (hcp : s.cur_player_ = p) (r1 c1 : Int)
    (hk : (⟨r1, c1, kingOf p⟩ : Piece) ∈ pieces s p) :
    ∃ l, LegalActions s = some l ∧ ∀ a,
      (a ∈ l ∧ ∃ r2 c2 t, decode a = [r1, c1, r2, c2, t]) ↔
      ∃ r2 c2 t, a = encode r1 c1 r2 c2 t ∧ orthNeighbour r1 c1 r2 c2 ∧
        InBounds s r2 c2 = true ∧ StateToColor (board s r2 c2) ≠ p ∧
        (board s r2 c2 = .kEmpty → t = 0) ∧
        (board s r2 c2 ≠ .kEmpty → t = getCaptureValue (board s r2 c2)) := by
  obtain ⟨l, hl, hiff⟩ := legal_from_piece h hnt p hp hcp _ hk
  refine ⟨l, hl, fun a => ?_⟩
  obtain ⟨_, hb, _⟩ := h.side p hp _ hk
  simp only at hb
  rw [hiff a, pieceMoves_king s p _ _ rfl, mem_king_moves h.rows_eq h.cols_eq]
  simp only [hb, color_kingOf p hp, captureValue_empty_split]
  constructor
  · rintro ⟨r2, c2, ho, hi, hne, rfl⟩
    exact ⟨r2, c2, _, rfl, ho, hi, Ne.symm hne, rfl⟩
  · rintro ⟨r2, c2, t, rfl, ho, hi, hne, rfl⟩
    exact ⟨r2, c2, ho, hi, Ne.symm hne, rfl⟩

theorem king_rule_witness :
    ∃ l, LegalActions NewInitialState = some l ∧ ∀ a,
      (a ∈ l ∧ ∃ r2 c2 t, decode a = [4, 2, r2, c2, t]) ↔
      ∃ r2 c2 t, a = encode 4 2 r2 c2 t ∧ orthNeighbour 4 2 r2 c2 ∧
        InBounds NewInitialState r2 c2 = true ∧
        StateToColor (board NewInitialState r2 c2) ≠ 0 ∧
        (board NewInitialState r2 c2 = .kEmpty → t = 0) ∧
        (board NewInitialState r2 c2 ≠ .kEmpty →
          t = getCaptureValue (board NewInitialState r2 c2)) :=
  king_rule NewInitialState consistent_init (by decide) 0 (Or.inl rfl) (by decide) 4 2
    (by decide)

theorem orth_not_diag {r1 c1 r2 c2 : Int} (h : orthNeighbour r1 c1 r2 c2) :
    ¬ diagNeighbour r1 c1 r2 c2 := by
  unfold orthNeighbour at h; unfold diagNeighbour; omega

theorem color_of_enemy_ne_empty {v : CellState} {p : Int} (hp : p = 0 ∨ p = 1)
    (hv : StateToColor v = 1 - p) : v ≠ .kEmpty :=
  not_empty_of_color (p := 1 - p) (by omega) hv

/-- C7. Defender rule, soundness and completeness: in every consistent non-terminal state
with player `p` to move and a Defender of `p` at `(r1, c1)`, the ids of `LegalActions`
whose decoded origin is `(r1, c1)` are exactly `encode(r1, c1, r2, c2, 0)` for the
orthogonal unit neighbours `(r2, c2)` on the board that are empty, together with
`encode(r1, c1, r2, c2, t)` for the diagonal unit neighbours on the board occupied by an
enemy piece, `t` its capture value.  Hence a legal Defender id never captures orthogonally
and never moves diagonally onto an empty square. -/
theorem defender_rule (s : BattleChessState) (h : Consistent s) (hnt : IsTerminal s = false)
    (p : Int) (hp : p = 0 ∨ p = 1) (hcp : s.cur_player_ = p) (r1 c1 : Int)
    (hk : (⟨r1, c1, defenderOf p⟩ : Piece) ∈ pieces s p) :
    ∃ l, LegalActions s = some l ∧
      (∀ a, (a ∈ l ∧ ∃ r2 c2 t, decode a = [r1, c1, r2, c2, t]) ↔
        ∃ r2 c2 t, a = encode r1 c1 r2 c2 t ∧ InBounds s r2 c2 = true ∧
          ((orthNeighbour r1 c1 r2 c2 ∧ board s r2 c2 = .kEmpty ∧ t = 0) ∨
           (diagNeighbour r1 c1 r2 c2 ∧ StateToColor (board s r2 c2) = 1 - p ∧
              t = getCaptureValue (board s r2 c2)))) ∧
      (∀ a ∈ l, ∀ r2 c2 t, decode a = [r1, c1, r2, c2, t] →
        (orthNeighbour r1 c1 r2 c2 → board s r2 c2 = .kEmpty ∧ t = 0) ∧
        (diagNeighbour r1 c1 r2 c2 → board s r2 c2 ≠ .kEmpty ∧ 0 < t)) := by
  obtain ⟨l, hl, hiff⟩ := legal_from_piece h hnt p hp hcp _ hk
  obtain ⟨hin, _, _⟩ := h.side p hp _ hk
  have key : ∀ a, (a ∈ l ∧ ∃ r2 c2 t, decode a = [r1, c1, r2, c2, t]) ↔
      ∃ r2 c2 t, a = encode r1 c1 r2 c2 t ∧ InBounds s r2 c2 = true ∧
        ((orthNeighbour r1 c1 r2 c2 ∧ board s r2 c2 = .kEmpty ∧ t = 0) ∨
         (diagNeighbour r1 c1 r2 c2 ∧ StateToColor (board s r2 c2) = 1 - p ∧
            t = getCaptureValue (board s r2 c2))) := by
    intro a
    rw [hiff a, pieceMoves_defender s p _ _ rfl, mem_defender_moves h.rows_eq h.cols_eq]
    constructor
    · rintro (⟨r2, c2, ho, hi, he, rfl⟩ | ⟨r2, c2, ho, hi, he, rfl⟩)
      · exact ⟨r2, c2, 0, rfl, hi, Or.inl ⟨ho, he, rfl⟩⟩
      · exact ⟨r2, c2, _, rfl, hi, Or.inr ⟨ho, he, rfl⟩⟩
    · rintro ⟨r2, c2, t, rfl, hi, (⟨ho, he, rfl⟩ | ⟨ho, he, rfl⟩)⟩
      · exact Or.inl ⟨r2, c2, ho, hi, he, rfl⟩
      · exact Or.inr ⟨r2, c2, ho, hi, he, rfl⟩
  refine ⟨l, hl, key, ?_⟩
  intro a ha r2 c2 t hd
  obtain ⟨r2', c2', t', rfl, hi, hcase⟩ := (key a).1 ⟨ha, r2, c2, t, hd⟩
  have hsrc := (inBounds_iff s r1 c1).1 hin
  have hdst := (inBounds_iff s r2' c2').1 hi
  rw [h.rows_eq, h.cols_eq] at hsrc hdst
  have hv : validDescriptor r1 c1 r2' c2' t' := by
    refine ⟨⟨hsrc.1, hsrc.2.1⟩, ⟨hsrc.2.2.1, hsrc.2.2.2⟩, ⟨hdst.1, hdst.2.1⟩,
      ⟨hdst.2.2.1, hdst.2.2.2⟩, ?_⟩
    rcases hcase with ⟨_, _, rfl⟩ | ⟨_, _, rfl⟩
    · decide
    · exact captureValue_range _
  rw [decode_encode _ _ _ _ _ hv] at hd
  simp only [List.cons.injEq, and_true, true_and] at hd
  obtain ⟨rfl, rfl, rfl⟩ := hd
  rcases hcase with ⟨ho, he, ht⟩ | ⟨ho, he, ht⟩
  · exact ⟨fun _ => ⟨he, ht⟩, fun hdg => absurd hdg (orth_not_diag ho)⟩
  · have hne := color_of_enemy_ne_empty hp he
    exact ⟨fun hor => absurd ho (orth_not_diag hor),
      fun _ => ⟨hne, by rw [ht]; exact (captureValue_pos_iff _).2 hne⟩⟩

theorem defender_rule_witness :
    ∃ l, LegalActions NewInitialState = some l ∧
      (∀ a, (a ∈ l ∧ ∃ r2 c2 t, decode a = [4, 1, r2, c2, t]) ↔
        ∃ r2 c2 t, a = encode 4 1 r2 c2 t ∧ InBounds NewInitialState r2 c2 = true ∧
          ((orthNeighbour 4 1 r2 c2 ∧ board NewInitialState r2 c2 = .kEmpty ∧ t = 0) ∨
           (diagNeighbour 4 1 r2 c2 ∧ StateToColor (board NewInitialState r2 c2) = 1 - 0 ∧
              t = getCaptureValue (board NewInitialState r2 c2)))) ∧
      (∀ a ∈ l, ∀ r2 c2 t, decode a = [4, 1, r2, c2, t] →
        (orthNeighbour 4 1 r2 c2 → board NewInitialState r2 c2 = .kEmpty ∧ t = 0) ∧
        (diagNeighbour 4 1 r2 c2 → board NewInitialState r2 c2 ≠ .kEmpty ∧ 0 < t)) :=
  defender_rule NewInitialState consistent_init (by decide) 0 (Or.inl rfl) (by decide) 4 1
    (by decide)

/-- C8. Attacker rule, soundness and completeness: in every consistent non-terminal state
with player `p` to move and an Attacker of `p` at `(r1, c1)`, the ids of `LegalActions`
whose decoded origin is `(r1, c1)` are exactly `encode(r1, c1, r2, c2, 0)` for the diagonal
unit neighbours `(r2, c2)` on the board that are empty, together with
`encode(r1, c1, r2, c2, t)` for the orthogonal unit neighbours on the board occupied by an
enemy piece, `t` its capture value (the Defender rule with the two axes swapped). -/
theorem attacker_rule (s : BattleChessState) (h : Consistent s) (hnt : IsTerminal s = false)
    (p : Int) (hp : p = 0 ∨ p = 1) (hcp : s.cur_player_ = p) (r1 c1 : Int)
    (hk : (⟨r1, c1, attackerOf p⟩ : Piece) ∈ pieces s p) :
    ∃ l, LegalActions s = some l ∧
      ∀ a, (a ∈ l ∧ ∃ r2 c2 t, decode a = [r1, c1, r2, c2, t]) ↔
        ∃ r2 c2 t, a = encode r1 c1 r2 c2 t ∧ InBounds s r2 c2 = true ∧
          ((diagNeighbour r1 c1 r2 c2 ∧ board s r2 c2 = .kEmpty ∧ t = 0) ∨
           (orthNeighbour r1 c1 r2 c2 ∧ StateToColor (board s r2 c2) = 1 - p ∧
              t = getCaptureValue (board s r2 c2))) := by
  obtain ⟨l, hl, hiff⟩ := legal_from_piece h hnt p hp hcp _ hk
  refine ⟨l, hl, fun a => ?_⟩
  rw [hiff a, pieceMoves_attacker s p _ _ rfl, mem_attacker_moves h.rows_eq h.cols_eq]
  constructor
  · rintro (⟨r2, c2, ho, hi, he, rfl⟩ | ⟨r2, c2, ho, hi, he, rfl⟩)
    · exact ⟨r2, c2, 0, rfl, hi, Or.inl ⟨ho, he, rfl⟩⟩
    · exact ⟨r2, c2, _, rfl, hi, Or.inr ⟨ho, he, rfl⟩⟩
  · rintro ⟨r2, c2, t, rfl, hi, (⟨ho, he, rfl⟩ | ⟨ho, he, rfl⟩)⟩
    · exact Or.inl ⟨r2, c2, ho, hi, he, rfl⟩
    · exact Or.inr ⟨r2, c2, ho, hi, he, rfl⟩

theorem attacker_rule_witness :
    ∃ l, LegalActions blackKingAttacked = some l ∧
      ∀ a, (a ∈ l ∧ ∃ r2 c2 t, decode a = [2, 2, r2, c2, t]) ↔
        ∃ r2 c2 t, a = encode 2 2 r2 c2 t ∧ InBounds blackKingAttacked r2 c2 = true ∧
          ((diagNeighbour 2 2 r2 c2 ∧ board blackKingAttacked r2 c2 = .kEmpty ∧ t = 0) ∨
           (orthNeighbour 2 2 r2 c2 ∧ StateToColor (board blackKingAttacked r2 c2) = 1 - 0 ∧
              t = getCaptureValue (board blackKingAttacked r2 c2))) :=
  attacker_rule blackKingAttacked (reachable_consistent reachable_blackKingAttacked)
    (by decide) 0 (Or.inl rfl) (by decide) 2 2 (by decide)

/-! ## Order and distinctness of the legal list -/

theorem nodup_flatMap_of_key {α β γ : Type} (key : β → γ) (tag : α → γ) (f : α → List β)
    (l : List α) (h1 : ∀ x ∈ l, (f x).Nodup) (h2 : ∀ x ∈ l, ∀ b ∈ f x, key b = tag x)
    (h3 : (l.map tag).Nodup) : (l.flatMap f).Nodup := by
  rw [List.nodup_flatMap]
  refine ⟨h1, ?_⟩
  rw [List.Nodup, List.pairwise_map] at h3
  refine h3.imp_of_mem ?_
  intro x y hx hy hne
  intro b hbx hby
  exact hne ((h2 x hx b hbx).symm.trans (h2 y hy b hby))

theorem originOf_encode (r1 c1 r2 c2 t : Int) (h : validDescriptor r1 c1 r2 c2 t) :
    originOf (encode r1 c1 r2 c2 t) = (r1, c1) := by
  simp only [originOf, decode_encode _ _ _ _ _ h]

theorem destOf_encode (r1 c1 r2 c2 t : Int) (h : validDescriptor r1 c1 r2 c2 t) :
    destOf (encode r1 c1 r2 c2 t) = (r2, c2) := by
  simp only [destOf, decode_encode _ _ _ _ _ h]

theorem valid_of_inBounds {s : BattleChessState} (hr : s.rows_ = 5) (hc : s.cols_ = 5)
    {r1 c1 r2 c2 t : Int} (h1 : InBounds s r1 c1 = true) (h2 : InBounds s r2 c2 = true)
    (ht : 0 ≤ t ∧ t < 9) : validDescriptor r1 c1 r2 c2 t := by
  have hsrc := (inBounds_iff s r1 c1).1 h1
  have hdst := (inBounds_iff s r2 c2).1 h2
  rw [hr, hc] at hsrc hdst
  exact ⟨⟨hsrc.1, hsrc.2.1⟩, ⟨hsrc.2.2.1, hsrc.2.2.2⟩, ⟨hdst.1, hdst.2.1⟩,
    ⟨hdst.2.2.1, hdst.2.2.2⟩, ht⟩

theorem kingStep_nodup {s : BattleChessState} (r1 c1 r2 c2 x : Int) :
    (kingStep s [r1, c1, r2, c2, x]).Nodup := by
  simp only [kingStep]
  split_ifs <;> simp

theorem captureStep_nodup {s : BattleChessState} (e r1 c1 r2 c2 x : Int) :
    (captureStep s e [r1, c1, r2, c2, x]).Nodup := by
  simp only [captureStep]
  split_ifs <;> simp
  omega

theorem dest_of_mem_kingStep {s : BattleChessState} (hr : s.rows_ = 5) (hc : s.cols_ = 5)
    {r1 c1 r2 c2 a : Int} (hin : InBounds s r1 c1 = true)
    (ha : a ∈ kingStep s [r1, c1, r2, c2, 0]) : destOf a = (r2, c2) := by
  rw [mem_kingStep hr hc] at ha
  obtain ⟨hi, _, rfl⟩ := ha
  exact destOf_encode _ _ _ _ _ (valid_of_inBounds hr hc hin hi (captureValue_range _))

theorem dest_of_mem_captureStep {s : BattleChessState} (hr : s.rows_ = 5) (hc : s.cols_ = 5)
    {e r1 c1 r2 c2 x a : Int} (hin : InBounds s r1 c1 = true) (hx : x = 0 ∨ x = -1)
    (ha : a ∈ captureStep s e [r1, c1, r2, c2, x]) : destOf a = (r2, c2) := by
  rcases hx with rfl | rfl
  · rw [mem_captureStep_move hr hc] at ha
    obtain ⟨hi, _, rfl⟩ := ha
    exact destOf_encode _ _ _ _ _ (valid_of_inBounds hr hc hin hi (by decide))
  · rw [mem_captureStep_take hr hc] at ha
    obtain ⟨hi, _, rfl⟩ := ha
    exact destOf_encode _ _ _ _ _ (valid_of_inBounds hr hc hin hi (captureValue_range _))

theorem king_moves_nodup {s : BattleChessState} (hr : s.rows_ = 5) (hc : s.cols_ = 5)
    (r1 c1 : Int) (hin : InBounds s r1 c1 = true) :
    ((KingAction r1 c1).flatMap (kingStep s)).Nodup := by
  apply nodup_flatMap_of_key destOf candDest
  · intro x hx
    simp only [KingAction, dir1, List.map_cons, List.map_nil, List.mem_cons,
      List.mem_singleton, List.not_mem_nil, or_false] at hx
    rcases hx with rfl | rfl | rfl | rfl <;> exact kingStep_nodup _ _ _ _ _
  · intro x hx b hb
    simp only [KingAction, dir1, List.map_cons, List.map_nil, List.mem_cons,
      List.mem_singleton, List.not_mem_nil, or_false] at hx
    rcases hx with rfl | rfl | rfl | rfl <;> exact dest_of_mem_kingStep hr hc hin hb
  · simp [KingAction, dir1, candDest]

theorem defender_moves_nodup {s : BattleChessState} (hr : s.rows_ = 5) (hc : s.cols_ = 5)
    (e r1 c1 : Int) (hin : InBounds s r1 c1 = true) :
    ((DefenderAction r1 c1).flatMap (captureStep s e)).Nodup := by
  apply nodup_flatMap_of_key destOf candDest
  · intro x hx
    simp only [DefenderAction, dir1, dir2, List.map_cons, List.map_nil, List.mem_cons,
      List.mem_append, List.mem_singleton, List.not_mem_nil, or_false] at hx
    rcases hx with (rfl | rfl | rfl | rfl) | (rfl | rfl | rfl | rfl) <;>
      exact captureStep_nodup _ _ _ _ _ _
  · intro x hx b hb
    simp only [DefenderAction, dir1, dir2, List.map_cons, List.map_nil, List.mem_cons,
      List.mem_append, List.mem_singleton, List.not_mem_nil, or_false] at hx
    rcases hx with (rfl | rfl | rfl | rfl) | (rfl | rfl | rfl | rfl)
    all_goals first
      | exact dest_of_mem_captureStep hr hc hin (Or.inl rfl) hb
      | exact dest_of_mem_captureStep hr hc hin (Or.inr rfl) hb
  · simp [DefenderAction, dir1, dir2, candDest]

theorem attacker_moves_nodup {s : BattleChessState} (hr : s.rows_ = 5) (hc : s.cols_ = 5)
    (e r1 c1 : Int) (hin : InBounds s r1 c1 = true) :
    ((AttackerAction r1 c1).flatMap (captureStep s e)).Nodup := by
  apply nodup_flatMap_of_key destOf candDest
  · intro x hx
    simp only [AttackerAction, dir1, dir2, List.map_cons, List.map_nil, List.mem_cons,
      List.mem_append, List.mem_singleton, List.not_mem_nil, or_false] at hx
    rcases hx with (rfl | rfl | rfl | rfl) | (rfl | rfl | rfl | rfl) <;>
      exact captureStep_nodup _ _ _ _ _ _
  · intro x hx b hb
    simp only [AttackerAction, dir1, dir2, List.map_cons, List.map_nil, List.mem_cons,
      List.mem_append, List.mem_singleton, List.not_mem_nil, or_false] at hx
    rcases hx with (rfl | rfl | rfl | rfl) | (rfl | rfl | rfl | rfl)
    all_goals first
      | exact dest_of_mem_captureStep hr hc hin (Or.inl rfl) hb
      | exact dest_of_mem_captureStep hr hc hin (Or.inr rfl) hb
  · simp [AttackerAction, dir1, dir2, candDest]

theorem pieceMoves_nodup {s : BattleChessState} (h : Consistent s) (p : Int)
    (hp : p = 0 ∨ p = 1) (q : Piece) (hq : q ∈ pieces s p) :
    (pieceMoves s (kingOf p) (defenderOf p) (attackerOf p) (1 - p) q).Nodup := by
  obtain ⟨hin, _, hc⟩ := h.side p hp q hq
  rcases type_cases p hp _ hc with ht | ht | ht
  · rw [pieceMoves_king s p _ q ht]
    exact king_moves_nodup h.rows_eq h.cols_eq _ _ hin
  · rw [pieceMoves_defender s p _ q ht]
    exact defender_moves_nodup h.rows_eq h.cols_eq _ _ _ hin
  · rw [pieceMoves_attacker s p _ q ht]
    exact attacker_moves_nodup h.rows_eq h.cols_eq _ _ _ hin

theorem pieces_coord_nodup {s : BattleChessState} (h : Consistent s) (p : Int)
    (hp : p = 0 ∨ p = 1) : ((pieces s p).map coord).Nodup := by
  have hnd := ((registry_perm s p hp).map coord).nodup_iff.1 h.distinct
  rw [List.map_append] at hnd
  exact hnd.of_append_left

theorem all_moves_nodup {s : BattleChessState} (h : Consistent s) (p : Int)
    (hp : p = 0 ∨ p = 1) :
    ((pieces s p).flatMap
      (pieceMoves s (kingOf p) (defenderOf p) (attackerOf p) (1 - p))).Nodup := by
  apply nodup_flatMap_of_key originOf coord
  · exact fun q hq => pieceMoves_nodup h p hp q hq
  · intro q hq b hb
    obtain ⟨r2, c2, t, rfl, m⟩ := pieceMoves_sound h p hp q hq b hb
    exact originOf_encode _ _ _ _ _ (sound_valid h m)
  · exact pieces_coord_nodup h p hp

/-- `LegalActions` returns a list on every consistent state. -/
theorem legalActions_total {s : BattleChessState} (h : Consistent s) :
    ∃ l, LegalActions s = some l ∧ l.Sorted (· ≤ ·) ∧ l.Nodup := by
  by_cases hnt : IsTerminal s = true
  · refine ⟨[], ?_, List.sorted_nil, List.nodup_nil⟩
    simp [LegalActions, hnt]
  · simp only [Bool.not_eq_true] at hnt
    by_cases hp : s.cur_player_ = 0 ∨ s.cur_player_ = 1
    · refine ⟨_, legalActions_eq h hnt _ hp rfl, List.sorted_insertionSort _ _, ?_⟩
      rw [(List.perm_insertionSort _ _).nodup_iff]
      exact all_moves_nodup h _ hp
    · push_neg at hp
      refine ⟨[], ?_, List.sorted_nil, List.nodup_nil⟩
      simp [LegalActions, CurrentPlayer, hnt, hp.1, hp.2]

/-- C9. For every state satisfying the board/registry consistency invariant, `LegalActions`
returns a list that is strictly ascending in the encoded action id: sorted in ascending
numeric order and without a duplicate id. -/
theorem legal_actions_strictly_ascending (s : BattleChessState) (h : Consistent s) :
    ∃ l, LegalActions s = some l ∧ l.Sorted (· < ·) ∧ l.Sorted (· ≤ ·) ∧ l.Nodup := by
  obtain ⟨l, hl, hs, hn⟩ := legalActions_total h
  exact ⟨l, hl, hs.lt_of_le hn, hs, hn⟩

theorem legal_actions_strictly_ascending_witness :
    ∃ l, LegalActions blackKingAttacked = some l ∧ l.Sorted (· < ·) ∧ l.Sorted (· ≤ ·) ∧
      l.Nodup :=
  legal_actions_strictly_ascending blackKingAttacked
    (reachable_consistent reachable_blackKingAttacked)

/-! ## The capture-tag enumeration -/

/-- C17. The capture-tag enumeration is a fixed bijection between the seven cell values
and the tags 0..6: `getCaptureValue` maps White Attacker, Defender, King to 1, 2, 3, Black
Attacker, Defender, King to 4, 5, 6 and Empty to 0; `StateType (getCaptureValue v) = v`
for every cell value; `getCaptureValue (StateType t) = t` for every tag in 0..6; and
`StateType` fails for every integer outside 0..6. -/
theorem capture_tag_bijection :
    (getCaptureValue .kWhiteAttacker = 1 ∧ getCaptureValue .kWhiteDefender = 2 ∧
      getCaptureValue .kWhiteKing = 3 ∧ getCaptureValue .kBlackAttacker = 4 ∧
      getCaptureValue .kBlackDefender = 5 ∧ getCaptureValue .kBlackKing = 6 ∧
      getCaptureValue .kEmpty = 0) ∧
    (∀ v, 0 ≤ getCaptureValue v ∧ getCaptureValue v ≤ 6 ∧
      StateType (getCaptureValue v) = some v) ∧
    (∀ t, 0 ≤ t → t ≤ 6 → ∃ v, StateType t = some v ∧ getCaptureValue v = t) ∧
    (∀ t, t < 0 ∨ 6 < t → StateType t = none) := by
  refine ⟨by decide, ?_, ?_, ?_⟩
  · intro v
    cases v <;> decide
  · intro t h0 h6
    have : t = 0 ∨ t = 1 ∨ t = 2 ∨ t = 3 ∨ t = 4 ∨ t = 5 ∨ t = 6 := by omega
    rcases this with rfl | rfl | rfl | rfl | rfl | rfl | rfl <;> exact ⟨_, rfl, rfl⟩
  · intro t ht
    unfold StateType
    split_ifs <;> first | rfl | omega

theorem capture_tag_bijection_witness :
    (∃ v, StateType 6 = some v ∧ getCaptureValue v = 6) ∧ StateType 7 = none :=
  ⟨capture_tag_bijection.2.2.1 6 (by decide) (by decide),
   capture_tag_bijection.2.2.2 7 (Or.inr (by decide))⟩

/-! ## The initial state -/

/-- C18. The initial state has current player 0, move count 0 and an unset winner (it is
not terminal); on the 5x5 board row 0 holds Black Attacker, Defender, King, Defender,
Attacker, row 4 holds White Attacker, Defender, King, Defender, Attacker, and every other
cell is empty (`Serialize` is `adkda`, fifteen dots, `ADKDA`); the piece lists hold exactly
these ten pieces, and the consistency invariant holds. -/
theorem initial_state_layout :
    NewInitialState.cur_player_ = 0 ∧ NewInitialState.total_moves_ = 0 ∧
    NewInitialState.winner_ = kInvalidPlayer ∧ IsTerminal NewInitialState = false ∧
    NewInitialState.rows_ = 5 ∧ NewInitialState.cols_ = 5 ∧
    NewInitialState.board_ =
      [.kBlackAttacker, .kBlackDefender, .kBlackKing, .kBlackDefender, .kBlackAttacker] ++
      List.replicate 15 .kEmpty ++
      [.kWhiteAttacker, .kWhiteDefender, .kWhiteKing, .kWhiteDefender, .kWhiteAttacker] ∧
    (board NewInitialState 0 0 = .kBlackAttacker ∧ board NewInitialState 0 1 = .kBlackDefender ∧
      board NewInitialState 0 2 = .kBlackKing ∧ board NewInitialState 0 3 = .kBlackDefender ∧
      board NewInitialState 0 4 = .kBlackAttacker) ∧
    (board NewInitialState 4 0 = .kWhiteAttacker ∧ board NewInitialState 4 1 = .kWhiteDefender ∧
      board NewInitialState 4 2 = .kWhiteKing ∧ board NewInitialState 4 3 = .kWhiteDefender ∧
      board NewInitialState 4 4 = .kWhiteAttacker) ∧
    (∀ r c, InBounds NewInitialState r c = true → r ≠ 0 → r ≠ 4 →
      board NewInitialState r c = .kEmpty) ∧
    Serialize NewInitialState =
      ['a', 'd', 'k', 'd', 'a'] ++ List.replicate 15 '.' ++ ['A', 'D', 'K', 'D', 'A'] ∧
    NewInitialState.blackPieces =
      [⟨0, 0, .kBlackAttacker⟩, ⟨0, 1, .kBlackDefender⟩, ⟨0, 2, .kBlackKing⟩,
       ⟨0, 3, .kBlackDefender⟩, ⟨0, 4, .kBlackAttacker⟩] ∧
    NewInitialState.whitePieces =
      [⟨4, 0, .kWhiteAttacker⟩, ⟨4, 1, .kWhiteDefender⟩, ⟨4, 2, .kWhiteKing⟩,
       ⟨4, 3, .kWhiteDefender⟩, ⟨4, 4, .kWhiteAttacker⟩] ∧
    Consistent NewInitialState := by
  refine ⟨rfl, rfl, rfl, rfl, rfl, rfl, by decide, by decide, by decide, ?_, by decide,
    by decide, by decide, consistent_init⟩
  intro r c hin h0 h4
  rw [inBounds_iff] at hin
  obtain ⟨h1, h2, h3, h5⟩ := hin
  have h2' : r < 5 := h2
  have h5' : c < 5 := h5
  interval_cases r <;> interval_cases c <;> first | decide | contradiction

theorem initial_state_layout_witness :
    board NewInitialState 2 3 = .kEmpty :=
  initial_state_layout.2.2.2.2.2.2.2.2.2.1 2 3 (by decide) (by decide) (by decide)

/-- C19. From the initial state `LegalActions` (White to move) is the nonempty sorted list
`[4644, 4869, 5103, 5337, 5562]`, the five non-capturing moves (4,0)->(3,1), (4,1)->(3,1),
(4,2)->(3,2), (4,3)->(3,3), (4,4)->(3,3); `LegalActions` is a function of the state, so
every call on the unchanged state returns this list. -/
theorem initial_legal_actions :
    LegalActions NewInitialState = some [4644, 4869, 5103, 5337, 5562] ∧
    NewInitialState.cur_player_ = 0 ∧
    ([4644, 4869, 5103, 5337, 5562] : List Int) ≠ [] ∧
    ([4644, 4869, 5103, 5337, 5562] : List Int).Sorted (· < ·) ∧
    (∀ l₁ l₂, LegalActions NewInitialState = some l₁ → LegalActions NewInitialState = some l₂ →
      l₁ = l₂ ∧ l₁ ≠ []) ∧
    decode 4644 = [4, 0, 3, 1, 0] ∧ decode 4869 = [4, 1, 3, 1, 0] ∧
    decode 5103 = [4, 2, 3, 2, 0] ∧ decode 5337 = [4, 3, 3, 3, 0] ∧
    decode 5562 = [4, 4, 3, 3, 0] := by
  have h : LegalActions NewInitialState = some [4644, 4869, 5103, 5337, 5562] := by rfl
  refine ⟨h, rfl, by decide, by decide, ?_, by decide, by decide, by decide, by decide,
    by decide⟩
  intro l₁ l₂ h1 h2
  rw [h] at h1 h2
  injection h1 with h1
  injection h2 with h2
  subst h1 h2
  exact ⟨rfl, by decide⟩

theorem initial_legal_actions_witness :
    ([4644, 4869, 5103, 5337, 5562] : List Int) = [4644, 4869, 5103, 5337, 5562] ∧
    ([4644, 4869, 5103, 5337, 5562] : List Int) ≠ [] :=
  initial_legal_actions.2.2.2.2.1 _ _ initial_legal_actions.1 initial_legal_actions.1

/-- C20. For every state whose winner is set (`IsTerminal` is true), `LegalActions`
returns the empty list. -/
theorem terminal_no_legal_actions (s : BattleChessState) (h : IsTerminal s = true) :
    LegalActions s = some [] := by
  simp [LegalActions, h]

theorem terminal_no_legal_actions_witness :
    IsTerminal (play whiteKingAttacked 1461) = true ∧
    LegalActions (play whiteKingAttacked 1461) = some [] :=
  ⟨by decide, terminal_no_legal_actions _ (by decide)⟩

/-! ## Safety of applying a legal action -/

/-- C16. For every state reachable by legal actions and every action of its `LegalActions`
list, `DoApplyAction` reaches no fatal check: both decoded endpoints are in bounds; when
the capture tag is positive the occupant of `(r2, c2)` has the colour opposite to the
mover and its registry removal finds an entry; the removal of the moving piece at
`(r1, c1)` finds an entry; and `DoApplyAction` returns a state. -/
theorem legal_apply_safe (s : BattleChessState) (hs : Reachable s) (l : List Int)
    (hl : LegalActions s = some l) (a : Int) (ha : a ∈ l) :
    ∃ r1 c1 r2 c2 tag,
      UnrankActionMixedBase a [s.rows_, s.cols_, s.rows_, s.cols_, 9] = [r1, c1, r2, c2, tag] ∧
      InBounds s r1 c1 = true ∧ InBounds s r2 c2 = true ∧
      (tag > 0 →
        1 - StateToColor (board s r2 c2) = StateToColor (board s r1 c1) ∧
        ∃ s1, DeletePiece s r2 c2 (board s r2 c2) = some s1 ∧
          ∃ s2, DeletePiece s1 r1 c1 (board s1 r1 c1) = some s2) ∧
      (¬ tag > 0 → ∃ s2, DeletePiece s r1 c1 (board s r1 c1) = some s2) ∧
      ∃ t, DoApplyAction s a = some t := by
  have hc := reachable_consistent hs
  obtain ⟨r1, c1, r2, c2, tag, t, rfl, m, _, ht, _⟩ := step_facts hc hl ha
  have hun : UnrankActionMixedBase (encode r1 c1 r2 c2 tag)
      [s.rows_, s.cols_, s.rows_, s.cols_, 9] = [r1, c1, r2, c2, tag] := by
    rw [hc.rows_eq, hc.cols_eq]
    exact decode_encode _ _ _ _ _ (sound_valid hc m)
  have hany1 := occupied_any hc r1 c1 m.src_in m.src_occ
  have hcv := color_cases _ m.src_occ
  have hne := m.color_ne
  refine ⟨r1, c1, r2, c2, tag, hun, m.src_in, m.dst_in, ?_, ?_, t, ht⟩
  · intro htag
    have hd : board s r2 c2 ≠ .kEmpty := by
      rw [m.tag_eq] at htag
      exact (captureValue_pos_iff _).1 htag
    have hcd := color_cases _ hd
    have hany2 := occupied_any hc r2 c2 m.dst_in hd
    refine ⟨by omega, ?_⟩
    rcases hcv with hcv | hcv
    · have hcd1 : StateToColor (board s r2 c2) = 1 := by omega
      rw [hcv] at hany1
      rw [hcd1] at hany2
      simp only [pieces, one_ne_zero, if_false, if_true] at hany1 hany2
      refine ⟨_, DeletePiece_black s r2 c2 _ hcd1 hany2, ?_⟩
      rw [board_setBlack]
      exact ⟨_, DeletePiece_white _ r1 c1 _ hcv hany1⟩
    · have hcd0 : StateToColor (board s r2 c2) = 0 := by omega
      rw [hcv] at hany1
      rw [hcd0] at hany2
      simp only [pieces, one_ne_zero, if_false, if_true] at hany1 hany2
      refine ⟨_, DeletePiece_white s r2 c2 _ hcd0 hany2, ?_⟩
      rw [board_setWhite]
      exact ⟨_, DeletePiece_black _ r1 c1 _ hcv hany1⟩
  · intro _
    rcases hcv with hcv | hcv
    · rw [hcv] at hany1
      simp only [pieces, if_true] at hany1
      exact ⟨_, DeletePiece_white s r1 c1 _ hcv hany1⟩
    · rw [hcv] at hany1
      simp only [pieces, one_ne_zero, if_false] at hany1
      exact ⟨_, DeletePiece_black s r1 c1 _ hcv hany1⟩

theorem legal_apply_safe_witness :
    ∃ r1 c1 r2 c2 tag,
      UnrankActionMixedBase 1461 [whiteKingAttacked.rows_, whiteKingAttacked.cols_,
        whiteKingAttacked.rows_, whiteKingAttacked.cols_, 9] = [r1, c1, r2, c2, tag] ∧
      InBounds whiteKingAttacked r1 c1 = true ∧ InBounds whiteKingAttacked r2 c2 = true ∧
      (tag > 0 →
        1 - StateToColor (board whiteKingAttacked r2 c2) =
          StateToColor (board whiteKingAttacked r1 c1) ∧
        ∃ s1, DeletePiece whiteKingAttacked r2 c2 (board whiteKingAttacked r2 c2) = some s1 ∧
          ∃ s2, DeletePiece s1 r1 c1 (board s1 r1 c1) = some s2) ∧
      (¬ tag > 0 → ∃ s2, DeletePiece whiteKingAttacked r1 c1
        (board whiteKingAttacked r1 c1) = some s2) ∧
      ∃ t, DoApplyAction whiteKingAttacked 1461 = some t :=
  legal_apply_safe whiteKingAttacked reachable_whiteKingAttacked
    [459, 513, 747, 972, 1359, 1395, 1413, 1449, 1461] (by rfl) 1461 (by decide)

/-! ## Turn and move counters on arbitrary states -/

theorem unrank_shape (a b0 b1 b2 b3 b4 : Int) :
    ∃ r1 c1 r2 c2, UnrankActionMixedBase a [b0, b1, b2, b3, b4] = [r1, c1, r2, c2, a.tmod b4] := by
  simp [UnrankActionMixedBase]

theorem deletePiece_fields {s s' : BattleChessState} {r c : Int} {v : CellState}
    (h : DeletePiece s r c v = some s') :
    s'.cur_player_ = s.cur_player_ ∧ s'.total_moves_ = s.total_moves_ ∧
    s'.rows_ = s.rows_ ∧ s'.cols_ = s.cols_ ∧ s'.board_ = s.board_ := by
  unfold DeletePiece at h
  split_ifs at h <;> injection h with h <;> subst h <;> exact ⟨rfl, rfl, rfl, rfl, rfl⟩

theorem addPiece_fields (s : BattleChessState) (r c : Int) (v : CellState) :
    (AddPiece s r c v).cur_player_ = s.cur_player_ ∧
    (AddPiece s r c v).total_moves_ = s.total_moves_ ∧
    (AddPiece s r c v).rows_ = s.rows_ ∧ (AddPiece s r c v).cols_ = s.cols_ ∧
    (AddPiece s r c v).board_ = s.board_ := by
  unfold AddPiece
  split_ifs <;> exact ⟨rfl, rfl, rfl, rfl, rfl⟩

theorem applyTail_fields (s2 : BattleChessState) (r1 c1 r2 c2 : Int) :
    let s3 := AddPiece s2 r2 c2 (board s2 r1 c1)
    let s4 := SetBoard s3 r2 c2 (board s3 r1 c1)
    let s5 := SetBoard s4 r1 c1 .kEmpty
    let s6 : BattleChessState := { s5 with
      cur_player_ := NextPlayerRoundRobin s5.cur_player_ kNumPlayers
      total_moves_ := s5.total_moves_ + 1 }
    let t : BattleChessState := if s6.total_moves_ ≥ 1000 then { s6 with winner_ := 1 } else s6
    t.cur_player_ = NextPlayerRoundRobin s2.cur_player_ kNumPlayers ∧
    t.total_moves_ = s2.total_moves_ + 1 ∧ t.rows_ = s2.rows_ ∧ t.cols_ = s2.cols_ := by
  obtain ⟨k1, k2, k3, k4, _⟩ := addPiece_fields s2 r2 c2 (board s2 r1 c1)
  intro s3 s4 s5 s6 t
  refine ⟨?_, ?_, ?_, ?_⟩
  · show (if s6.total_moves_ ≥ 1000 then _ else _ : BattleChessState).cur_player_ = _
    split_ifs <;> simp only [s6, s5, s4, s3, SetBoard, k1]
  · show (if s6.total_moves_ ≥ 1000 then _ else _ : BattleChessState).total_moves_ = _
    split_ifs <;> simp only [s6, s5, s4, s3, SetBoard, k2]
  · show (if s6.total_moves_ ≥ 1000 then _ else _ : BattleChessState).rows_ = _
    split_ifs <;> simp only [s6, s5, s4, s3, SetBoard, k3]
  · show (if s6.total_moves_ ≥ 1000 then _ else _ : BattleChessState).cols_ = _
    split_ifs <;> simp only [s6, s5, s4, s3, SetBoard, k4]

/-- On every state, a successful `DoApplyAction` passes both bounds checks, advances the
player round-robin, increments the move count and keeps the board dimensions. -/
theorem doApply_counters {s t : BattleChessState} {a : Int}
    (h : DoApplyAction s a = some t) :
    t.cur_player_ = NextPlayerRoundRobin s.cur_player_ kNumPlayers ∧
    t.total_moves_ = s.total_moves_ + 1 ∧ t.rows_ = s.rows_ ∧ t.cols_ = s.cols_ ∧
    ∃ r1 c1 r2 c2,
      UnrankActionMixedBase a [s.rows_, s.cols_, s.rows_, s.cols_, 9] =
        [r1, c1, r2, c2, a.tmod 9] ∧
      InBounds s r1 c1 = true ∧ InBounds s r2 c2 = true := by
  obtain ⟨r1, c1, r2, c2, hun⟩ := unrank_shape a s.rows_ s.cols_ s.rows_ s.cols_ 9
  unfold DoApplyAction at h
  rw [hun] at h
  simp only at h
  by_cases h1 : InBounds s r1 c1 = true
  swap
  · simp [h1] at h
  by_cases h2 : InBounds s r2 c2 = true
  swap
  · simp [h1, h2] at h
  simp only [h1, h2, Bool.not_true, Bool.false_eq_true, if_false, Option.pure_def,
    Option.bind_eq_bind] at h
  refine ⟨?_, ?_, ?_, ?_, r1, c1, r2, c2, hun, h1, h2⟩
  all_goals
    by_cases hc : a.tmod 9 > 0
    · by_cases hk : 1 - StateToColor (board s r2 c2) ≠ StateToColor (board s r1 c1)
      · simp [hc, hk] at h
      · simp only [hc, hk, if_true, if_false, Option.bind_eq_some] at h
        obtain ⟨sa, hsa, s1, hsc, s2, hs2, ht⟩ := h
        obtain ⟨f1, f2, f3, f4, _⟩ := deletePiece_fields hsa
        obtain ⟨g1, g2, g3, g4, _⟩ := deletePiece_fields hs2
        have e : s1.cur_player_ = sa.cur_player_ ∧ s1.total_moves_ = sa.total_moves_ ∧
            s1.rows_ = sa.rows_ ∧ s1.cols_ = sa.cols_ := by
          injection hsc with hsc
          subst hsc
          split_ifs <;> exact ⟨rfl, rfl, rfl, rfl⟩
        injection ht with ht
        subst ht
        obtain ⟨t1, t2, t3, t4⟩ := applyTail_fields s2 r1 c1 r2 c2
        first
          | exact t1.trans (by rw [g1, e.1, f1])
          | exact t2.trans (by rw [g2, e.2.1, f2])
          | exact t3.trans (by rw [g3, e.2.2.1, f3])
          | exact t4.trans (by rw [g4, e.2.2.2, f4])
    · simp only [hc, if_false, Option.some_bind, Option.bind_eq_some] at h
      obtain ⟨s2, hs2, ht⟩ := h
      obtain ⟨g1, g2, g3, g4, _⟩ := deletePiece_fields hs2
      injection ht with ht
      subst ht
      obtain ⟨t1, t2, t3, t4⟩ := applyTail_fields s2 r1 c1 r2 c2
      first
        | exact t1.trans (by rw [g1])
        | exact t2.trans (by rw [g2])
        | exact t3.trans (by rw [g3])
        | exact t4.trans (by rw [g4])

/-- Forgetting the point of failure, `UndoActionTraced` is `UndoAction`. -/
theorem undoTraced_refines (s : BattleChessState) (a : Int) :
    (UndoActionTraced s a).toOption = UndoAction s a := by
  obtain ⟨r1, c1, r2, c2, hun⟩ := unrank_shape a s.rows_ s.cols_ s.rows_ s.cols_ 9
  unfold UndoActionTraced UndoAction
  rw [hun]
  simp only [List.getD_cons_zero, List.getD_cons_succ]
  by_cases h1 : InBounds s r1 c1 = true
  swap
  · simp [h1, Except.toOption]
  by_cases h2 : InBounds s r2 c2 = true
  swap
  · simp [h1, h2, Except.toOption]
  simp only [h1, h2, Bool.not_true, Bool.false_eq_true, if_false, Option.pure_def,
    Option.bind_eq_bind]
  by_cases hc : a.tmod 9 > 0
  · cases hst : StateType (a.tmod 9) with
    | none => simp [hc, hst, Except.toOption]
    | some v => simp [hc, hst, Except.toOption]
  · simp [hc, Except.toOption]

theorem applyFacts_of_applyAction {s t : BattleChessState} (h : Consistent s)
    {r1 c1 r2 c2 tag : Int} (m : SoundMove s r1 c1 r2 c2 tag)
    (ht : ApplyAction s (encode r1 c1 r2 c2 tag) = some t) :
    ∃ u, DoApplyAction s (encode r1 c1 r2 c2 tag) = some u ∧ ApplyFacts s u r1 c1 r2 c2 ∧
      t = { u with history_ := u.history_ ++ [encode r1 c1 r2 c2 tag] } := by
  obtain ⟨u, hu, rfl⟩ := applyAction_some ht
  obtain ⟨u', hu', f⟩ := doApply_sound h m
  rw [hu'] at hu
  injection hu with hu
  subst hu
  exact ⟨u', hu', f, rfl⟩

theorem reachedIn_reachable {k : Nat} {s : BattleChessState} (h : ReachedIn k s) :
    Reachable s := by
  induction h with
  | init => exact Reachable.init
  | step _ hl ha _ happ ih => exact Reachable.step ih hl ha happ

/-- Along a sequence of legal actions without King capture the move count is the number of
actions applied and the winner stays unset until the count reaches 1000. -/
theorem reachedIn_inv {k : Nat} {s : BattleChessState} (h : ReachedIn k s) :
    s.total_moves_ = k ∧
    s.winner_ = if (k : Int) ≥ 1000 then 1 else kInvalidPlayer := by
  induction h with
  | init => exact ⟨rfl, rfl⟩
  | @step k s t l a hs hl ha hnk happ ih =>
    have hc := reachable_consistent (reachedIn_reachable hs)
    obtain ⟨hnt, _⟩ := legal_nonterminal hl ha
    obtain ⟨r1, c1, r2, c2, tag, rfl, m, _⟩ := legal_sound hc hl ha
    obtain ⟨u, _, f, rfl⟩ := applyFacts_of_applyAction hc m happ
    obtain ⟨ihn, ihw⟩ := ih
    have hlt : ¬ ((k : Int) ≥ 1000) := by
      intro hge
      rw [if_pos hge] at ihw
      simp [IsTerminal, ihw] at hnt
    rw [if_neg hlt] at ihw
    have hdest : destOf (encode r1 c1 r2 c2 tag) = (r2, c2) :=
      destOf_encode _ _ _ _ _ (sound_valid hc m)
    simp only [capturesKing, hdest, not_or] at hnk
    refine ⟨?_, ?_⟩
    · show u.total_moves_ = _
      rw [f.moves_eq, ihn]; push_cast; ring
    · show u.winner_ = _
      rw [f.winner_eq, ihn, if_neg hnk.1, if_neg hnk.2, ihw]
      push_cast
      rfl

/-- C11. Move cap: along every sequence of legal actions from the initial state in which
no King is captured, the state after `k` actions has move count `k`; it is not terminal
for every `k < 1000`; and after exactly 1000 actions (`MaxGameLength`) it is terminal with
winner 1 and `Returns = (-1, +1)`.  No longer sequence exists. -/
theorem move_cap (k : Nat) (s : BattleChessState) (h : ReachedIn k s) :
    MaxGameLength = 1000 ∧ s.total_moves_ = k ∧ k ≤ 1000 ∧
    (k < 1000 → IsTerminal s = false ∧ s.winner_ = kInvalidPlayer) ∧
    (k = 1000 → IsTerminal s = true ∧ s.winner_ = 1 ∧ Returns s = [-1, 1]) := by
  obtain ⟨hn, hw⟩ := reachedIn_inv h
  refine ⟨rfl, hn, ?_, ?_, ?_⟩
  · cases h with
    | init => exact Nat.zero_le _
    | @step k' s' _ l a hs hl ha _ _ =>
      obtain ⟨hnt, _⟩ := legal_nonterminal hl ha
      obtain ⟨_, hw'⟩ := reachedIn_inv hs
      by_contra hgt
      have hge : (k' : Int) ≥ 1000 := by omega
      rw [if_pos hge] at hw'
      simp [IsTerminal, hw'] at hnt
  · intro hk
    have : ¬ ((k : Int) ≥ 1000) := by omega
    rw [if_neg this] at hw
    exact ⟨by simp [IsTerminal, hw, kInvalidPlayer], hw⟩
  · intro hk
    have : (k : Int) ≥ 1000 := by omega
    rw [if_pos this] at hw
    exact ⟨by simp [IsTerminal, hw], hw, by simp [Returns, hw]⟩

theorem inBounds_five {s : BattleChessState} (hr : s.rows_ = 5) (hc : s.cols_ = 5)
    (r c : Int) (h : 0 ≤ r ∧ r < 5 ∧ 0 ≤ c ∧ c < 5) : InBounds s r c = true := by
  rw [inBounds_iff, hr, hc]; exact h

/-- From a state reached by `k < 1000` legal non-capturing actions in which the King of the
player to move stands next to an empty cell, the King move onto that cell is legal and
extends the sequence. -/
theorem king_step {k : Nat} {s : BattleChessState} (hr : ReachedIn k s) (hk : k < 1000)
    (p : Int) (hp : p = 0 ∨ p = 1) (hcp : s.cur_player_ = p) (r1 c1 r2 c2 : Int)
    (hin1 : InBounds s r1 c1 = true) (hking : board s r1 c1 = kingOf p)
    (ho : orthNeighbour r1 c1 r2 c2) (hin2 : InBounds s r2 c2 = true)
    (he : board s r2 c2 = .kEmpty) :
    ∃ t, ReachedIn (k + 1) t ∧ t.cur_player_ = 1 - p ∧ t.rows_ = s.rows_ ∧
      t.cols_ = s.cols_ ∧
      ∀ r c, InBounds s r c = true → board t r c =
        if r = r1 ∧ c = c1 then .kEmpty
        else if r = r2 ∧ c = c2 then kingOf p else board s r c := by
  have hc := reachable_consistent (reachedIn_reachable hr)
  have hw : s.winner_ = kInvalidPlayer := by
    have := (reachedIn_inv hr).2
    rwa [if_neg (by omega)] at this
  have hnt : IsTerminal s = false := by simp [IsTerminal, hw, kInvalidPlayer]
  have hcolk : StateToColor (kingOf p) = p := color_kingOf p hp
  have hocc : board s r1 c1 ≠ .kEmpty := by
    rw [hking]; exact not_empty_of_color hp hcolk
  -- the registry entry of the King
  obtain ⟨q, hq, hqr, hqc⟩ := hc.covered r1 c1 hin1 hocc
  have hq' : q ∈ pieces s p ∧ q.pieceType = kingOf p := by
    rw [mem_registry] at hq
    rcases hq with hq | hq
    · obtain ⟨_, hb, hcol⟩ := hc.side 0 (Or.inl rfl) q hq
      rw [hqr, hqc, hking] at hb
      rw [← hb, hcolk] at hcol
      subst hcol
      exact ⟨hq, hb.symm⟩
    · obtain ⟨_, hb, hcol⟩ := hc.side 1 (Or.inr rfl) q hq
      rw [hqr, hqc, hking] at hb
      rw [← hb, hcolk] at hcol
      subst hcol
      exact ⟨hq, hb.symm⟩
  obtain ⟨l, hl, hiff⟩ := legal_from_piece hc hnt p hp hcp q hq'.1
  have hcne : StateToColor (board s r2 c2) ≠ StateToColor (board s r1 c1) := by
    rw [he, hking, hcolk]; simp [StateToColor]; omega
  have hmem : encode r1 c1 r2 c2 0 ∈ l := by
    refine ((hiff _).2 ?_).1
    rw [pieceMoves_king s p _ q hq'.2, mem_king_moves hc.rows_eq hc.cols_eq, hqr, hqc]
    exact ⟨r2, c2, ho, hin2, Ne.symm hcne, by rw [he]; rfl⟩
  have m : SoundMove s r1 c1 r2 c2 0 :=
    ⟨hin1, hin2, orth_apart ho, hocc, hcne, by rw [he]; rfl⟩
  obtain ⟨u, hu, f⟩ := doApply_sound hc m
  have happ : ApplyAction s (encode r1 c1 r2 c2 0) =
      some { u with history_ := u.history_ ++ [encode r1 c1 r2 c2 0] } := by
    simp [ApplyAction, hu]
  have hnk : ¬ capturesKing s (encode r1 c1 r2 c2 0) := by
    simp only [capturesKing, destOf_encode _ _ _ _ _ (sound_valid hc m), he]
    simp
  refine ⟨_, ReachedIn.step hr hl hmem hnk happ, ?_, f.rows_eq, f.cols_eq, ?_⟩
  · show u.cur_player_ = 1 - p
    rw [f.player_eq, hcp]
    rcases hp with rfl | rfl <;> decide
  · intro r c hin
    show board u r c = _
    rw [board_of_facts hc f hin1 hin2 r c hin, hking]

theorem shufflePos_init : ShufflePos NewInitialState :=
  ⟨rfl, rfl, rfl, by decide, by decide, by decide, by decide⟩

/-- Four King moves, (4,2)-(3,2), (0,2)-(1,2), (3,2)-(4,2), (1,2)-(0,2), lead from a
shuffle position back to a shuffle position. -/
theorem shuffle_cycle {k : Nat} {s : BattleChessState} (hr : ReachedIn k s)
    (hk : k + 3 < 1000) (hs : ShufflePos s) :
    ∃ t, ReachedIn (k + 4) t ∧ ShufflePos t := by
  obtain ⟨turn, hrow, hcol, wk, wfree, bk, bfree⟩ := hs
  have inb : ∀ {u : BattleChessState}, u.rows_ = 5 → u.cols_ = 5 → ∀ r c : Int,
      0 ≤ r ∧ r < 5 ∧ 0 ≤ c ∧ c < 5 → InBounds u r c = true :=
    fun h1 h2 r c h => inBounds_five h1 h2 r c h
  -- 1. White King (4,2) -> (3,2)
  obtain ⟨t1, hr1, turn1, hrow1, hcol1, hb1⟩ :=
    king_step hr (by omega) 0 (Or.inl rfl) turn 4 2 3 2 (inb hrow hcol 4 2 (by decide)) wk
      (Or.inr (Or.inr (Or.inr ⟨by decide, rfl⟩))) (inb hrow hcol 3 2 (by decide)) wfree
  rw [hrow] at hrow1
  rw [hcol] at hcol1
  have wk1 : board t1 3 2 = .kWhiteKing := by
    rw [hb1 3 2 (inb hrow hcol 3 2 (by decide))]; simp [kingOf]
  have wfree1 : board t1 4 2 = .kEmpty := by
    rw [hb1 4 2 (inb hrow hcol 4 2 (by decide))]; simp
  have bk1 : board t1 0 2 = .kBlackKing := by
    rw [hb1 0 2 (inb hrow hcol 0 2 (by decide))]; simp [bk]
  have bfree1 : board t1 1 2 = .kEmpty := by
    rw [hb1 1 2 (inb hrow hcol 1 2 (by decide))]; simp [bfree]
  -- 2. Black King (0,2) -> (1,2)
  obtain ⟨t2, hr2, turn2, hrow2, hcol2, hb2⟩ :=
    king_step hr1 (by omega) 1 (Or.inr rfl) turn1 0 2 1 2 (inb hrow1 hcol1 0 2 (by decide)) bk1
      (Or.inr (Or.inr (Or.inl ⟨by decide, rfl⟩))) (inb hrow1 hcol1 1 2 (by decide)) bfree1
  rw [hrow1] at hrow2
  rw [hcol1] at hcol2
  have wk2 : board t2 3 2 = .kWhiteKing := by
    rw [hb2 3 2 (inb hrow1 hcol1 3 2 (by decide))]; simp [wk1]
  have wfree2 : board t2 4 2 = .kEmpty := by
    rw [hb2 4 2 (inb hrow1 hcol1 4 2 (by decide))]; simp [wfree1]
  have bk2 : board t2 1 2 = .kBlackKing := by
    rw [hb2 1 2 (inb hrow1 hcol1 1 2 (by decide))]; simp [kingOf]
  have bfree2 : board t2 0 2 = .kEmpty := by
    rw [hb2 0 2 (inb hrow1 hcol1 0 2 (by decide))]; simp
  -- 3. White King (3,2) -> (4,2)
  obtain ⟨t3, hr3, turn3, hrow3, hcol3, hb3⟩ :=
    king_step hr2 (by omega) 0 (Or.inl rfl) turn2 3 2 4 2 (inb hrow2 hcol2 3 2 (by decide)) wk2
      (Or.inr (Or.inr (Or.inl ⟨by decide, rfl⟩))) (inb hrow2 hcol2 4 2 (by decide)) wfree2
  rw [hrow2] at hrow3
  rw [hcol2] at hcol3
  have wk3 : board t3 4 2 = .kWhiteKing := by
    rw [hb3 4 2 (inb hrow2 hcol2 4 2 (by decide))]; simp [kingOf]
  have wfree3 : board t3 3 2 = .kEmpty := by
    rw [hb3 3 2 (inb hrow2 hcol2 3 2 (by decide))]; simp
  have bk3 : board t3 1 2 = .kBlackKing := by
    rw [hb3 1 2 (inb hrow2 hcol2 1 2 (by decide))]; simp [bk2]
  have bfree3 : board t3 0 2 = .kEmpty := by
    rw [hb3 0 2 (inb hrow2 hcol2 0 2 (by decide))]; simp [bfree2]
  -- 4. Black King (1,2) -> (0,2)
  obtain ⟨t4, hr4, turn4, hrow4, hcol4, hb4⟩ :=
    king_step hr3 (by omega) 1 (Or.inr rfl) turn3 1 2 0 2 (inb hrow3 hcol3 1 2 (by decide)) bk3
      (Or.inr (Or.inr (Or.inr ⟨by decide, rfl⟩))) (inb hrow3 hcol3 0 2 (by decide)) bfree3
  rw [hrow3] at hrow4
  rw [hcol3] at hcol4
  refine ⟨t4, hr4, turn4, hrow4, hcol4, ?_, ?_, ?_, ?_⟩
  · rw [hb4 4 2 (inb hrow3 hcol3 4 2 (by decide))]; simp [wk3]
  · rw [hb4 3 2 (inb hrow3 hcol3 3 2 (by decide))]; simp [wfree3]
  · rw [hb4 0 2 (inb hrow3 hcol3 0 2 (by decide))]; simp [kingOf]
  · rw [hb4 1 2 (inb hrow3 hcol3 1 2 (by decide))]; simp

/-- A sequence of `4 * j` legal King-shuffle moves exists for every `j ≤ 250`. -/
theorem shuffle_exists (j : Nat) (hj : j ≤ 250) :
    ∃ s, ReachedIn (4 * j) s ∧ ShufflePos s := by
  induction j with
  | zero => exact ⟨NewInitialState, ReachedIn.init, shufflePos_init⟩
  | succ j ih =>
    obtain ⟨s, hr, hs⟩ := ih (by omega)
    obtain ⟨t, ht, hp⟩ := shuffle_cycle hr (by omega) hs
    exact ⟨t, ht, hp⟩

theorem move_cap_witness :
    (IsTerminal (play (play NewInitialState 5103) 513) = false ∧
      (play (play NewInitialState 5103) 513).total_moves_ = 2) ∧
    ∃ s, ReachedIn 1000 s ∧ IsTerminal s = true ∧ s.winner_ = 1 ∧ Returns s = [-1, 1] := by
  constructor
  · have h1 : ReachedIn 1 (play NewInitialState 5103) :=
      ReachedIn.step (l := [4644, 4869, 5103, 5337, 5562]) (a := 5103) ReachedIn.init
        (by rfl) (by decide) (by decide) (by rfl)
    have h2 : ReachedIn 2 (play (play NewInitialState 5103) 513) :=
      ReachedIn.step (l := [54, 279, 513, 747, 972]) (a := 513) h1
        (by rfl) (by decide) (by decide) (by rfl)
    have h := move_cap 2 _ h2
    exact ⟨(h.2.2.2.1 (by decide)).1, h.2.1⟩
  · obtain ⟨s, hs, _⟩ := shuffle_exists 250 (le_refl _)
    exact ⟨s, hs, (move_cap 1000 s hs).2.2.2.2 rfl⟩

/-! ## The deserializer loop -/

theorem deserializeCell_eq (st : BattleChessState) (r c : Int) (ch : Char) :
    deserializeCell st r c ch = (cellOfChar ch).map (placeCell st r c) := by
  unfold deserializeCell cellOfChar
  split_ifs <;>
    simp [placeCell, AddPiece, SetBoard, whiteEntry, blackEntry, StateToColor]

theorem foldlM_nested {α β γ : Type} (rs : List α) (cs : List β)
    (step : α → β → γ → Option γ) (acc : γ) :
    rs.foldlM (fun a r => cs.foldlM (fun a2 c => step r c a2) a) acc =
      (rs.flatMap fun r => cs.map fun c => (r, c)).foldlM
        (fun a rc => step rc.1 rc.2 a) acc := by
  induction rs generalizing acc with
  | nil => rfl
  | cons r rs ih =>
    rw [List.flatMap_cons, List.foldlM_append, List.foldlM_cons, List.foldlM_map]
    congr 1
    funext a
    exact ih a

theorem foldlM_counter (str : List Char) (rcs : List (Nat × Nat)) (st : BattleChessState)
    (i : Nat) :
    rcs.foldlM (fun (acc : BattleChessState × Nat) rc => deserializeStep str rc.1 rc.2 acc)
      (st, i) =
      (readCells rcs (str.drop i) st).map fun st' => (st', i + rcs.length) := by
  induction rcs generalizing st i with
  | nil => simp [readCells]
  | cons rc rcs ih =>
    rw [List.foldlM_cons]
    cases hi : str[i]? with
    | none =>
      have hstep : deserializeStep str rc.1 rc.2 (st, i) = none := by
        simp only [deserializeStep, hi]
      have : str.drop i = [] := by
        rw [List.drop_eq_nil_iff]
        exact List.getElem?_eq_none_iff.1 hi
      rw [hstep, this]
      simp [readCells]
    | some ch =>
      have hstep : deserializeStep str rc.1 rc.2 (st, i) =
          (deserializeCell st (rc.1 : Int) (rc.2 : Int) ch).map fun st' => (st', i + 1) := by
        simp only [deserializeStep, hi]
      have hlt : i < str.length := by
        by_contra hge
        rw [List.getElem?_eq_none (by omega)] at hi
        exact Option.noConfusion hi
      have hd : str.drop i = ch :: str.drop (i + 1) := by
        rw [List.drop_eq_getElem_cons hlt]
        congr 1
        rw [List.getElem?_eq_getElem hlt] at hi
        exact Option.some.inj hi
      rw [hstep, hd]
      simp only [readCells]
      cases hcell : deserializeCell st (rc.1 : Int) (rc.2 : Int) ch with
      | none => simp
      | some st1 =>
        simp only [Option.map_some', Option.some_bind, Option.bind_eq_bind]
        rw [ih st1 (i + 1)]
        simp [Nat.add_assoc, Nat.add_comm 1]

theorem readCells_eq (rcs : List (Nat × Nat)) (chars : List Char) (st : BattleChessState)
    (hlen : chars.length = rcs.length) :
    readCells rcs chars st = (cellsOfString chars).map fun vs => placeAll rcs vs st := by
  induction rcs generalizing chars st with
  | nil =>
    have : chars = [] := List.length_eq_zero.1 hlen
    subst this
    rfl
  | cons rc rcs ih =>
    cases chars with
    | nil => simp at hlen
    | cons ch rest =>
      have hlen' : rest.length = rcs.length := by simpa using hlen
      simp only [readCells, cellsOfString, deserializeCell_eq]
      cases hv : cellOfChar ch with
      | none => simp
      | some v =>
        simp only [Option.map_some', Option.some_bind, Option.bind_eq_bind]
        rw [ih rest _ hlen']
        cases hvs : cellsOfString rest with
        | none => simp
        | some vs => simp [placeAll]

/-- `DeserializeState` in closed form: it fails on a string whose length is not 25 or that
holds a character outside `. k d a K D A`, and otherwise returns the state built from the
cell values of the string. -/
theorem deserialize_eq (str : List Char) :
    DeserializeState str =
      if str.length = 25 then (cellsOfString str).map stateOfCells else none := by
  unfold DeserializeState
  by_cases hlen : str.length = 25
  · have h1 : ¬ ((str.length : Int) ≠ kDefaultRows * kDefaultColumns) := by
      simp [hlen, kDefaultRows, kDefaultColumns]
    have h5r : kDefaultRows.toNat = 5 := by decide
    have h5c : kDefaultColumns.toNat = 5 := by decide
    rw [if_neg h1, if_pos hlen]
    simp only [h5r, h5c]
    rw [foldlM_nested (List.range 5) (List.range 5) (deserializeStep str)]
    have := foldlM_counter str cellCoords (InitPieces (InitPieces NewInitialState 0) 1) 0
    rw [List.drop_zero] at this
    unfold cellCoords at this
    rw [this, readCells_eq _ _ _ (by rw [hlen]; decide)]
    cases cellsOfString str <;> simp [stateOfCells, cellCoords]
  · have h1 : (str.length : Int) ≠ kDefaultRows * kDefaultColumns := by
      simp only [kDefaultRows, kDefaultColumns]
      omega
    simp only [h1, hlen, if_true, if_false, ne_eq, not_false_eq_true]

theorem cellOfChar_toString (v : CellState) :
    ∃ ch, CellToString v = [ch] ∧ cellOfChar ch = some v := by
  cases v <;> exact ⟨_, rfl, by decide⟩

theorem toString_of_cellOfChar {ch : Char} {v : CellState} (h : cellOfChar ch = some v) :
    CellToString v = [ch] := by
  unfold cellOfChar at h
  split_ifs at h with h1 h2 h3 h4 h5 h6 h7 <;> injection h with h <;> subst h <;>
    simp [CellToString, *]

theorem cellOfChar_none_iff (ch : Char) :
    cellOfChar ch = none ↔ ch ∉ ['.', 'k', 'd', 'a', 'K', 'D', 'A'] := by
  unfold cellOfChar
  split_ifs <;> simp [*]

theorem cellsOfString_some {str : List Char} {cells : List CellState}
    (h : cellsOfString str = some cells) :
    cells.length = str.length ∧ cells.flatMap CellToString = str := by
  induction str generalizing cells with
  | nil =>
    simp [cellsOfString] at h
    subst h
    exact ⟨rfl, rfl⟩
  | cons ch rest ih =>
    simp only [cellsOfString] at h
    cases hv : cellOfChar ch with
    | none => simp [hv] at h
    | some v =>
      cases hvs : cellsOfString rest with
      | none => simp [hv, hvs] at h
      | some vs =>
        simp [hv, hvs] at h
        subst h
        obtain ⟨h1, h2⟩ := ih hvs
        exact ⟨by simp [h1], by simp [List.flatMap_cons, toString_of_cellOfChar hv, h2]⟩

theorem cellsOfString_flatMap (cells : List CellState) :
    cellsOfString (cells.flatMap CellToString) = some cells := by
  induction cells with
  | nil => rfl
  | cons v vs ih =>
    obtain ⟨ch, h1, h2⟩ := cellOfChar_toString v
    simp [List.flatMap_cons, h1, cellsOfString, h2, ih]

theorem cellsOfString_none_iff (str : List Char) :
    cellsOfString str = none ↔ ∃ ch ∈ str, cellOfChar ch = none := by
  induction str with
  | nil => simp [cellsOfString]
  | cons ch rest ih =>
    simp only [cellsOfString, List.mem_cons, exists_eq_or_imp]
    cases hv : cellOfChar ch with
    | none => simp
    | some v =>
      cases hvs : cellsOfString rest with
      | none =>
        rw [hvs] at ih
        simpa using ih.1 rfl
      | some vs =>
        rw [hvs] at ih
        simp only [false_or]
        constructor
        · intro h; exact Option.noConfusion h
        · rintro (h | h)
          · exact Option.noConfusion h
          · exact absurd (ih.2 h) (by simp)


/-! ## The state built by the deserializer -/

theorem placeAll_fields (rcs : List (Nat × Nat)) (vs : List CellState)
    (st : BattleChessState) :
    (placeAll rcs vs st).cur_player_ = st.cur_player_ ∧
    (placeAll rcs vs st).winner_ = st.winner_ ∧
    (placeAll rcs vs st).total_moves_ = st.total_moves_ ∧
    (placeAll rcs vs st).rows_ = st.rows_ ∧ (placeAll rcs vs st).cols_ = st.cols_ ∧
    (placeAll rcs vs st).history_ = st.history_ := by
  induction rcs generalizing vs st with
  | nil => exact ⟨rfl, rfl, rfl, rfl, rfl, rfl⟩
  | cons rc rcs ih =>
    cases vs with
    | nil => exact ⟨rfl, rfl, rfl, rfl, rfl, rfl⟩
    | cons v vs => exact ih vs (placeCell st rc.1 rc.2 v)

theorem placeAll_white (rcs : List (Nat × Nat)) (vs : List CellState)
    (st : BattleChessState) :
    (placeAll rcs vs st).whitePieces = st.whitePieces ++
      (rcs.zip vs).flatMap fun x => whiteEntry (x.1.1 : Int) (x.1.2 : Int) x.2 := by
  induction rcs generalizing vs st with
  | nil => simp [placeAll]
  | cons rc rcs ih =>
    cases vs with
    | nil => simp [placeAll]
    | cons v vs =>
      rw [placeAll, ih]
      simp [placeCell, List.append_assoc]

theorem placeAll_black (rcs : List (Nat × Nat)) (vs : List CellState)
    (st : BattleChessState) :
    (placeAll rcs vs st).blackPieces = st.blackPieces ++
      (rcs.zip vs).flatMap fun x => blackEntry (x.1.1 : Int) (x.1.2 : Int) x.2 := by
  induction rcs generalizing vs st with
  | nil => simp [placeAll]
  | cons rc rcs ih =>
    cases vs with
    | nil => simp [placeAll]
    | cons v vs =>
      rw [placeAll, ih]
      simp [placeCell, List.append_assoc]

theorem placeAll_board (rcs : List (Nat × Nat)) (vs : List CellState)
    (st : BattleChessState) :
    (placeAll rcs vs st).board_ =
      ((rcs.map fun rc => (((rc.1 : Int) * st.cols_ + (rc.2 : Int)).toNat)).zip vs).foldl
        (fun b x => b.set x.1 x.2) st.board_ := by
  induction rcs generalizing vs st with
  | nil => simp [placeAll]
  | cons rc rcs ih =>
    cases vs with
    | nil => simp [placeAll]
    | cons v vs =>
      rw [placeAll, ih]
      simp [placeCell]

theorem foldl_set_range {α : Type} (vs b : List α) (k : Nat) (h : k + vs.length = b.length) :
    ((List.range' k vs.length).zip vs).foldl (fun b x => b.set x.1 x.2) b =
      b.take k ++ vs := by
  induction vs generalizing k b with
  | nil =>
    simp at h
    simp [h]
  | cons v vs ih =>
    simp only [List.length_cons] at h ⊢
    rw [List.range'_succ, List.zip_cons_cons, List.foldl_cons]
    rw [ih (b.set k v) (k + 1) (by simp; omega)]
    have hk : k < b.length := by omega
    have htk : List.take k (b.set k v) = List.take k b := by
      rw [List.set_take, List.set_eq_of_length_le]
      simp
    rw [List.take_succ, htk]
    simp [List.getElem?_set, hk]

theorem stateOfCells_fields (cells : List CellState) :
    (stateOfCells cells).cur_player_ = 0 ∧ (stateOfCells cells).winner_ = kInvalidPlayer ∧
    (stateOfCells cells).total_moves_ = 0 ∧ (stateOfCells cells).rows_ = 5 ∧
    (stateOfCells cells).cols_ = 5 ∧ (stateOfCells cells).history_ = [] :=
  placeAll_fields cellCoords cells _

theorem stateOfCells_board (cells : List CellState) (hlen : cells.length = 25) :
    (stateOfCells cells).board_ = cells := by
  have hidx : (cellCoords.map fun rc =>
      (((rc.1 : Int) * (InitPieces (InitPieces NewInitialState 0) 1).cols_ +
        (rc.2 : Int)).toNat)) = List.range' 0 cells.length := by
    rw [hlen]; decide
  rw [stateOfCells, placeAll_board, hidx, foldl_set_range cells _ 0 (by rw [hlen]; rfl)]
  simp

theorem zip_cellCoords (cells : List CellState) (hlen : cells.length = 25) :
    cellCoords.zip cells = cells.enum.map fun jv => ((jv.1 / 5, jv.1 % 5), jv.2) := by
  have hc : cellCoords = (List.range cells.length).map (fun j => (j / 5, j % 5)) := by
    rw [hlen]; decide
  rw [hc, List.zip_map_left, List.enum_eq_zip_range]
  rfl

theorem mem_entries (cells : List CellState) (hlen : cells.length = 25) (k : Int)
    (entry : Int → Int → CellState → List Piece)
    (hentry : ∀ r c v p, p ∈ entry r c v ↔ StateToColor v = k ∧ p = ⟨r, c, v⟩) (p : Piece) :
    (p ∈ (cellCoords.zip cells).flatMap fun x => entry (x.1.1 : Int) (x.1.2 : Int) x.2) ↔
      (0 ≤ p.row ∧ p.row < 5 ∧ 0 ≤ p.col ∧ p.col < 5) ∧
      cells.getD (p.row * 5 + p.col).toNat .kEmpty = p.pieceType ∧
      StateToColor p.pieceType = k := by
  rw [zip_cellCoords cells hlen]
  simp only [List.mem_flatMap, List.mem_map, hentry]
  constructor
  · rintro ⟨x, ⟨⟨j, v⟩, hjv, rfl⟩, hcol, rfl⟩
    rw [List.mk_mem_enum_iff_getElem?] at hjv
    have hj : j < cells.length := by
      by_contra hge
      rw [List.getElem?_eq_none (by omega)] at hjv
      exact Option.noConfusion hjv
    rw [hlen] at hj
    refine ⟨by simp only; omega, ?_, hcol⟩
    have hidx : (((j / 5 : Nat) : Int) * 5 + ((j % 5 : Nat) : Int)).toNat = j := by omega
    simp only [hidx, List.getD_eq_getElem?_getD, hjv, Option.getD_some]
  · rintro ⟨⟨h1, h2, h3, h4⟩, hget, hcol⟩
    have hj : (p.row * 5 + p.col).toNat < cells.length := by rw [hlen]; omega
    refine ⟨_, ⟨((p.row * 5 + p.col).toNat, p.pieceType), ?_, rfl⟩, hcol, ?_⟩
    · rw [List.mk_mem_enum_iff_getElem?]
      rw [List.getD_eq_getElem?_getD, List.getElem?_eq_getElem hj] at hget
      rw [List.getElem?_eq_getElem hj]
      exact congrArg some hget
    · cases p with
      | mk row col ty =>
        simp only at h1 h2 h3 h4 ⊢
        congr 1 <;> omega

theorem mem_whiteEntry (r c : Int) (v : CellState) (p : Piece) :
    p ∈ whiteEntry r c v ↔ StateToColor v = 0 ∧ p = ⟨r, c, v⟩ := by
  unfold whiteEntry
  split_ifs with h <;> simp [h]

theorem mem_blackEntry (r c : Int) (v : CellState) (p : Piece) :
    p ∈ blackEntry r c v ↔ StateToColor v = 1 ∧ p = ⟨r, c, v⟩ := by
  unfold blackEntry
  split_ifs with h <;> simp [h]

/-- The registry of the state built from 25 cell values: the white (black) list holds
exactly the entries `(r, c, v)` with `(r, c)` on the board, `v` the cell value at `(r, c)`
and `v` white (black). -/
theorem stateOfCells_registry (cells : List CellState) (hlen : cells.length = 25)
    (p : Piece) :
    (p ∈ (stateOfCells cells).whitePieces ↔
      InBounds (stateOfCells cells) p.row p.col = true ∧
      board (stateOfCells cells) p.row p.col = p.pieceType ∧
      StateToColor p.pieceType = 0) ∧
    (p ∈ (stateOfCells cells).blackPieces ↔
      InBounds (stateOfCells cells) p.row p.col = true ∧
      board (stateOfCells cells) p.row p.col = p.pieceType ∧
      StateToColor p.pieceType = 1) := by
  obtain ⟨_, _, _, hr, hc, _⟩ := stateOfCells_fields cells
  have hb := stateOfCells_board cells hlen
  have hboard : board (stateOfCells cells) p.row p.col =
      cells.getD (p.row * 5 + p.col).toNat .kEmpty := by
    simp only [board, hb, hc]
  rw [inBounds_iff, hr, hc, hboard]
  constructor
  · rw [stateOfCells, placeAll_white]
    have h0 : (InitPieces (InitPieces NewInitialState 0) 1).whitePieces = [] := rfl
    rw [h0, List.nil_append]
    exact mem_entries cells hlen 0 whiteEntry mem_whiteEntry p
  · rw [stateOfCells, placeAll_black]
    have h0 : (InitPieces (InitPieces NewInitialState 0) 1).blackPieces = [] := rfl
    rw [h0, List.nil_append]
    exact mem_entries cells hlen 1 blackEntry mem_blackEntry p

/-! ## Serialization -/

theorem cellToString_length (v : CellState) : (CellToString v).length = 1 := by
  cases v <;> rfl

theorem serialize_length (s : BattleChessState) :
    (Serialize s).length = s.rows_.toNat * s.cols_.toNat := by
  have hin : ∀ r : Nat, ((List.range s.cols_.toNat).flatMap fun c =>
      CellToString (board s (r : Int) (c : Int))).length = s.cols_.toNat := by
    intro r
    simp [List.length_flatMap, Function.comp_def, cellToString_length]
  simp [Serialize, List.length_flatMap, Function.comp_def, hin]

theorem serialize_eq_coords (s : BattleChessState) (hr : s.rows_ = 5) (hc : s.cols_ = 5) :
    Serialize s = (cellCoords.map fun rc => board s (rc.1 : Int) (rc.2 : Int)).flatMap
      CellToString := by
  have h5 : (5 : Int).toNat = 5 := rfl
  simp only [Serialize, hr, hc, h5, cellCoords, List.flatMap_map, List.flatMap_assoc,
    List.map_flatMap]

theorem coords_board (s : BattleChessState) (hc : s.cols_ = 5) (hl : s.board_.length = 25) :
    (cellCoords.map fun rc => board s (rc.1 : Int) (rc.2 : Int)) = s.board_ := by
  have hcc : cellCoords = (List.range s.board_.length).map (fun j => (j / 5, j % 5)) := by
    rw [hl]; decide
  rw [hcc, List.map_map]
  apply List.ext_getElem
  · simp
  · intro j h1 h2
    have hidx : ((j : Int) / 5 * 5 + (j : Int) % 5).toNat = j := by omega
    simp [board, hc, hidx, List.getD_eq_getElem?_getD, h2]

/-- On a 5x5 state `Serialize` writes the cells of the board store in order. -/
theorem serialize_eq_board (s : BattleChessState) (hr : s.rows_ = 5) (hc : s.cols_ = 5)
    (hl : s.board_.length = 25) : Serialize s = s.board_.flatMap CellToString := by
  rw [serialize_eq_coords s hr hc, coords_board s hc hl]

theorem consistent_registry_iff {s : BattleChessState} (h : Consistent s) (p : Piece) :
    (p ∈ s.whitePieces ↔
      InBounds s p.row p.col = true ∧ board s p.row p.col = p.pieceType ∧
      StateToColor p.pieceType = 0) ∧
    (p ∈ s.blackPieces ↔
      InBounds s p.row p.col = true ∧ board s p.row p.col = p.pieceType ∧
      StateToColor p.pieceType = 1) := by
  have key : ∀ k : Int, (k = 0 ∨ k = 1) → InBounds s p.row p.col = true →
      board s p.row p.col = p.pieceType → StateToColor p.pieceType = k →
      ∃ q ∈ registry s, q = p := by
    intro k hk hin hb hcol
    obtain ⟨q, hq, hr, hc⟩ := h.covered p.row p.col hin
      (by rw [hb]; exact not_empty_of_color hk hcol)
    refine ⟨q, hq, ?_⟩
    have hty : board s q.row q.col = q.pieceType := by
      rcases List.mem_append.mp hq with hw | hbl
      · exact (h.white_ok q hw).2.1
      · exact (h.black_ok q hbl).2.1
    rw [hr, hc, hb] at hty
    cases q; cases p
    simp only [Piece.mk.injEq]
    exact ⟨hr, hc, hty.symm⟩
  constructor
  · refine ⟨h.white_ok p, ?_⟩
    rintro ⟨hin, hb, hcol⟩
    obtain ⟨q, hq, rfl⟩ := key 0 (Or.inl rfl) hin hb hcol
    rcases List.mem_append.mp hq with hw | hbl
    · exact hw
    · have := (h.black_ok q hbl).2.2
      omega
  · refine ⟨h.black_ok p, ?_⟩
    rintro ⟨hin, hb, hcol⟩
    obtain ⟨q, hq, rfl⟩ := key 1 (Or.inr rfl) hin hb hcol
    rcases List.mem_append.mp hq with hw | hbl
    · have := (h.white_ok q hw).2.2
      omega
    · exact hbl

/-- The deserializer applied to the serialization of a 5x5 state with a 25-cell board
store returns the state built from that board store. -/
theorem deserialize_serialize (s : BattleChessState) (hr : s.rows_ = 5) (hc : s.cols_ = 5)
    (hl : s.board_.length = 25) :
    DeserializeState (Serialize s) = some (stateOfCells s.board_) := by
  have hlen : (Serialize s).length = 25 := by
    rw [serialize_length, hr, hc]; rfl
  rw [deserialize_eq, if_pos hlen, serialize_eq_board s hr hc hl, cellsOfString_flatMap]
  rfl

/-- C13. For every state `s` satisfying the board/registry consistency invariant,
`DeserializeState (Serialize s)` succeeds, and the state it returns has the same board
store as `s` (equal as lists, hence cell for cell) and white and black piece lists with
exactly the entries `(row, col, type)` of the lists of `s`, in whatever order. -/
theorem deserialize_serialize_roundtrip (s : BattleChessState) (h : Consistent s) :
    ∃ t, DeserializeState (Serialize s) = some t ∧
      t.board_ = s.board_ ∧
      (∀ r c, board t r c = board s r c) ∧
      sameEntries t.whitePieces s.whitePieces ∧
      sameEntries t.blackPieces s.blackPieces := by
  refine ⟨_, deserialize_serialize s h.rows_eq h.cols_eq h.board_len, ?_⟩
  have hb := stateOfCells_board s.board_ h.board_len
  obtain ⟨-, -, -, hrw, hcl, -⟩ := stateOfCells_fields s.board_
  have hbd : ∀ r c, board (stateOfCells s.board_) r c = board s r c := by
    intro r c
    simp only [board, hb, hcl, h.cols_eq]
  have hin : ∀ r c, InBounds (stateOfCells s.board_) r c = InBounds s r c := by
    intro r c
    simp only [InBounds, hrw, hcl, h.rows_eq, h.cols_eq]
  refine ⟨hb, hbd, ?_, ?_⟩
  · intro p
    rw [(stateOfCells_registry s.board_ h.board_len p).1, (consistent_registry_iff h p).1,
      hbd, hin]
  · intro p
    rw [(stateOfCells_registry s.board_ h.board_len p).2, (consistent_registry_iff h p).2,
      hbd, hin]

theorem deserialize_serialize_roundtrip_witness :
    Consistent whiteKingAttacked ∧
    ∃ t, DeserializeState (Serialize whiteKingAttacked) = some t ∧
      t.board_ = whiteKingAttacked.board_ ∧
      (∀ r c, board t r c = board whiteKingAttacked r c) ∧
      sameEntries t.whitePieces whiteKingAttacked.whitePieces ∧
      sameEntries t.blackPieces whiteKingAttacked.blackPieces :=
  ⟨reachable_consistent reachable_whiteKingAttacked,
    deserialize_serialize_roundtrip whiteKingAttacked
      (reachable_consistent reachable_whiteKingAttacked)⟩

theorem flatMap_range_index {α : Type} (f : Nat → Nat → α) (R C r c : Nat)
    (hr : r < R) (hc : c < C) :
    ((List.range R).flatMap fun i => (List.range C).map (f i))[r * C + c]? =
      some (f r c) := by
  have hlen : ∀ n, ((List.range n).flatMap fun i => (List.range C).map (f i)).length =
      n * C := by
    intro n
    simp [List.length_flatMap, Function.comp_def]
  induction R with
  | zero => omega
  | succ n ih =>
    rw [List.range_succ, List.flatMap_append]
    by_cases hrn : r < n
    · have hlt : r * C + c < n * C := by
        calc r * C + c < r * C + C := by omega
          _ = (r + 1) * C := by ring
          _ ≤ n * C := Nat.mul_le_mul_right C hrn
      rw [List.getElem?_append_left (by rw [hlen]; exact hlt)]
      exact ih hrn
    · have hrn2 : r = n := by omega
      subst hrn2
      rw [List.getElem?_append_right (by rw [hlen]; omega), hlen]
      simp [hc]

/-- The character of a cell. -/
theorem cellToString_singleton (v : CellState) : ∃ ch, CellToString v = [ch] := by
  cases v <;> exact ⟨_, rfl⟩

theorem flatMap_cellToString {α : Type} (l : List α) (g : α → CellState) :
    (l.flatMap fun x => CellToString (g x)) =
      l.map fun x => ((CellToString (g x)).head?).getD '.' := by
  induction l with
  | nil => rfl
  | cons x xs ih =>
    obtain ⟨ch, h⟩ := cellToString_singleton (g x)
    rw [List.flatMap_cons, List.map_cons, ih, h]
    rfl

theorem serialize_index (s : BattleChessState) (r c : Nat)
    (hr : (r : Int) < s.rows_) (hc : (c : Int) < s.cols_) :
    (Serialize s)[r * s.cols_.toNat + c]? = (CellToString (board s r c)).head? := by
  have hform : Serialize s = (List.range s.rows_.toNat).flatMap fun (i : Nat) =>
      (List.range s.cols_.toNat).map
        fun (j : Nat) => ((CellToString (board s (i : Int) (j : Int))).head?).getD '.' := by
    unfold Serialize
    congr 1
    funext i
    exact flatMap_cellToString _ _
  rw [hform, flatMap_range_index _ _ _ r c (by omega) (by omega)]
  obtain ⟨ch, h⟩ := cellToString_singleton (board s (r : Int) (c : Int))
  rw [h]; rfl

/-- On a string of 25 cell characters the deserializer returns the state built from the
cells they denote. -/
theorem deserialize_valid (str : List Char) (hlen : str.length = 25)
    (hch : ∀ ch ∈ str, ch ∈ ['.', 'k', 'd', 'a', 'K', 'D', 'A']) :
    ∃ cells, cells.length = 25 ∧ cells.flatMap CellToString = str ∧
      DeserializeState str = some (stateOfCells cells) := by
  cases hc : cellsOfString str with
  | none =>
    obtain ⟨ch, hmem, hnone⟩ := (cellsOfString_none_iff str).mp hc
    exact absurd (hch ch hmem) ((cellOfChar_none_iff ch).mp hnone)
  | some cells =>
    obtain ⟨h1, h2⟩ := cellsOfString_some hc
    refine ⟨cells, by rw [h1, hlen], h2, ?_⟩
    rw [deserialize_eq, if_pos hlen, hc]
    rfl

/-- C14. For every string `str` of length `rows * cols` (25) whose characters all lie in
`{., k, d, a, K, D, A}`, `DeserializeState str` returns a state whose serialization is
`str`.  For every state, `Serialize` has length `rows * cols`, and its character at index
`r * cols + c` is the character of the cell `(r, c)` (one character per cell, row-major). -/
theorem serialize_deserialize_roundtrip :
    (∀ str : List Char, (str.length : Int) = kDefaultRows * kDefaultColumns →
      (∀ ch ∈ str, ch ∈ ['.', 'k', 'd', 'a', 'K', 'D', 'A']) →
      ∃ t, DeserializeState str = some t ∧ Serialize t = str) ∧
    (∀ s : BattleChessState, 0 ≤ s.rows_ → 0 ≤ s.cols_ →
      ((Serialize s).length : Int) = s.rows_ * s.cols_) ∧
    (∀ (s : BattleChessState) (r c : Nat), (r : Int) < s.rows_ → (c : Int) < s.cols_ →
      (Serialize s)[r * s.cols_.toNat + c]? = (CellToString (board s r c)).head?) := by
  refine ⟨?_, ?_, serialize_index⟩
  · intro str hlen hch
    have hlen2 : str.length = 25 := by
      have h25 : kDefaultRows * kDefaultColumns = 25 := by decide
      rw [h25] at hlen
      exact_mod_cast hlen
    obtain ⟨cells, hcl, hstr, hd⟩ := deserialize_valid str hlen2 hch
    refine ⟨_, hd, ?_⟩
    obtain ⟨-, -, -, hrw, hcol, -⟩ := stateOfCells_fields cells
    have hb := stateOfCells_board cells hcl
    rw [serialize_eq_board _ hrw hcol (by rw [hb, hcl]), hb, hstr]
  · intro s hr hc
    rw [serialize_length]
    push_cast
    rw [Int.toNat_of_nonneg hr, Int.toNat_of_nonneg hc]

theorem serialize_deserialize_roundtrip_witness :
    (("kdada.....D...d.....AKADA".toList.length : Int) = kDefaultRows * kDefaultColumns) ∧
    (∀ ch ∈ "kdada.....D...d.....AKADA".toList, ch ∈ ['.', 'k', 'd', 'a', 'K', 'D', 'A']) ∧
    (∃ t, DeserializeState "kdada.....D...d.....AKADA".toList = some t ∧
      Serialize t = "kdada.....D...d.....AKADA".toList) ∧
    ((Serialize whiteKingAttacked).length : Int) =
      whiteKingAttacked.rows_ * whiteKingAttacked.cols_ ∧
    (Serialize whiteKingAttacked)[2 * whiteKingAttacked.cols_.toNat + 2]? =
      (CellToString (board whiteKingAttacked 2 2)).head? :=
  ⟨by decide, by decide,
    serialize_deserialize_roundtrip.1 "kdada.....D...d.....AKADA".toList (by decide)
      (by decide),
    serialize_deserialize_roundtrip.2.1 whiteKingAttacked (by decide) (by decide),
    serialize_deserialize_roundtrip.2.2 whiteKingAttacked 2 2 (by decide) (by decide)⟩

/-- C15. `DeserializeState` fails (fatal error, `none`) if and only if the length of the
input string differs from `rows * cols` or the string contains a character outside
`{., k, d, a, K, D, A}`; on every other input it returns a state. -/
theorem deserialize_fails_iff (str : List Char) :
    (DeserializeState str = none ↔
      ((str.length : Int) ≠ kDefaultRows * kDefaultColumns ∨
        ∃ ch ∈ str, ch ∉ ['.', 'k', 'd', 'a', 'K', 'D', 'A'])) ∧
    (¬ ((str.length : Int) ≠ kDefaultRows * kDefaultColumns ∨
        ∃ ch ∈ str, ch ∉ ['.', 'k', 'd', 'a', 'K', 'D', 'A']) →
      ∃ t, DeserializeState str = some t) := by
  have h25 : kDefaultRows * kDefaultColumns = 25 := by decide
  have hiff : DeserializeState str = none ↔
      ((str.length : Int) ≠ kDefaultRows * kDefaultColumns ∨
        ∃ ch ∈ str, ch ∉ ['.', 'k', 'd', 'a', 'K', 'D', 'A']) := by
    rw [deserialize_eq, h25]
    by_cases hlen : str.length = 25
    · have hl : ¬ ((str.length : Int) ≠ 25) := by
        rw [hlen]; decide
      rw [if_pos hlen, Option.map_eq_none', cellsOfString_none_iff]
      constructor
      · rintro ⟨ch, hm, hn⟩
        exact Or.inr ⟨ch, hm, (cellOfChar_none_iff ch).mp hn⟩
      · rintro (h | ⟨ch, hm, hn⟩)
        · exact absurd h hl
        · exact ⟨ch, hm, (cellOfChar_none_iff ch).mpr hn⟩
    · rw [if_neg hlen]
      refine ⟨fun _ => Or.inl ?_, fun _ => rfl⟩
      intro h
      exact hlen (by exact_mod_cast h)
  refine ⟨hiff, fun hn => ?_⟩
  cases hd : DeserializeState str with
  | none => exact absurd (hiff.mp hd) hn
  | some t => exact ⟨t, rfl⟩

theorem deserialize_fails_iff_witness :
    DeserializeState "kdadx.....D...d.....AKADA".toList = none ∧
    DeserializeState "kdada".toList = none ∧
    ∃ t, DeserializeState "kdad......D...d.....AKADA".toList = some t :=
  ⟨(deserialize_fails_iff "kdadx.....D...d.....AKADA".toList).1.mpr
      (Or.inr ⟨'x', by decide, by decide⟩),
    (deserialize_fails_iff "kdada".toList).1.mpr (Or.inl (by decide)),
    (deserialize_fails_iff "kdad......D...d.....AKADA".toList).2 (by decide)⟩

/-! ## Outcome reporting -/

theorem deletePiece_winner {s s' : BattleChessState} {r c : Int} {v : CellState}
    (h : DeletePiece s r c v = some s') : s'.winner_ = s.winner_ := by
  unfold DeletePiece at h
  split_ifs at h <;> injection h with h <;> subst h <;> rfl

theorem applyTail_winner (s2 : BattleChessState) (r1 c1 r2 c2 : Int) :
    let s3 := AddPiece s2 r2 c2 (board s2 r1 c1)
    let s4 := SetBoard s3 r2 c2 (board s3 r1 c1)
    let s5 := SetBoard s4 r1 c1 .kEmpty
    let s6 : BattleChessState := { s5 with
      cur_player_ := NextPlayerRoundRobin s5.cur_player_ kNumPlayers
      total_moves_ := s5.total_moves_ + 1 }
    let t : BattleChessState := if s6.total_moves_ ≥ 1000 then { s6 with winner_ := 1 } else s6
    t.winner_ = if s2.total_moves_ + 1 ≥ 1000 then 1 else s2.winner_ := by
  obtain ⟨_, k2, _, _, _⟩ := addPiece_fields s2 r2 c2 (board s2 r1 c1)
  have kw : (AddPiece s2 r2 c2 (board s2 r1 c1)).winner_ = s2.winner_ := by
    unfold AddPiece
    split_ifs <;> rfl
  intro s3 s4 s5 s6 t
  have h6 : s6.total_moves_ = s2.total_moves_ + 1 := by
    simp only [s6, s5, s4, s3, SetBoard, k2]
  show (if s6.total_moves_ ≥ 1000 then _ else _ : BattleChessState).winner_ = _
  rw [h6]
  split_ifs
  · rfl
  · simp only [s6, s5, s4, s3, SetBoard, kw]

theorem captureWinner_fields (sa : BattleChessState) (r2 c2 : Int) :
    let sb : BattleChessState :=
      if board sa r2 c2 = .kBlackKing then { sa with winner_ := 0 } else sa
    let sc : BattleChessState :=
      if board sb r2 c2 = .kWhiteKing then { sb with winner_ := 1 } else sb
    sc.total_moves_ = sa.total_moves_ ∧
    sc.winner_ = (if board sa r2 c2 = .kWhiteKing then 1
      else if board sa r2 c2 = .kBlackKing then 0 else sa.winner_) := by
  intro sb sc
  have hb0 : board ({ sa with winner_ := 0 } : BattleChessState) r2 c2 = board sa r2 c2 :=
    rfl
  by_cases hbk : board sa r2 c2 = .kBlackKing
  · have hsb : sb = { sa with winner_ := 0 } := if_pos hbk
    have hsc : sc = sb := if_neg (by rw [hsb, hb0, hbk]; decide)
    have hwk : board sa r2 c2 ≠ .kWhiteKing := by rw [hbk]; decide
    rw [hsc, hsb, if_neg hwk, if_pos hbk]
    exact ⟨rfl, rfl⟩
  · have hsb : sb = sa := if_neg hbk
    by_cases hwk : board sa r2 c2 = .kWhiteKing
    · have hsc : sc = { sb with winner_ := 1 } := if_pos (by rw [hsb]; exact hwk)
      rw [hsc, hsb, if_pos hwk]
      exact ⟨rfl, rfl⟩
    · have hsc : sc = sb := if_neg (by rw [hsb]; exact hwk)
      rw [hsc, hsb, if_neg hwk, if_neg hbk]
      exact ⟨rfl, rfl⟩

/-- The winner field after `DoApplyAction`: 1 once the move count reaches the cap;
otherwise the mover's side when a King is captured, and the old value when not. -/
theorem doApply_winner {s t : BattleChessState} {a : Int}
    (h : DoApplyAction s a = some t) :
    ∃ r1 c1 r2 c2,
      UnrankActionMixedBase a [s.rows_, s.cols_, s.rows_, s.cols_, 9] =
        [r1, c1, r2, c2, a.tmod 9] ∧
      t.winner_ =
        if s.total_moves_ + 1 ≥ 1000 then 1
        else if a.tmod 9 > 0 then
          (if board s r2 c2 = .kWhiteKing then 1
           else if board s r2 c2 = .kBlackKing then 0 else s.winner_)
        else s.winner_ := by
  obtain ⟨r1, c1, r2, c2, hun⟩ := unrank_shape a s.rows_ s.cols_ s.rows_ s.cols_ 9
  refine ⟨r1, c1, r2, c2, hun, ?_⟩
  unfold DoApplyAction at h
  rw [hun] at h
  simp only at h
  by_cases h1 : InBounds s r1 c1 = true
  swap
  · simp [h1] at h
  by_cases h2 : InBounds s r2 c2 = true
  swap
  · simp [h1, h2] at h
  simp only [h1, h2, Bool.not_true, Bool.false_eq_true, if_false, Option.pure_def,
    Option.bind_eq_bind] at h
  by_cases hc : a.tmod 9 > 0
  · by_cases hk : 1 - StateToColor (board s r2 c2) ≠ StateToColor (board s r1 c1)
    · simp [hc, hk] at h
    · simp only [hc, hk, if_true, if_false, Option.bind_eq_some] at h
      obtain ⟨sa, hsa, s1, hsc, s2, hs2, ht⟩ := h
      obtain ⟨_, f2, _, f4, f5⟩ := deletePiece_fields hsa
      have fw := deletePiece_winner hsa
      obtain ⟨_, g2, _, _, _⟩ := deletePiece_fields hs2
      have gw := deletePiece_winner hs2
      have hb : board sa r2 c2 = board s r2 c2 := by
        simp only [board, f4, f5]
      have e : s1.total_moves_ = sa.total_moves_ ∧
          s1.winner_ = if board s r2 c2 = .kWhiteKing then 1
            else if board s r2 c2 = .kBlackKing then 0 else s.winner_ := by
        injection hsc with hsc
        subst hsc
        rw [← hb, ← fw]
        exact captureWinner_fields sa r2 c2
      injection ht with ht
      subst ht
      rw [applyTail_winner s2 r1 c1 r2 c2, g2, e.1, f2, gw, e.2, if_pos hc]
  · simp only [hc, if_false, Option.some_bind, Option.bind_eq_some] at h
    obtain ⟨s2, hs2, ht⟩ := h
    obtain ⟨_, g2, _, _, _⟩ := deletePiece_fields hs2
    have gw := deletePiece_winner hs2
    injection ht with ht
    subst ht
    rw [applyTail_winner s2 r1 c1 r2 c2, g2, gw, if_neg hc]

/-- C21. `Returns` is `(+1, -1)` exactly when the winner is 0, `(-1, +1)` exactly when the
winner is 1, and `(0, 0)` exactly for every other winner value; the two payoffs always sum
to `UtilitySum = 0` and lie between `MinUtility` and `MaxUtility`; and a state whose move
count an applied action has brought to the cap (1000 or more) reports `(-1, +1)`. -/
theorem returns_spec (s : BattleChessState) :
    (Returns s = [1, -1] ↔ s.winner_ = 0) ∧
    (Returns s = [-1, 1] ↔ s.winner_ = 1) ∧
    (Returns s = [0, 0] ↔ (s.winner_ ≠ 0 ∧ s.winner_ ≠ 1)) ∧
    (Returns s).sum = UtilitySum ∧
    (∀ x ∈ Returns s, MinUtility ≤ x ∧ x ≤ MaxUtility) ∧
    (∀ a t, DoApplyAction s a = some t → t.total_moves_ ≥ MaxGameLength →
      t.winner_ = 1 ∧ Returns t = [-1, 1]) := by
  refine ⟨?_, ?_, ?_, ?_, ?_, ?_⟩
  · unfold Returns
    split_ifs with h0 hw1 <;> simp [h0]
  · unfold Returns
    split_ifs with h0 hw1
    · simp [h0]
    · simp [hw1]
    · simp [hw1]
  · unfold Returns
    split_ifs with h0 hw1
    · simp [h0]
    · simp [hw1]
    · simp [h0, hw1]
  · unfold Returns UtilitySum
    split_ifs <;> rfl
  · unfold Returns MinUtility MaxUtility
    split_ifs <;> simp
  · intro a t h hcap
    obtain ⟨_, hm, _⟩ := doApply_counters h
    obtain ⟨r1, c1, r2, c2, _, hw⟩ := doApply_winner h
    have hge : s.total_moves_ + 1 ≥ 1000 := by
      rw [← hm]; exact hcap
    rw [if_pos hge] at hw
    refine ⟨hw, ?_⟩
    unfold Returns
    rw [hw]
    rfl

theorem returns_spec_witness :
    ∃ t, DoApplyAction capEve 279 = some t ∧ t.total_moves_ ≥ MaxGameLength ∧
      t.winner_ = 1 ∧ Returns t = [-1, 1] :=
  ⟨(DoApplyAction capEve 279).getD capEve, by rfl, by decide,
    (returns_spec capEve).2.2.2.2.2 279 _ (by rfl) (by decide)⟩

/-! ## Observation planes -/

theorem foldl_set_getD (idx : List Nat) (view : List Int) (j : Nat) :
    (idx.foldl (fun v i => v.set i 1) view).getD j 0 =
      if j ∈ idx ∧ j < view.length then 1 else view.getD j 0 := by
  induction idx generalizing view with
  | nil => simp
  | cons i rest ih =>
    rw [List.foldl_cons, ih]
    simp only [List.length_set, List.mem_cons]
    by_cases hj : j ∈ rest ∧ j < view.length
    · rw [if_pos hj, if_pos ⟨Or.inr hj.1, hj.2⟩]
    · rw [if_neg hj]
      by_cases hji : j = i
      · subst hji
        by_cases hlt : j < view.length
        · rw [if_pos ⟨Or.inl rfl, hlt⟩]
          simp [List.getD_eq_getElem?_getD, hlt]
        · rw [if_neg (fun h => hlt h.2)]
          simp [List.getD_eq_getElem?_getD, List.getElem?_set, hlt,
            List.getElem?_eq_none (Nat.not_lt.mp hlt)]
      · have hne : ¬ ((j = i ∨ j ∈ rest) ∧ j < view.length) := by
          rintro ⟨h | h, hlt⟩
          · exact hji h
          · exact hj ⟨h, hlt⟩
        rw [if_neg hne]
        simp [List.getD_eq_getElem?_getD, List.getElem?_set, Ne.symm hji]

theorem planeOfCell_range (v : CellState) :
    0 ≤ planeOfCell v ∧ planeOfCell v < kCellStates := by
  cases v <;> decide

theorem observationStep_eq (s : BattleChessState) (r c : Nat) (view : List Int) :
    observationStep s r c view =
      some (view.set (tensorIndex s (observation_plane s r c) r c) 1) := by
  unfold observationStep
  have h := planeOfCell_range (board s (r : Int) (c : Int))
  simp only [observation_plane, ge_iff_le, h.1, h.2, and_self, if_true]

theorem foldlM_total {α β : Type} (l : List α) (f : β → α → β) (b : β) :
    l.foldlM (fun acc x => some (f acc x)) b = some (l.foldl f b) := by
  induction l generalizing b with
  | nil => rfl
  | cons x xs ih => simp [List.foldlM_cons, ih]

/-- `ObservationTensor` in closed form on the 5x5 board: the zero vector of length 175
with a 1 written at the index of every cell's plane. -/
theorem observationTensor_eq (s : BattleChessState) (hr : s.rows_ = 5) (hc : s.cols_ = 5)
    (player : Int) (hp : player = 0 ∨ player = 1) :
    ObservationTensor s player = some
      ((cellCoords.map fun rc =>
          tensorIndex s (observation_plane s (rc.1 : Int) (rc.2 : Int)) rc.1 rc.2).foldl
        (fun v i => v.set i 1) (List.replicate 175 0)) := by
  have h1 : player ≥ 0 := by omega
  have h2 : player < kNumPlayers := by
    unfold kNumPlayers; omega
  have h5 : (5 : Int).toNat = 5 := rfl
  have h175 : (kCellStates * 5 * 5).toNat = 175 := by decide
  unfold ObservationTensor
  simp only [h1, h2, not_true_eq_false, if_false, hr, hc, h5, h175]
  rw [foldlM_nested (List.range 5) (List.range 5)
    (fun (r c : Nat) (v : List Int) => observationStep s r c v)]
  simp only [observationStep_eq]
  rw [show ((List.range 5).flatMap fun r => (List.range 5).map fun c => (r, c)) = cellCoords
    from rfl]
  rw [foldlM_total, List.foldl_map]

theorem mem_cellCoords (rc : Nat × Nat) : rc ∈ cellCoords ↔ rc.1 < 5 ∧ rc.2 < 5 := by
  obtain ⟨r, c⟩ := rc
  simp [cellCoords]

theorem replicate_getD_zero (n j : Nat) : (List.replicate n (0 : Int)).getD j 0 = 0 := by
  rw [List.getD_eq_getElem?_getD, List.getElem?_replicate]
  split_ifs <;> rfl

/-- The entry `(p, r, c)` of the observation of a 5x5 state is 1 on the plane of the cell
`(r, c)` and 0 on the other planes. -/
theorem observation_entry (s : BattleChessState) (hr : s.rows_ = 5) (hc : s.cols_ = 5)
    (r c : Int) (hin : InBounds s r c = true) (p : Int) (hp : 0 ≤ p ∧ p < 7) :
    tensorAt s ((cellCoords.map fun rc =>
        tensorIndex s (observation_plane s (rc.1 : Int) (rc.2 : Int)) rc.1 rc.2).foldl
      (fun v i => v.set i 1) (List.replicate 175 0)) p r c =
      if p = observation_plane s r c then 1 else 0 := by
  rw [inBounds_iff, hr, hc] at hin
  obtain ⟨hr0, hr5, hc0, hc5⟩ := hin
  unfold tensorAt
  rw [foldl_set_getD, replicate_getD_zero, List.length_replicate]
  have hidx : tensorIndex s p r c < 175 := by
    unfold tensorIndex
    rw [hr, hc]
    omega
  by_cases hpl : p = observation_plane s r c
  · rw [if_pos hpl, if_pos]
    refine ⟨?_, hidx⟩
    rw [List.mem_map]
    refine ⟨(r.toNat, c.toNat), (mem_cellCoords _).2 ⟨by omega, by omega⟩, ?_⟩
    have e1 : ((r.toNat : Nat) : Int) = r := Int.toNat_of_nonneg hr0
    have e2 : ((c.toNat : Nat) : Int) = c := Int.toNat_of_nonneg hc0
    simp only [e1, e2, hpl]
  · rw [if_neg hpl, if_neg]
    rintro ⟨hmem, -⟩
    rw [List.mem_map] at hmem
    obtain ⟨⟨r', c'⟩, hrc, heq⟩ := hmem
    rw [mem_cellCoords] at hrc
    obtain ⟨hr', hc'⟩ := hrc
    have hq := planeOfCell_range (board s (r' : Int) (c' : Int))
    have hq2 : planeOfCell (board s (r' : Int) (c' : Int)) < 7 := hq.2
    simp only [tensorIndex, observation_plane, hr, hc] at heq
    have h1 : (r' : Int) = r := by omega
    have h2 : (c' : Int) = c := by omega
    have h3 : planeOfCell (board s (r' : Int) (c' : Int)) = p := by omega
    apply hpl
    rw [← h3, observation_plane, h1, h2]

/-- C22. `observation_plane` is the plane of the cell value, in the fixed order BlackKing 0,
BlackDefender 1, BlackAttacker 2, WhiteKing 3, WhiteDefender 4, WhiteAttacker 5, Empty 6,
one-to-one and onto 0..6; hence for every (5x5) state `ObservationTensor` returns a vector
of 7 x 5 x 5 entries in which, for every board position `(r, c)`, the entry `(p, r, c)` is
1 on the plane `p` of the cell and 0 on the other six planes: exactly one plane is set. -/
theorem observation_one_hot :
    (planeOfCell .kBlackKing = 0 ∧ planeOfCell .kBlackDefender = 1 ∧
      planeOfCell .kBlackAttacker = 2 ∧ planeOfCell .kWhiteKing = 3 ∧
      planeOfCell .kWhiteDefender = 4 ∧ planeOfCell .kWhiteAttacker = 5 ∧
      planeOfCell .kEmpty = 6) ∧
    (∀ v w, planeOfCell v = planeOfCell w → v = w) ∧
    (∀ p : Int, 0 ≤ p → p < 7 → ∃ v, planeOfCell v = p) ∧
    (∀ (s : BattleChessState) (r c : Int),
      observation_plane s r c = planeOfCell (board s r c)) ∧
    (∀ (s : BattleChessState) (player : Int), s.rows_ = 5 → s.cols_ = 5 →
      (player = 0 ∨ player = 1) →
      ∃ values, ObservationTensor s player = some values ∧
        (values.length : Int) = kCellStates * s.rows_ * s.cols_ ∧
        ∀ r c, InBounds s r c = true →
          (∀ p, 0 ≤ p → p < 7 →
            tensorAt s values p r c = if p = observation_plane s r c then 1 else 0) ∧
          ∃! p, (0 ≤ p ∧ p < 7) ∧ tensorAt s values p r c = 1) := by
  refine ⟨by decide, ?_, ?_, fun _ _ _ => rfl, ?_⟩
  · intro v w h
    cases v <;> cases w <;> first | rfl | exact absurd h (by decide)
  · intro p h0 h7
    have hcases : p = 0 ∨ p = 1 ∨ p = 2 ∨ p = 3 ∨ p = 4 ∨ p = 5 ∨ p = 6 := by omega
    rcases hcases with h | h | h | h | h | h | h <;> subst h
    exacts [⟨.kBlackKing, rfl⟩, ⟨.kBlackDefender, rfl⟩, ⟨.kBlackAttacker, rfl⟩,
      ⟨.kWhiteKing, rfl⟩, ⟨.kWhiteDefender, rfl⟩, ⟨.kWhiteAttacker, rfl⟩, ⟨.kEmpty, rfl⟩]
  · intro s player hr hc hp
    refine ⟨_, observationTensor_eq s hr hc player hp, ?_, ?_⟩
    · have hlen : ∀ (idx : List Nat) (v : List Int),
          (idx.foldl (fun v i => v.set i 1) v).length = v.length := by
        intro idx
        induction idx with
        | nil => intro v; rfl
        | cons i rest ih => intro v; rw [List.foldl_cons, ih, List.length_set]
      rw [hlen, List.length_replicate, hr, hc]
      decide
    · intro r c hin
      have hent := observation_entry s hr hc r c hin
      refine ⟨fun p h0 h7 => hent p ⟨h0, h7⟩, ?_⟩
      have hq := planeOfCell_range (board s r c)
      have hq2 : planeOfCell (board s r c) < 7 := hq.2
      refine ⟨observation_plane s r c, ⟨⟨hq.1, hq2⟩, ?_⟩, ?_⟩
      · exact (hent (observation_plane s r c) ⟨hq.1, hq2⟩).trans (if_pos rfl)
      · rintro p ⟨hp7, hp1⟩
        rw [hent p hp7] at hp1
        by_contra hne
        rw [if_neg hne] at hp1
        exact absurd hp1 (by decide)

theorem observation_one_hot_witness :
    ∃ values, ObservationTensor whiteKingAttacked 0 = some values ∧
      (values.length : Int) =
        kCellStates * whiteKingAttacked.rows_ * whiteKingAttacked.cols_ ∧
      ∀ r c, InBounds whiteKingAttacked r c = true →
        (∀ p, 0 ≤ p → p < 7 → tensorAt whiteKingAttacked values p r c =
          if p = observation_plane whiteKingAttacked r c then 1 else 0) ∧
        ∃! p, (0 ≤ p ∧ p < 7) ∧ tensorAt whiteKingAttacked values p r c = 1 :=
  observation_one_hot.2.2.2.2 whiteKingAttacked 0 (by rfl) (by rfl) (Or.inl rfl)

/-! ## Move notation -/

theorem colLabel_eq (c : Int) (h : 0 ≤ c ∧ c < 5) :
    ColLabel c = [Char.ofNat ('a'.toNat + c.toNat)] := by
  obtain ⟨h0, h5⟩ := h
  interval_cases c <;> rfl

theorem rowLabel_eq (r : Int) (h : 0 ≤ r ∧ r < 5) :
    RowLabel 5 r = [Char.ofNat ('1'.toNat + (5 - 1 - r).toNat)] := by
  obtain ⟨h0, h5⟩ := h
  interval_cases r <;> rfl

theorem pieceName_eq (t : Int) (h : 0 ≤ t ∧ t ≤ 6) :
    PieceName t = ["-ADKadk".toList.getD t.toNat '-'] := by
  obtain ⟨h0, h6⟩ := h
  interval_cases t <;> rfl

/-- C23. For every valid move descriptor `(r1, c1, r2, c2, t)` with `t` in 0..6 on the 5x5
board, `ActionToString` of its encoded id is the 5-character string: column letter
`'a' + c1`, row label `'1' + (rows - 1 - r1)`, column letter `'a' + c2`, row label
`'1' + (rows - 1 - r2)`, then the captured-piece letter (the character of index `t` in
`-ADKadk`); row 0 is labelled `5` and row 4 is labelled `1`. -/
theorem action_to_string_format (s : BattleChessState) (hr : s.rows_ = 5) (hc : s.cols_ = 5)
    (player r1 c1 r2 c2 t : Int) (hv : validDescriptor r1 c1 r2 c2 t) (ht : t ≤ 6) :
    ActionToString s player (encode r1 c1 r2 c2 t) =
      [Char.ofNat ('a'.toNat + c1.toNat), Char.ofNat ('1'.toNat + (s.rows_ - 1 - r1).toNat),
       Char.ofNat ('a'.toNat + c2.toNat), Char.ofNat ('1'.toNat + (s.rows_ - 1 - r2).toNat),
       "-ADKadk".toList.getD t.toNat '-'] ∧
    RowLabel s.rows_ 0 = ['5'] ∧ RowLabel s.rows_ 4 = ['1'] := by
  have hd := decode_encode r1 c1 r2 c2 t hv
  obtain ⟨h1, h2, h3, h4, h5⟩ := hv
  refine ⟨?_, by rw [hr]; rfl, by rw [hr]; rfl⟩
  unfold ActionToString
  rw [hr, hc]
  have hd2 : UnrankActionMixedBase (encode r1 c1 r2 c2 t) [5, 5, 5, 5, 9] =
      [r1, c1, r2, c2, t] := hd
  rw [hd2]
  simp only
  rw [colLabel_eq c1 h2, rowLabel_eq r1 h1, colLabel_eq c2 h4, rowLabel_eq r2 h3,
    pieceName_eq t ⟨h5.1, ht⟩]
  rfl

theorem action_to_string_format_witness :
    validDescriptor 1 1 2 2 3 ∧ (3 : Int) ≤ 6 ∧
    ActionToString whiteKingAttacked 1 (encode 1 1 2 2 3) = "b4c3K".toList ∧
    ActionToString NewInitialState 0 4644 = "a1b2-".toList :=
  ⟨by decide, by decide,
    (action_to_string_format whiteKingAttacked (by rfl) (by rfl) 1 1 1 2 2 3 (by decide)
      (by decide)).1,
    (action_to_string_format NewInitialState (by rfl) (by rfl) 0 4 0 3 1 0 (by decide)
      (by decide)).1⟩

/-! ## Board frame of apply -/

/-- C24. Board frame of apply: for every consistent state and every legal action, which
decodes to `(r1, c1, r2, c2, tag)`, `DoApplyAction` returns a state in which the cell
`(r1, c1)` is Empty, the cell `(r2, c2)` holds the value that `(r1, c1)` held before, and
every other cell of the board is unchanged (the board store keeps its length). -/
theorem apply_board_frame (s : BattleChessState) (h : Consistent s) (l : List Int) (a : Int)
    (hl : LegalActions s = some l) (ha : a ∈ l) :
    ∃ r1 c1 r2 c2 tag t, decode a = [r1, c1, r2, c2, tag] ∧
      DoApplyAction s a = some t ∧
      board t r1 c1 = .kEmpty ∧
      board t r2 c2 = board s r1 c1 ∧
      (∀ r c, InBounds s r c = true → ¬ (r = r1 ∧ c = c1) → ¬ (r = r2 ∧ c = c2) →
        board t r c = board s r c) ∧
      t.board_.length = s.board_.length := by
  obtain ⟨r1, c1, r2, c2, tag, t, rfl, m, _, ht, f⟩ := step_facts h hl ha
  refine ⟨r1, c1, r2, c2, tag, t, decode_encode _ _ _ _ _ (sound_valid h m), ht, ?_, ?_, ?_,
    ?_⟩
  · rw [board_of_facts h f m.src_in m.dst_in r1 c1 m.src_in, if_pos ⟨rfl, rfl⟩]
  · rw [board_of_facts h f m.src_in m.dst_in r2 c2 m.dst_in, if_neg m.apart,
      if_pos ⟨rfl, rfl⟩]
  · intro r c hin h1 h2
    rw [board_of_facts h f m.src_in m.dst_in r c hin, if_neg h1, if_neg h2]
  · rw [f.board_eq]
    simp [SetBoard]

theorem apply_board_frame_witness :
    Consistent whiteKingAttacked ∧
    LegalActions whiteKingAttacked = some [459, 513, 747, 972, 1359, 1395, 1413, 1449, 1461] ∧
    ∃ r1 c1 r2 c2 tag t, decode 1461 = [r1, c1, r2, c2, tag] ∧
      DoApplyAction whiteKingAttacked 1461 = some t ∧
      board t r1 c1 = .kEmpty ∧
      board t r2 c2 = board whiteKingAttacked r1 c1 ∧
      (∀ r c, InBounds whiteKingAttacked r c = true → ¬ (r = r1 ∧ c = c1) →
        ¬ (r = r2 ∧ c = c2) → board t r c = board whiteKingAttacked r c) ∧
      t.board_.length = whiteKingAttacked.board_.length :=
  ⟨reachable_consistent reachable_whiteKingAttacked, by rfl,
    apply_board_frame whiteKingAttacked (reachable_consistent reachable_whiteKingAttacked)
      [459, 513, 747, 972, 1359, 1395, 1413, 1449, 1461] 1461 (by rfl) (by decide)⟩

/-! ## Order of the encoding -/

/-- C25. The encoding is most-significant-first: for valid descriptors `m` and `m'`,
`encode m < encode m'` if and only if `m` precedes `m'` in the lexicographic order on
`(r1, c1, r2, c2, captureTag)`; and `encode (r1, c1, r2, c2, t)` is
`(((r1 * cols + c1) * rows + r2) * cols + c2) * 9 + t`. -/
theorem encode_lex_order (r1 c1 r2 c2 t r1' c1' r2' c2' t' : Int)
    (hv : validDescriptor r1 c1 r2 c2 t) (hv' : validDescriptor r1' c1' r2' c2' t') :
    (encode r1 c1 r2 c2 t < encode r1' c1' r2' c2' t' ↔
      lexLt r1 c1 r2 c2 t r1' c1' r2' c2' t') ∧
    encode r1 c1 r2 c2 t =
      (((r1 * kDefaultColumns + c1) * kDefaultRows + r2) * kDefaultColumns + c2) * 9 + t := by
  have hform : ∀ a b c d e : Int,
      encode a b c d e = (((a * 5 + b) * 5 + c) * 5 + d) * 9 + e := by
    intro a b c d e
    rw [encode_eq, rank_five]
  refine ⟨?_, hform r1 c1 r2 c2 t⟩
  rw [hform, hform]
  simp only [validDescriptor, kDefaultRows, kDefaultColumns] at hv hv'
  unfold lexLt
  constructor
  · intro h
    omega
  · intro h
    omega

theorem encode_lex_order_witness :
    validDescriptor 4 0 3 1 0 ∧ validDescriptor 4 1 3 1 0 ∧
    (encode 4 0 3 1 0 < encode 4 1 3 1 0 ↔ lexLt 4 0 3 1 0 4 1 3 1 0) ∧
    encode 4 0 3 1 0 = 4644 :=
  ⟨by decide, by decide, (encode_lex_order 4 0 3 1 0 4 1 3 1 0 (by decide) (by decide)).1,
    (encode_lex_order 4 0 3 1 0 4 1 3 1 0 (by decide) (by decide)).2⟩

/-! ## The colour assertion of a capture -/

/-- Forgetting the point of failure, `DoApplyActionTraced` is `DoApplyAction`. -/
theorem traced_refines (s : BattleChessState) (a : Int) :
    (DoApplyActionTraced s a).toOption = DoApplyAction s a := by
  obtain ⟨r1, c1, r2, c2, hun⟩ := unrank_shape a s.rows_ s.cols_ s.rows_ s.cols_ 9
  unfold DoApplyActionTraced DoApplyAction
  rw [hun]
  simp only [List.getD_cons_zero, List.getD_cons_succ]
  by_cases h1 : InBounds s r1 c1 = true
  swap
  · simp [h1, Except.toOption]
  by_cases h2 : InBounds s r2 c2 = true
  swap
  · simp [h1, h2, Except.toOption]
  simp only [h1, h2, Bool.not_true, Bool.false_eq_true, if_false, Option.pure_def,
    Option.bind_eq_bind]
  by_cases hc : a.tmod 9 > 0
  · by_cases hk : 1 - StateToColor (board s r2 c2) ≠ StateToColor (board s r1 c1)
    · simp [hc, hk, Except.toOption]
    · simp only [hc, hk, if_true, if_false]
      cases hsa : DeletePiece s r2 c2 (board s r2 c2) with
      | none => simp [Except.toOption]
      | some sa =>
        simp only [Option.some_bind]
        split <;> rename_i hd <;> simp [hd, Except.toOption]
  · simp only [hc, if_false, Option.some_bind]
    split <;> rename_i hd <;> simp [hd, Except.toOption]

theorem decode_nonneg (a : Int) (h : 0 ≤ a) :
    decode a = [a / 1125 % 5, a / 225 % 5, a / 45 % 5, a / 9 % 5, a % 9] :=
  unrank_five a h

theorem fields_nonneg (a : Int) (h : 0 ≤ a) :
    originOf a = (a / 1125 % 5, a / 225 % 5) ∧ destOf a = (a / 45 % 5, a / 9 % 5) ∧
    tagOf a = a % 9 := by
  simp only [originOf, destOf, tagOf, decode_nonneg a h, and_self]

theorem not_opposite_check (v w : CellState) (h : ¬ oppositeColours v w) :
    1 - StateToColor w ≠ StateToColor v := by
  cases v <;> cases w <;> first | decide | exact absurd (by decide) h

/-- C26. For every (5x5) state and every non-negative action id whose decoded capture tag
is positive: if the cells at the decoded origin and destination are not occupied by pieces
of opposite colours (including when either cell is empty), `DoApplyAction` fails, and it
fails at the colour assertion with the state unchanged: the state at the point of failure
is the input state itself, so the board, both piece lists, the current player, the move
count and the winner have not been touched. -/
theorem colour_check_fails (s : BattleChessState) (hr : s.rows_ = 5) (hc : s.cols_ = 5)
    (a : Int) (ha : 0 ≤ a) (htag : 0 < tagOf a)
    (hcol : ¬ oppositeColours (board s (originOf a).1 (originOf a).2)
      (board s (destOf a).1 (destOf a).2)) :
    DoApplyActionTraced s a = .error (.colour, s) ∧ DoApplyAction s a = none := by
  obtain ⟨ho, hd, ht⟩ := fields_nonneg a ha
  rw [ho, hd] at hcol
  rw [ht] at htag
  have hk := not_opposite_check _ _ hcol
  have hun : UnrankActionMixedBase a [s.rows_, s.cols_, s.rows_, s.cols_, 9] =
      [a / 1125 % 5, a / 225 % 5, a / 45 % 5, a / 9 % 5, a % 9] := by
    rw [hr, hc]; exact unrank_five a ha
  have h1 : InBounds s (a / 1125 % 5) (a / 225 % 5) = true :=
    inBounds_five hr hc _ _ (by omega)
  have h2 : InBounds s (a / 45 % 5) (a / 9 % 5) = true :=
    inBounds_five hr hc _ _ (by omega)
  have htr : DoApplyActionTraced s a = .error (.colour, s) := by
    unfold DoApplyActionTraced
    rw [hun]
    simp only [List.getD_cons_zero, List.getD_cons_succ, h1, h2, Bool.not_true,
      Bool.false_eq_true, if_false, gt_iff_lt, htag, if_true, hk, ne_eq, not_false_eq_true]
  refine ⟨htr, ?_⟩
  rw [← traced_refines, htr]
  rfl

theorem colour_check_fails_witness :
    (0 : Int) ≤ 4691 ∧ 0 < tagOf 4691 ∧ decode 4691 = [4, 0, 4, 1, 2] ∧
    ¬ oppositeColours (board NewInitialState (originOf 4691).1 (originOf 4691).2)
      (board NewInitialState (destOf 4691).1 (destOf 4691).2) ∧
    DoApplyActionTraced NewInitialState 4691 = .error (.colour, NewInitialState) ∧
    DoApplyAction NewInitialState 4691 = none :=
  ⟨by decide, by decide, by decide, by decide,
    colour_check_fails NewInitialState rfl rfl 4691 (by decide) (by decide) (by decide)⟩

/-! ## Parity of the player to move under apply and undo -/

theorem deletePiece_history {s s' : BattleChessState} {r c : Int} {v : CellState}
    (h : DeletePiece s r c v = some s') : s'.history_ = s.history_ := by
  unfold DeletePiece at h
  split_ifs at h <;> injection h with h <;> subst h <;> rfl

theorem applyTail_history (s2 : BattleChessState) (r1 c1 r2 c2 : Int) :
    let s3 := AddPiece s2 r2 c2 (board s2 r1 c1)
    let s4 := SetBoard s3 r2 c2 (board s3 r1 c1)
    let s5 := SetBoard s4 r1 c1 .kEmpty
    let s6 : BattleChessState := { s5 with
      cur_player_ := NextPlayerRoundRobin s5.cur_player_ kNumPlayers
      total_moves_ := s5.total_moves_ + 1 }
    let t : BattleChessState := if s6.total_moves_ ≥ 1000 then { s6 with winner_ := 1 } else s6
    t.history_ = s2.history_ := by
  have kh : (AddPiece s2 r2 c2 (board s2 r1 c1)).history_ = s2.history_ := by
    unfold AddPiece
    split_ifs <;> rfl
  intro s3 s4 s5 s6 t
  show (if s6.total_moves_ ≥ 1000 then _ else _ : BattleChessState).history_ = _
  split_ifs <;> simp only [s6, s5, s4, s3, SetBoard, kh]

theorem captureWinner_history (sa : BattleChessState) (r2 c2 : Int) :
    let sb : BattleChessState :=
      if board sa r2 c2 = .kBlackKing then { sa with winner_ := 0 } else sa
    let sc : BattleChessState :=
      if board sb r2 c2 = .kWhiteKing then { sb with winner_ := 1 } else sb
    sc.history_ = sa.history_ := by
  intro sb sc
  have hsb : sb.history_ = sa.history_ := by
    show (if _ then _ else _ : BattleChessState).history_ = _
    split_ifs <;> rfl
  show (if _ then _ else _ : BattleChessState).history_ = _
  split_ifs
  · exact hsb
  · exact hsb

/-- `DoApplyAction` does not touch the history (the framework pushes the action). -/
theorem doApply_history {s t : BattleChessState} {a : Int}
    (h : DoApplyAction s a = some t) : t.history_ = s.history_ := by
  obtain ⟨r1, c1, r2, c2, hun⟩ := unrank_shape a s.rows_ s.cols_ s.rows_ s.cols_ 9
  unfold DoApplyAction at h
  rw [hun] at h
  simp only at h
  by_cases h1 : InBounds s r1 c1 = true
  swap
  · simp [h1] at h
  by_cases h2 : InBounds s r2 c2 = true
  swap
  · simp [h1, h2] at h
  simp only [h1, h2, Bool.not_true, Bool.false_eq_true, if_false, Option.pure_def,
    Option.bind_eq_bind] at h
  by_cases hc : a.tmod 9 > 0
  · by_cases hk : 1 - StateToColor (board s r2 c2) ≠ StateToColor (board s r1 c1)
    · simp [hc, hk] at h
    · simp only [hc, hk, if_true, if_false, Option.bind_eq_some] at h
      obtain ⟨sa, hsa, s1, hsc, s2, hs2, ht⟩ := h
      have e : s1.history_ = sa.history_ := by
        injection hsc with hsc
        subst hsc
        exact captureWinner_history sa r2 c2
      injection ht with ht
      subst ht
      rw [applyTail_history s2 r1 c1 r2 c2, deletePiece_history hs2, e,
        deletePiece_history hsa]
  · simp only [hc, if_false, Option.some_bind, Option.bind_eq_some] at h
    obtain ⟨s2, hs2, ht⟩ := h
    injection ht with ht
    subst ht
    rw [applyTail_history s2 r1 c1 r2 c2, deletePiece_history hs2]

/-- The fields that a successful `UndoAction` leaves behind. -/
theorem undo_fields {s t : BattleChessState} {a : Int} (h : UndoAction s a = some t) :
    t.cur_player_ = PreviousPlayerRoundRobin s.cur_player_ 2 ∧
    t.total_moves_ = s.total_moves_ - 1 ∧ t.winner_ = kInvalidPlayer ∧
    t.history_ = s.history_.dropLast ∧ t.rows_ = s.rows_ ∧ t.cols_ = s.cols_ := by
  obtain ⟨r1, c1, r2, c2, hun⟩ := unrank_shape a s.rows_ s.cols_ s.rows_ s.cols_ 9
  unfold UndoAction at h
  rw [hun] at h
  simp only at h
  by_cases h1 : InBounds s r1 c1 = true
  swap
  · simp [h1] at h
  by_cases h2 : InBounds s r2 c2 = true
  swap
  · simp [h1, h2] at h
  simp only [h1, h2, Bool.not_true, Bool.false_eq_true, if_false, Option.pure_def,
    Option.bind_eq_bind] at h
  by_cases hc : a.tmod 9 > 0
  · cases hst : StateType (a.tmod 9) with
    | none => simp [hc, hst] at h
    | some v =>
      simp only [hc, if_true, hst, Option.some_bind] at h
      injection h with h
      subst h
      simp only [AddPiece, SetBoard]
      split_ifs <;> exact ⟨rfl, rfl, rfl, rfl, rfl, rfl⟩
  · simp only [hc, if_false, Option.some_bind] at h
    injection h with h
    subst h
    exact ⟨rfl, rfl, rfl, rfl, rfl, rfl⟩

theorem isTerminal_false_iff (s : BattleChessState) :
    IsTerminal s = false ↔ s.winner_ < 0 := by
  simp [IsTerminal]

/-- Invariant of play in progress: the player to move is the parity of the move count,
the move count is the length of the history, and the board is 5x5. -/
theorem played_parity {s : BattleChessState} (h : Played s) :
    s.cur_player_ = s.total_moves_ % 2 ∧ s.total_moves_ = s.history_.length ∧
    s.rows_ = 5 ∧ s.cols_ = 5 := by
  induction h with
  | init => exact ⟨rfl, rfl, rfl, rfl⟩
  | @apply s t a _ _ happ ih =>
    obtain ⟨hpar, hlen, hr, hc⟩ := ih
    obtain ⟨u, hu, rfl⟩ := applyAction_some happ
    obtain ⟨hp, hm, hr', hc', _⟩ := doApply_counters hu
    have hh := doApply_history hu
    refine ⟨?_, ?_, hr'.trans hr, hc'.trans hc⟩
    · show u.cur_player_ = u.total_moves_ % 2
      rw [hp, hm, hpar]
      unfold NextPlayerRoundRobin kNumPlayers
      split_ifs <;> omega
    · show u.total_moves_ = ((u.history_ ++ [a]).length : Int)
      rw [hm, hh, hlen]
      simp
  | @undo s t a _ hlast hun ih =>
    obtain ⟨hpar, hlen, hr, hc⟩ := ih
    obtain ⟨hp, hm, _, hh, hr', hc'⟩ := undo_fields hun
    have hne : s.history_ ≠ [] := by
      intro he
      rw [he] at hlast
      exact Option.noConfusion hlast
    have hpos : 0 < s.history_.length := List.length_pos.2 hne
    refine ⟨?_, ?_, hr'.trans hr, hc'.trans hc⟩
    · rw [hp, hm, hpar]
      unfold PreviousPlayerRoundRobin
      split_ifs <;> omega
    · rw [hm, hh, hlen, List.length_dropLast]
      omega

/-- Invariant of play in progress: the move count never exceeds the cap and is below it
while the state is not terminal. -/
theorem played_inv {s : BattleChessState} (h : Played s) :
    s.total_moves_ ≤ 1000 ∧ (IsTerminal s = false → s.total_moves_ < 1000) := by
  induction h with
  | init => exact ⟨by decide, fun _ => by decide⟩
  | @apply s t a _ hnt happ ih =>
    obtain ⟨_, hlt⟩ := ih
    obtain ⟨u, hu, rfl⟩ := applyAction_some happ
    obtain ⟨_, hm, _⟩ := doApply_counters hu
    obtain ⟨r1, c1, r2, c2, _, hw⟩ := doApply_winner hu
    have hlt' := hlt hnt
    refine ⟨?_, ?_⟩
    · show u.total_moves_ ≤ 1000
      omega
    · intro hnt'
      rw [isTerminal_false_iff] at hnt'
      show u.total_moves_ < 1000
      have hw' : u.winner_ < 0 := hnt'
      by_contra hge
      rw [if_pos (by omega)] at hw
      omega
  | @undo s t a hs hlast hun ih =>
    obtain ⟨hle, _⟩ := ih
    obtain ⟨_, hm, _⟩ := undo_fields hun
    refine ⟨by omega, fun _ => by omega⟩

/-- Play by legal actions is play in progress without undos. -/
theorem reachable_played {s : BattleChessState} (h : Reachable s) : Played s := by
  induction h with
  | init => exact Played.init
  | step _ hl ha happ ih => exact Played.apply ih (legal_nonterminal hl ha).1 happ

/-! ### A stale registry entry after an undo -/

/-- After an undo the registry keeps entries that the board no longer supports (the undo
does not move the mover's entry back).  In the position `staleEntryPosition`, reached by
legal actions and one undo, it is Black's turn, and the legal list holds 1419, the move
from (1,1), where a White Attacker stands, onto the Black King on (1,2); `DoApplyAction`
accepts it, sets the winner to 0 and takes the Black King off the board. -/
theorem stale_entry_self_capture :
    staleEntryLine = some staleEntryPosition ∧
    staleEntryPosition.cur_player_ = 1 ∧ IsTerminal staleEntryPosition = false ∧
    LegalActions staleEntryPosition =
      some [693, 747, 972, 1364, 1395, 1419, 1449, 1593, 1630, 1647, 1683] ∧
    decode 1419 = [1, 1, 1, 2, 6] ∧
    board staleEntryPosition 1 1 = .kWhiteAttacker ∧
    board staleEntryPosition 1 2 = .kBlackKing ∧
    ((DoApplyAction staleEntryPosition 1419).map fun t =>
      (t.winner_, board t 1 2, t.board_.count .kBlackKing)) =
      some (0, .kWhiteAttacker, 0) := by
  refine ⟨by rfl, by rfl, by rfl, by rfl, by decide, by rfl, by rfl, by rfl⟩

theorem played_legalPlay {s t : BattleChessState} {a : Int} (h : Played s)
    (hp : legalPlay s a = some t) : Played t := by
  unfold legalPlay at hp
  split at hp
  · rename_i l hl
    split_ifs at hp with hm
    exact Played.apply h (legal_nonterminal hl hm).1 hp
  · exact Option.noConfusion hp

theorem played_undoLast {s t : BattleChessState} (h : Played s)
    (hp : undoLast s = some t) : Played t := by
  unfold undoLast at hp
  split at hp
  · rename_i a ha
    exact Played.undo h ha hp
  · exact Option.noConfusion hp

/-- The position `staleEntryPosition` is reached in play in progress. -/
theorem played_staleEntryPosition : Played staleEntryPosition := by
  have hline : staleEntryLine = some staleEntryPosition := by rfl
  unfold staleEntryLine at hline
  obtain ⟨s8, h8, hp⟩ := Option.bind_eq_some.1 hline
  obtain ⟨s7, h7, h8⟩ := Option.bind_eq_some.1 h8
  obtain ⟨s6, h6, h7⟩ := Option.bind_eq_some.1 h7
  obtain ⟨s5, h5, h6⟩ := Option.bind_eq_some.1 h6
  obtain ⟨s4, h4, h5⟩ := Option.bind_eq_some.1 h5
  obtain ⟨s3, h3, h4⟩ := Option.bind_eq_some.1 h4
  obtain ⟨s2, h2, h3⟩ := Option.bind_eq_some.1 h3
  obtain ⟨s1, h1, h2⟩ := Option.bind_eq_some.1 h2
  have p1 := played_legalPlay Played.init h1
  have p2 := played_legalPlay p1 h2
  have p3 := played_undoLast p2 h3
  have p4 := played_legalPlay p3 h4
  have p5 := played_legalPlay p4 h5
  have p6 := played_legalPlay p5 h6
  have p7 := played_legalPlay p6 h7
  have p8 := played_legalPlay p7 h8
  exact played_legalPlay p8 hp

/-! ### Play does not depend on the move count below the cap -/

theorem kingStep_withCounters (s : BattleChessState) (n : Int) (h : List Int)
    (cand : List Int) : kingStep (withCounters s n h) cand = kingStep s cand := rfl

theorem captureStep_withCounters (s : BattleChessState) (n : Int) (h : List Int)
    (enemy : Int) (cand : List Int) :
    captureStep (withCounters s n h) enemy cand = captureStep s enemy cand := rfl

theorem pieceActions_withCounters (s : BattleChessState) (n : Int) (h : List Int)
    (K D A : CellState) (enemy : Int) (p : Piece) :
    pieceActions (withCounters s n h) K D A enemy p = pieceActions s K D A enemy p := rfl

theorem collectActions_withCounters (s : BattleChessState) (n : Int) (h : List Int)
    (K D A : CellState) (enemy : Int) (l : List Piece) :
    collectActions (withCounters s n h) K D A enemy l = collectActions s K D A enemy l := by
  induction l with
  | nil => rfl
  | cons p ps ih =>
    simp only [collectActions, ih, pieceActions_withCounters]

/-- `LegalActions` reads neither the move count nor the history. -/
theorem legalActions_withCounters (s : BattleChessState) (n : Int) (h : List Int) :
    LegalActions (withCounters s n h) = LegalActions s := by
  unfold LegalActions
  simp only [collectActions_withCounters]
  rfl

/-- `DoApplyAction` in terms of its parts, once the action is decoded and both bounds
checks have passed. -/
theorem doApply_eq (s : BattleChessState) (a r1 c1 r2 c2 tag : Int)
    (hun : UnrankActionMixedBase a [s.rows_, s.cols_, s.rows_, s.cols_, 9] =
      [r1, c1, r2, c2, tag])
    (h1 : InBounds s r1 c1 = true) (h2 : InBounds s r2 c2 = true) :
    DoApplyAction s a =
      (if tag > 0 then
        (if 1 - StateToColor (board s r2 c2) ≠ StateToColor (board s r1 c1) then none
         else (DeletePiece s r2 c2 (board s r2 c2)).map fun sa => captureWinner sa r2 c2)
       else some s).bind fun s1 =>
        (DeletePiece s1 r1 c1 (board s1 r1 c1)).map fun s2 => applyTail s2 r1 c1 r2 c2 := by
  unfold DoApplyAction
  rw [hun]
  simp only [h1, h2, Bool.not_true, Bool.false_eq_true, if_false, Option.pure_def,
    Option.bind_eq_bind]
  by_cases hc : tag > 0
  · by_cases hk : 1 - StateToColor (board s r2 c2) ≠ StateToColor (board s r1 c1)
    · simp [hc, hk]
    · simp only [hc, hk, if_true, if_false]
      cases hsa : DeletePiece s r2 c2 (board s r2 c2) with
      | none => simp
      | some sa =>
        simp only [Option.some_bind, Option.map_some']
        cases hs2 : DeletePiece (captureWinner sa r2 c2) r1 c1
            (board (captureWinner sa r2 c2) r1 c1) with
        | none =>
          have := hs2
          unfold captureWinner at this
          simp only at this
          simp [this]
        | some s2 =>
          have := hs2
          unfold captureWinner at this
          simp only at this
          simp [this, applyTail]
  · simp only [hc, if_false, Option.some_bind]
    cases hs2 : DeletePiece s r1 c1 (board s r1 c1) with
    | none => simp
    | some s2 => simp [applyTail]

theorem deletePiece_withCounters (s : BattleChessState) (n : Int) (h : List Int)
    (r c : Int) (v : CellState) :
    DeletePiece (withCounters s n h) r c v =
      (DeletePiece s r c v).map fun x => withCounters x n h := by
  unfold DeletePiece
  simp only [withCounters]
  split_ifs <;> rfl

theorem captureWinner_withCounters (sa : BattleChessState) (n : Int) (h : List Int)
    (r2 c2 : Int) :
    captureWinner (withCounters sa n h) r2 c2 = withCounters (captureWinner sa r2 c2) n h := by
  have hb : ∀ x : BattleChessState, board (withCounters x n h) r2 c2 = board x r2 c2 :=
    fun _ => rfl
  have hb0 : board ({ sa with winner_ := 0 } : BattleChessState) r2 c2 = board sa r2 c2 :=
    rfl
  unfold captureWinner
  simp only
  by_cases hbk : board sa r2 c2 = .kBlackKing
  · have hwk : ¬ board sa r2 c2 = .kWhiteKing := by rw [hbk]; decide
    have hbk' : board (withCounters sa n h) r2 c2 = .kBlackKing := hbk
    have e1 : board ({ withCounters sa n h with winner_ := 0 } : BattleChessState) r2 c2 =
        board sa r2 c2 := rfl
    rw [if_pos hbk', if_pos hbk, e1, hb0, if_neg hwk, if_neg hwk]
    rfl
  · have hbk' : ¬ board (withCounters sa n h) r2 c2 = .kBlackKing := hbk
    rw [if_neg hbk', if_neg hbk, hb]
    split_ifs <;> rfl

/-- The tail of `DoApplyAction` on a state with other counters: the same state with the
new counters, and the winner forced to 1 when the new count reaches the cap. -/
theorem applyTail_withCounters (s2 : BattleChessState) (n : Int) (h : List Int)
    (r1 c1 r2 c2 : Int) (hs : s2.total_moves_ + 1 < 1000) :
    applyTail (withCounters s2 n h) r1 c1 r2 c2 =
      if n + 1 ≥ 1000 then
        { withCounters (applyTail s2 r1 c1 r2 c2) (n + 1) h with winner_ := 1 }
      else withCounters (applyTail s2 r1 c1 r2 c2) (n + 1) h := by
  have ha : ∀ (x : BattleChessState) (v : CellState),
      AddPiece (withCounters x n h) r2 c2 v = withCounters (AddPiece x r2 c2 v) n h := by
    intro x v
    unfold AddPiece
    split_ifs <;> rfl
  have hm : (AddPiece s2 r2 c2 (board s2 r1 c1)).total_moves_ = s2.total_moves_ :=
    (addPiece_fields s2 r2 c2 (board s2 r1 c1)).2.1
  have hb : board (withCounters s2 n h) r1 c1 = board s2 r1 c1 := rfl
  unfold applyTail
  simp only [hb, ha]
  have hlow : ¬ ((SetBoard (SetBoard (AddPiece s2 r2 c2 (board s2 r1 c1)) r2 c2
      (board (AddPiece s2 r2 c2 (board s2 r1 c1)) r1 c1)) r1 c1 .kEmpty).total_moves_ + 1
        ≥ 1000) := by
    show ¬ ((AddPiece s2 r2 c2 (board s2 r1 c1)).total_moves_ + 1 ≥ 1000)
    rw [hm]; omega
  rw [if_neg hlow]
  have hcnt : (SetBoard (SetBoard (withCounters (AddPiece s2 r2 c2 (board s2 r1 c1)) n h)
      r2 c2 (board (withCounters (AddPiece s2 r2 c2 (board s2 r1 c1)) n h) r1 c1)) r1 c1
        .kEmpty).total_moves_ = n := rfl
  rw [hcnt]
  split_ifs <;> rfl

/-- `DoApplyAction` on a state with other counters: when the action is accepted below the
cap, it is accepted with any move count and history, with the same result up to the
counters and the cap. -/
theorem doApply_withCounters {s t : BattleChessState} {a : Int}
    (hap : DoApplyAction s a = some t) (hs : s.total_moves_ + 1 < 1000) (n : Int)
    (h : List Int) :
    DoApplyAction (withCounters s n h) a =
      some (if n + 1 ≥ 1000 then { withCounters t (n + 1) h with winner_ := 1 }
        else withCounters t (n + 1) h) := by
  obtain ⟨_, _, _, _, r1, c1, r2, c2, hun, h1, h2⟩ := doApply_counters hap
  have hun' : UnrankActionMixedBase a [(withCounters s n h).rows_, (withCounters s n h).cols_,
      (withCounters s n h).rows_, (withCounters s n h).cols_, 9] =
      [r1, c1, r2, c2, a.tmod 9] := hun
  have h1' : InBounds (withCounters s n h) r1 c1 = true := h1
  have h2' : InBounds (withCounters s n h) r2 c2 = true := h2
  rw [doApply_eq s a r1 c1 r2 c2 _ hun h1 h2] at hap
  rw [doApply_eq (withCounters s n h) a r1 c1 r2 c2 _ hun' h1' h2']
  have hb : ∀ (x : BattleChessState) (r c : Int),
      board (withCounters x n h) r c = board x r c := fun _ _ _ => rfl
  obtain ⟨s1, hs1, hrest⟩ := Option.bind_eq_some.1 hap
  obtain ⟨s2, hs2, ht⟩ := Option.map_eq_some'.1 hrest
  have hfirst : (if a.tmod 9 > 0 then
      (if 1 - StateToColor (board (withCounters s n h) r2 c2) ≠
          StateToColor (board (withCounters s n h) r1 c1) then none
       else (DeletePiece (withCounters s n h) r2 c2 (board (withCounters s n h) r2 c2)).map
        fun sa => captureWinner sa r2 c2)
      else some (withCounters s n h)) = some (withCounters s1 n h) ∧
      s1.total_moves_ = s.total_moves_ := by
    simp only [hb, deletePiece_withCounters]
    by_cases hc : a.tmod 9 > 0
    · rw [if_pos hc] at hs1 ⊢
      by_cases hk : 1 - StateToColor (board s r2 c2) ≠ StateToColor (board s r1 c1)
      · rw [if_pos hk] at hs1
        exact Option.noConfusion hs1
      · rw [if_neg hk] at hs1 ⊢
        obtain ⟨sa, hsa, hcw⟩ := Option.map_eq_some'.1 hs1
        rw [hsa]
        simp only [Option.map_some', captureWinner_withCounters, hcw]
        refine ⟨trivial, ?_⟩
        rw [← hcw]
        exact (captureWinner_fields sa r2 c2).1.trans (deletePiece_fields hsa).2.1
    · rw [if_neg hc] at hs1 ⊢
      injection hs1 with hs1
      subst hs1
      exact ⟨rfl, rfl⟩
  rw [hfirst.1, Option.some_bind, hb, deletePiece_withCounters, hs2, Option.map_some',
    Option.map_some']
  have hm2 : s2.total_moves_ + 1 < 1000 := by
    rw [(deletePiece_fields hs2).2.1, hfirst.2]; exact hs
  rw [applyTail_withCounters s2 n h r1 c1 r2 c2 hm2, ht]

/-- A legal move played below the cap can be played with any move count below the cap and
any history, with the same result up to the counters. -/
theorem legalPlay_withCounters {s t : BattleChessState} {a : Int}
    (hp : legalPlay s a = some t) (hs : s.total_moves_ + 1 < 1000) (n : Int) (h : List Int)
    (hn : n + 1 < 1000) :
    legalPlay (withCounters s n h) a = some (withCounters t (n + 1) (h ++ [a])) := by
  unfold legalPlay at hp ⊢
  rw [legalActions_withCounters]
  split at hp
  · rename_i l hl
    split_ifs at hp with hm
    obtain ⟨u, hu, rfl⟩ := applyAction_some hp
    simp only [if_pos hm]
    unfold ApplyAction
    rw [doApply_withCounters hu hs n h, if_neg (by omega)]
    rfl
  · exact Option.noConfusion hp

theorem shuffle_cycle_stale (n : Int) (h : List Int) (hn : n + 4 < 1000) :
    shuffleCycle.foldlM legalPlay (withCounters staleBase n h) =
      some (withCounters staleBase (n + 4) (h ++ shuffleCycle)) := by
  have f0 : legalPlay staleBase 972 = some staleBase1 := by rfl
  have f1 : legalPlay staleBase1 5103 = some staleBase2 := by rfl
  have f2 : legalPlay staleBase2 1836 = some staleBase3 := by rfl
  have f3 : legalPlay staleBase3 4023 =
      some (withCounters staleBase 15 (staleBase.history_ ++ shuffleCycle)) := by decide!
  have g0 := legalPlay_withCounters f0 (by decide) n h (by omega)
  have g1 := legalPlay_withCounters f1 (by decide) (n + 1) (h ++ [972]) (by omega)
  have g2 := legalPlay_withCounters f2 (by decide) (n + 1 + 1) (h ++ [972] ++ [5103])
    (by omega)
  have g3 := legalPlay_withCounters f3 (by decide) (n + 1 + 1 + 1)
    (h ++ [972] ++ [5103] ++ [1836]) (by omega)
  have e : withCounters (withCounters staleBase 15 (staleBase.history_ ++ shuffleCycle))
      (n + 1 + 1 + 1 + 1) (h ++ [972] ++ [5103] ++ [1836] ++ [4023]) =
      withCounters staleBase (n + 4) (h ++ shuffleCycle) := by
    have e1 : n + 1 + 1 + 1 + 1 = n + 4 := by ring
    have e2 : h ++ [972] ++ [5103] ++ [1836] ++ [4023] = h ++ shuffleCycle := by
      simp [shuffleCycle]
    rw [e1, e2]
    rfl
  rw [e] at g3
  simp only [shuffleCycle, List.foldlM_cons, List.foldlM_nil, g0, g1, g2, g3, bind,
    Option.bind, pure]

theorem shuffle_cycles_stale (k : Nat) (n : Int) (h : List Int)
    (hn : n + 4 * (k : Int) < 1000) :
    (List.replicate k shuffleCycle).flatten.foldlM legalPlay (withCounters staleBase n h) =
      some (withCounters staleBase (n + 4 * (k : Int))
        (h ++ (List.replicate k shuffleCycle).flatten)) := by
  induction k generalizing n h with
  | zero => simp
  | succ k ih =>
    have hn4 : n + 4 < 1000 := by push_cast at hn; omega
    rw [List.replicate_succ, List.flatten_cons, List.foldlM_append,
      shuffle_cycle_stale n h hn4]
    have hk : n + 4 + 4 * (k : Int) < 1000 := by push_cast at hn; omega
    have := ih (n + 4) (h ++ shuffleCycle) hk
    simp only [bind, Option.bind] at this ⊢
    rw [this]
    have e1 : n + 4 + 4 * (k : Int) = n + 4 * ((k + 1 : Nat) : Int) := by push_cast; ring
    rw [e1, List.append_assoc]

theorem played_foldlM {s t : BattleChessState} (l : List Int) (h : Played s)
    (hf : l.foldlM legalPlay s = some t) : Played t := by
  induction l generalizing s with
  | nil =>
    simp only [List.foldlM_nil, pure] at hf
    injection hf with hf
    subst hf
    exact h
  | cons a rest ih =>
    rw [List.foldlM_cons] at hf
    obtain ⟨s1, h1, h2⟩ := Option.bind_eq_some.1 hf
    exact ih (played_legalPlay h h1) h2

theorem withCounters_self (s : BattleChessState) :
    withCounters s s.total_moves_ s.history_ = s := by
  cases s
  rfl

theorem staleEntryLine_eq : staleEntryLine = some staleEntryPosition := by rfl

theorem staleBase_eq :
    shuffleCycle.foldlM legalPlay staleEntryPosition = some staleBase := by rfl

theorem staleBase_counters : withCounters staleBase 11 staleBase.history_ = staleBase := by
  have hm : staleBase.total_moves_ = 11 := by decide!
  have hself := withCounters_self staleBase
  rw [hm] at hself
  exact hself

theorem bind_bind_some {α : Type} (x : Option α) (f g : α → Option α) (a b c : α)
    (hx : x = some a) (hf : f a = some b) (hg : g b = some c) :
    (x.bind f).bind g = some c := by
  subst hx
  rw [Option.some_bind, hf, Option.some_bind, hg]

theorem capEveStale_tail :
    (List.replicate 247 shuffleCycle).flatten.foldlM legalPlay staleBase =
      some capEveStale := by
  have hrest := shuffle_cycles_stale 247 11 staleBase.history_ (by norm_num)
  rewrite [staleBase_counters] at hrest
  have h999 : (11 : Int) + 4 * ((247 : Nat) : Int) = 999 := by norm_num
  rewrite [h999] at hrest
  exact hrest

/-- The line `capLine` ends in `capEveStale`. -/
theorem capLine_eq : capLine = some capEveStale :=
  bind_bind_some _ _ _ _ _ _ staleEntryLine_eq staleBase_eq capEveStale_tail

/-- The position `capEveStale` is reached in play in progress. -/
theorem played_capEveStale : Played capEveStale :=
  played_foldlM _ (played_foldlM _ played_staleEntryPosition staleBase_eq) capEveStale_tail

theorem withCounters_twice (s : BattleChessState) (n m : Int) (h k : List Int) :
    withCounters (withCounters s n h) m k = withCounters s m k := rfl

theorem staleBase_facts :
    staleBase.cur_player_ = 1 ∧ staleBase.winner_ = kInvalidPlayer ∧
    staleBase.total_moves_ + 1 < 1000 ∧
    LegalActions staleBase =
      some [693, 747, 972, 1364, 1395, 1419, 1449, 1593, 1630, 1647, 1683] ∧
    board staleBase 1 1 = .kWhiteAttacker ∧ board staleBase 1 2 = .kBlackKing ∧
    ((DoApplyAction staleBase 1419).map fun t =>
      (t.winner_, board t 1 2, t.board_.count .kBlackKing)) =
      some (0, .kWhiteAttacker, 0) := by
  decide!

theorem board_withCounters (s : BattleChessState) (n : Int) (h : List Int) (r c : Int) :
    board (withCounters s n h) r c = board s r c := rfl

theorem fields_withCounters (s : BattleChessState) (n : Int) (h : List Int) :
    (withCounters s n h).total_moves_ = n ∧
    (withCounters s n h).cur_player_ = s.cur_player_ ∧
    (withCounters s n h).winner_ = s.winner_ ∧
    (withCounters s n h).board_ = s.board_ := ⟨rfl, rfl, rfl, rfl⟩

theorem capEveStale_fields :
    capEveStale.total_moves_ = 999 ∧ capEveStale.cur_player_ = 1 ∧
    capEveStale.cur_player_ = capEveStale.total_moves_ % 2 ∧
    IsTerminal capEveStale = false := by
  obtain ⟨hcur, hwin, _⟩ := staleBase_facts
  unfold capEveStale IsTerminal
  obtain ⟨h1, h2, h3, _⟩ := fields_withCounters staleBase 999
    (staleBase.history_ ++ (List.replicate 247 shuffleCycle).flatten)
  rw [h1, h2, h3, hcur, hwin]
  exact ⟨rfl, rfl, rfl, rfl⟩

theorem capEveStale_board :
    LegalActions capEveStale =
      some [693, 747, 972, 1364, 1395, 1419, 1449, 1593, 1630, 1647, 1683] ∧
    board capEveStale 1 1 = .kWhiteAttacker ∧ board capEveStale 1 2 = .kBlackKing := by
  obtain ⟨_, _, _, hlegal, hb1, hb2, _⟩ := staleBase_facts
  unfold capEveStale
  exact ⟨(legalActions_withCounters staleBase _ _).trans hlegal,
    (board_withCounters staleBase _ _ 1 1).trans hb1,
    (board_withCounters staleBase _ _ 1 2).trans hb2⟩

theorem capEveStale_below (n : Int) (h : List Int) (hn : n + 1 < 1000) :
    ∃ t, DoApplyAction (withCounters capEveStale n h) 1419 = some t ∧ t.winner_ = 0 := by
  obtain ⟨_, _, hlow, _, _, _, hcap⟩ := staleBase_facts
  obtain ⟨t0, ht0, hres⟩ := Option.map_eq_some'.1 hcap
  have hw0 : t0.winner_ = 0 := congrArg (fun x => x.1) hres
  refine ⟨withCounters t0 (n + 1) h, ?_, hw0⟩
  unfold capEveStale
  rw [withCounters_twice, doApply_withCounters ht0 hlow n h, if_neg (by omega)]

theorem capEveStale_apply :
    ∃ t, DoApplyAction capEveStale 1419 = some t ∧ t.total_moves_ = 1000 ∧
      t.winner_ = 1 ∧ Returns t = [-1, 1] ∧ IsTerminal t = true ∧
      t.board_.count .kBlackKing = 0 := by
  obtain ⟨_, _, hlow, _, _, _, hcap⟩ := staleBase_facts
  obtain ⟨t0, ht0, hres⟩ := Option.map_eq_some'.1 hcap
  have hc0 : t0.board_.count .kBlackKing = 0 := congrArg (fun x => x.2.2) hres
  have hap := doApply_withCounters ht0 hlow 999
    (staleBase.history_ ++ (List.replicate 247 shuffleCycle).flatten)
  rw [if_pos (by norm_num)] at hap
  have hsum : (999 : Int) + 1 = 1000 := by norm_num
  rw [hsum] at hap
  unfold capEveStale
  generalize staleBase.history_ ++ (List.replicate 247 shuffleCycle).flatten = hist at hap ⊢
  exact ⟨_, hap, rfl, rfl, rfl, rfl, hc0⟩

/-- C27 fails on the code.  The line `capLine` (legal actions and one undo) ends, after 999
moves, in the position `capEveStale` of play in progress: Black to move, parity intact, a
White Attacker on (1,1) and the Black King on (1,2).  The black list still holds the entry
that the undo left behind, so `LegalActions` offers 1419, the move from (1,1) onto the
Black King with capture tag 6.  With a move count below the cap (998, say) `DoApplyAction`
of 1419 sets the winner to 0; here it brings the count to 1000, and the cap assignment
overwrites that win of player 0: the state reports winner 1 and `Returns = (-1, +1)`
although the Black King has left the board. -/
theorem cap_overwrites_king_capture :
    capLine = some capEveStale ∧ Played capEveStale ∧
    (capEveStale.total_moves_ = 999 ∧ capEveStale.cur_player_ = 1 ∧
      capEveStale.cur_player_ = capEveStale.total_moves_ % 2 ∧
      IsTerminal capEveStale = false) ∧
    (LegalActions capEveStale =
        some [693, 747, 972, 1364, 1395, 1419, 1449, 1593, 1630, 1647, 1683] ∧
      board capEveStale 1 1 = .kWhiteAttacker ∧ board capEveStale 1 2 = .kBlackKing) ∧
    decode 1419 = [1, 1, 1, 2, 6] ∧
    (∃ t, DoApplyAction (withCounters capEveStale 998 []) 1419 = some t ∧ t.winner_ = 0) ∧
    ∃ t, DoApplyAction capEveStale 1419 = some t ∧ t.total_moves_ = 1000 ∧
      t.winner_ = 1 ∧ Returns t = [-1, 1] ∧ IsTerminal t = true ∧
      t.board_.count .kBlackKing = 0 :=
  ⟨capLine_eq, played_capEveStale, capEveStale_fields, capEveStale_board, by decide,
    capEveStale_below 998 [] (by decide), capEveStale_apply⟩

/-! ## Kings on the board -/

theorem count_move (l : List CellState) (i j : Nat) (hi : i < l.length) (hj : j < l.length)
    (hij : i ≠ j) (x : CellState) (hx : x ≠ .kEmpty) :
    ((l.set j (l.get ⟨i, hi⟩)).set i .kEmpty).count x =
      l.count x - (if l.get ⟨j, hj⟩ = x then 1 else 0) := by
  have hi' : i < (l.set j (l.get ⟨i, hi⟩)).length := by rw [List.length_set]; exact hi
  rw [List.count_set _ _ _ _ hi', List.count_set _ _ _ _ hj]
  have hget : (l.set j (l.get ⟨i, hi⟩))[i] = l.get ⟨i, hi⟩ := by
    rw [List.getElem_set_ne (Ne.symm hij)]
    rfl
  rw [hget]
  have hE : (CellState.kEmpty == x) = false := by
    rw [beq_eq_false_iff_ne]
    exact fun h => hx h.symm
  have hle : (if l.get ⟨j, hj⟩ = x then 1 else 0) ≤ l.count x := by
    split_ifs with h
    · exact List.count_pos_iff.2 (h ▸ List.get_mem l j hj)
    · exact Nat.zero_le _
  simp only [hE, List.get_eq_getElem, beq_iff_eq, Bool.false_eq_true, if_false, Nat.add_zero]
     at hle ⊢
  split_ifs at hle ⊢ <;> omega

theorem cell_index {s : BattleChessState} (h : Consistent s) (r c : Int)
    (hin : InBounds s r c = true) :
    ∃ hlt : (r * 5 + c).toNat < s.board_.length,
      board s r c = s.board_.get ⟨(r * 5 + c).toNat, hlt⟩ := by
  rw [inBounds_iff, h.rows_eq, h.cols_eq] at hin
  have hlt : (r * 5 + c).toNat < s.board_.length := by
    rw [h.board_len]; omega
  refine ⟨hlt, ?_⟩
  unfold board
  rw [h.cols_eq, getD_eq_getElem _ _ hlt]
  rfl

/-- The number of cells holding a piece value `x` after a sound move: the destination's
old occupant is the only value that leaves the board. -/
theorem count_after_apply {s t : BattleChessState} (h : Consistent s) {r1 c1 r2 c2 tag : Int}
    (m : SoundMove s r1 c1 r2 c2 tag) (f : ApplyFacts s t r1 c1 r2 c2) (x : CellState)
    (hx : x ≠ .kEmpty) :
    t.board_.count x = s.board_.count x - (if board s r2 c2 = x then 1 else 0) := by
  obtain ⟨h1, e1⟩ := cell_index h r1 c1 m.src_in
  obtain ⟨h2, e2⟩ := cell_index h r2 c2 m.dst_in
  have hne : (r1 * 5 + c1).toNat ≠ (r2 * 5 + c2).toNat := by
    have a1 := m.src_in
    have a2 := m.dst_in
    rw [inBounds_iff, h.rows_eq, h.cols_eq] at a1 a2
    have hap := m.apart
    intro heq
    apply hap
    constructor <;> omega
  rw [f.board_eq]
  simp only [SetBoard, h.cols_eq]
  rw [e1, e2]
  exact count_move s.board_ _ _ h1 h2 hne x hx

/-- A piece value present on the board of a consistent state has an entry in the list of
its colour. -/
theorem entry_of_count {s : BattleChessState} (h : Consistent s) (x : CellState)
    (hx : 0 < s.board_.count x) :
    (StateToColor x = 0 → 0 < s.whitePieces.length) ∧
    (StateToColor x = 1 → 0 < s.blackPieces.length) := by
  have hmem : x ∈ s.board_ := List.count_pos_iff.1 hx
  obtain ⟨j, hj, hget⟩ := List.getElem_of_mem hmem
  have hj25 : j < 25 := by rw [← h.board_len]; exact hj
  have hin : InBounds s ((j / 5 : Nat) : Int) ((j % 5 : Nat) : Int) = true :=
    inBounds_five h.rows_eq h.cols_eq _ _ (by omega)
  obtain ⟨hlt, hb⟩ := cell_index h _ _ hin
  have hidx : (((j / 5 : Nat) : Int) * 5 + ((j % 5 : Nat) : Int)).toNat = j := by omega
  have hbx : board s ((j / 5 : Nat) : Int) ((j % 5 : Nat) : Int) = x := by
    rw [hb, ← hget]
    simp only [List.get_eq_getElem, hidx]
  constructor
  · intro hcol
    have hne : board s ((j / 5 : Nat) : Int) ((j % 5 : Nat) : Int) ≠ .kEmpty := by
      rw [hbx]; exact not_empty_of_color (Or.inl rfl) hcol
    obtain ⟨p, hp, hpr, hpc⟩ := h.covered _ _ hin hne
    rcases List.mem_append.mp hp with hw | hbl
    · exact List.length_pos_of_mem hw
    · have hk := h.black_ok p hbl
      rw [hpr, hpc, hbx] at hk
      rw [← hk.2.1, hcol] at hk
      exact absurd hk.2.2 (by decide)
  · intro hcol
    have hne : board s ((j / 5 : Nat) : Int) ((j % 5 : Nat) : Int) ≠ .kEmpty := by
      rw [hbx]; exact not_empty_of_color (Or.inr rfl) hcol
    obtain ⟨p, hp, hpr, hpc⟩ := h.covered _ _ hin hne
    rcases List.mem_append.mp hp with hw | hbl
    · have hk := h.white_ok p hw
      rw [hpr, hpc, hbx] at hk
      rw [← hk.2.1, hcol] at hk
      exact absurd hk.2.2 (by decide)
    · exact List.length_pos_of_mem hbl

/-- The piece lists do not grow under a sound move. -/
theorem lengths_after_apply {s t : BattleChessState} (h : Consistent s)
    {r1 c1 r2 c2 tag : Int} (m : SoundMove s r1 c1 r2 c2 tag)
    (f : ApplyFacts s t r1 c1 r2 c2) :
    t.whitePieces.length ≤ s.whitePieces.length ∧
    t.blackPieces.length ≤ s.blackPieces.length := by
  have hany := occupied_any h r1 c1 m.src_in m.src_occ
  have hown := f.own_eq
  have hen := f.enemy_eq
  have hown_len : (pieces t (StateToColor (board s r1 c1))).length =
      (pieces s (StateToColor (board s r1 c1))).length := by
    rw [hown, List.length_append, List.length_singleton]
    obtain ⟨p, hp, hpa⟩ := List.any_eq_true.1 hany
    rw [List.length_eraseP_of_mem hp hpa]
    have := List.length_pos_of_mem hp
    omega
  have hen_len : (pieces t (1 - StateToColor (board s r1 c1))).length ≤
      (pieces s (1 - StateToColor (board s r1 c1))).length := by
    rw [hen]
    split_ifs
    · exact Nat.le_refl _
    · exact List.length_eraseP_le _
  rcases color_cases _ m.src_occ with hk | hk
  · rw [hk] at hown_len hen_len
    simp only [pieces, if_true, sub_zero, one_ne_zero, if_false] at hown_len hen_len
    exact ⟨by omega, hen_len⟩
  · rw [hk] at hown_len hen_len
    simp only [pieces, one_ne_zero, if_false, sub_self, if_true] at hown_len hen_len
    exact ⟨hen_len, by omega⟩

/-- Invariant of play by legal actions: neither piece list ever has more than five
entries, and while the game is in progress the board holds one King of each colour. -/
theorem kings_inv {s : BattleChessState} (h : Reachable s) :
    (IsTerminal s = false →
      s.board_.count .kWhiteKing = 1 ∧ s.board_.count .kBlackKing = 1) ∧
    s.whitePieces.length ≤ 5 ∧ s.blackPieces.length ≤ 5 := by
  induction h with
  | init => exact ⟨fun _ => ⟨by decide, by decide⟩, by decide, by decide⟩
  | @step s t l a hs hl ha happ ih =>
    have hc := reachable_consistent hs
    have hm := reachable_meta hs
    obtain ⟨hnt, _⟩ := legal_nonterminal hl ha
    obtain ⟨u, hu, rfl⟩ := applyAction_some happ
    obtain ⟨r1, c1, r2, c2, tag, u', rfl, m, _, hu', f⟩ := step_facts hc hl ha
    rw [hu] at hu'
    injection hu' with hu'
    subst hu'
    obtain ⟨hk, hw5, hb5⟩ := ih
    obtain ⟨hwk, hbk⟩ := hk hnt
    obtain ⟨hlw, hlb⟩ := lengths_after_apply hc m f
    refine ⟨?_, ?_, ?_⟩
    · intro hnt'
      have hnt2 : u.winner_ < 0 := (isTerminal_false_iff _).1 hnt'
      have hwin := f.winner_eq
      have hd1 : board s r2 c2 ≠ .kWhiteKing := by
        intro hd
        rw [hd] at hwin
        have : u.winner_ = 1 := by
          rw [hwin]
          by_cases hcap : s.total_moves_ + 1 ≥ 1000
          · rw [if_pos hcap]
          · rw [if_neg hcap, if_neg (by decide), if_pos rfl]
        omega
      have hd2 : board s r2 c2 ≠ .kBlackKing := by
        intro hd
        rw [hd] at hwin
        have : u.winner_ = 1 ∨ u.winner_ = 0 := by
          rw [hwin]
          by_cases hcap : s.total_moves_ + 1 ≥ 1000
          · rw [if_pos hcap]; exact Or.inl rfl
          · rw [if_neg hcap, if_pos rfl]; exact Or.inr rfl
        omega
      constructor
      · show u.board_.count .kWhiteKing = 1
        rw [count_after_apply hc m f _ (by decide), if_neg hd1, hwk]
      · show u.board_.count .kBlackKing = 1
        rw [count_after_apply hc m f _ (by decide), if_neg hd2, hbk]
    · show u.whitePieces.length ≤ 5
      omega
    · show u.blackPieces.length ≤ 5
      omega

/-- C28. In every non-terminal state reached from the initial state by legal actions the
board holds exactly one White King and exactly one Black King, and each side has between
1 and 5 pieces.  A King leaves the board only through a capture: a legal action that does
not capture a King keeps both King counts, and one that does has a positive capture tag and
makes the state terminal. -/
theorem one_king_each (s : BattleChessState) (hs : Reachable s) :
    (IsTerminal s = false →
      s.board_.count .kWhiteKing = 1 ∧ s.board_.count .kBlackKing = 1 ∧
      (1 ≤ s.whitePieces.length ∧ s.whitePieces.length ≤ 5) ∧
      (1 ≤ s.blackPieces.length ∧ s.blackPieces.length ≤ 5)) ∧
    (∀ l a, LegalActions s = some l → a ∈ l →
      ∃ t, DoApplyAction s a = some t ∧
        (¬ capturesKing s a →
          t.board_.count .kWhiteKing = s.board_.count .kWhiteKing ∧
          t.board_.count .kBlackKing = s.board_.count .kBlackKing) ∧
        (capturesKing s a → 0 < tagOf a ∧ IsTerminal t = true)) := by
  have hc := reachable_consistent hs
  obtain ⟨hk, hw5, hb5⟩ := kings_inv hs
  constructor
  · intro hnt
    obtain ⟨hwk, hbk⟩ := hk hnt
    have e1 := (entry_of_count hc .kWhiteKing (by omega)).1 rfl
    have e2 := (entry_of_count hc .kBlackKing (by omega)).2 rfl
    exact ⟨hwk, hbk, ⟨e1, hw5⟩, ⟨e2, hb5⟩⟩
  · intro l a hl ha
    obtain ⟨r1, c1, r2, c2, tag, t, rfl, m, _, ht, f⟩ := step_facts hc hl ha
    have hv := sound_valid hc m
    have hdest := destOf_encode r1 c1 r2 c2 tag hv
    have htag : tagOf (encode r1 c1 r2 c2 tag) = tag := by
      simp only [tagOf, decode_encode _ _ _ _ _ hv]
    refine ⟨t, ht, ?_, ?_⟩
    · intro hno
      unfold capturesKing at hno
      rw [hdest] at hno
      have hd1 : board s r2 c2 ≠ .kWhiteKing := fun hd => hno (Or.inr hd)
      have hd2 : board s r2 c2 ≠ .kBlackKing := fun hd => hno (Or.inl hd)
      rw [count_after_apply hc m f _ (by decide), if_neg hd1,
        count_after_apply hc m f _ (by decide), if_neg hd2]
      exact ⟨rfl, rfl⟩
    · intro hcap
      unfold capturesKing at hcap
      rw [hdest] at hcap
      have hcap' : board s r2 c2 = .kBlackKing ∨ board s r2 c2 = .kWhiteKing := hcap
      rw [htag, m.tag_eq]
      have hwin := f.winner_eq
      rcases hcap' with hd | hd
      · rw [hd] at hwin ⊢
        refine ⟨by decide, ?_⟩
        have : t.winner_ = 1 ∨ t.winner_ = 0 := by
          rw [hwin]
          by_cases hcap : s.total_moves_ + 1 ≥ 1000
          · rw [if_pos hcap]; exact Or.inl rfl
          · rw [if_neg hcap, if_pos rfl]; exact Or.inr rfl
        unfold IsTerminal
        rcases this with h | h <;> rw [h] <;> rfl
      · rw [hd] at hwin ⊢
        refine ⟨by decide, ?_⟩
        have : t.winner_ = 1 := by
          rw [hwin]
          by_cases hcap : s.total_moves_ + 1 ≥ 1000
          · rw [if_pos hcap]
          · rw [if_neg hcap, if_neg (by decide), if_pos rfl]
        unfold IsTerminal
        rw [this]; rfl

theorem one_king_each_witness :
    Reachable whiteKingAttacked ∧ IsTerminal whiteKingAttacked = false ∧
    (whiteKingAttacked.board_.count .kWhiteKing = 1 ∧
      whiteKingAttacked.board_.count .kBlackKing = 1 ∧
      (1 ≤ whiteKingAttacked.whitePieces.length ∧ whiteKingAttacked.whitePieces.length ≤ 5) ∧
      (1 ≤ whiteKingAttacked.blackPieces.length ∧
        whiteKingAttacked.blackPieces.length ≤ 5)) ∧
    capturesKing whiteKingAttacked 1461 ∧
    ∃ t, DoApplyAction whiteKingAttacked 1461 = some t ∧
      (¬ capturesKing whiteKingAttacked 1461 →
        t.board_.count .kWhiteKing = whiteKingAttacked.board_.count .kWhiteKing ∧
        t.board_.count .kBlackKing = whiteKingAttacked.board_.count .kBlackKing) ∧
      (capturesKing whiteKingAttacked 1461 → 0 < tagOf 1461 ∧ IsTerminal t = true) :=
  ⟨reachable_whiteKingAttacked, by rfl,
    (one_king_each whiteKingAttacked reachable_whiteKingAttacked).1 (by rfl), by decide,
    (one_king_each whiteKingAttacked reachable_whiteKingAttacked).2
      [459, 513, 747, 972, 1359, 1395, 1413, 1449, 1461] 1461 (by rfl) (by decide)⟩

/-! ## The bounds assertions of `DoApplyAction` -/

/-- Once both bounds checks pass, `DoApplyActionTraced` can only fail at a later check. -/
theorem traced_not_bounds (s : BattleChessState) (a r1 c1 r2 c2 tag : Int)
    (hun : UnrankActionMixedBase a [s.rows_, s.cols_, s.rows_, s.cols_, 9] =
      [r1, c1, r2, c2, tag])
    (h1 : InBounds s r1 c1 = true) (h2 : InBounds s r2 c2 = true)
    (chk : ApplyCheck) (st : BattleChessState)
    (h : DoApplyActionTraced s a = .error (chk, st)) :
    chk ≠ .originBounds ∧ chk ≠ .destBounds := by
  unfold DoApplyActionTraced at h
  rw [hun] at h
  simp only [List.getD_cons_zero, List.getD_cons_succ, h1, h2, Bool.not_true,
    Bool.false_eq_true, if_false] at h
  repeat' split at h
  all_goals first
    | exact Except.noConfusion h
    | (injection h with h
       injection h with hchk _
       subst hchk
       exact ⟨by decide, by decide⟩)

/-! ## The state returned by the deserializer -/

theorem entries_coord_nodup (cells : List CellState) (hlen : cells.length = 25)
    (entry : Int → Int → CellState → List Piece)
    (hentry : ∀ r c v, entry r c v = [] ∨ entry r c v = [⟨r, c, v⟩]) :
    (((cellCoords.zip cells).flatMap fun x =>
      entry (x.1.1 : Int) (x.1.2 : Int) x.2).map coord).Nodup := by
  rw [List.map_flatMap]
  apply nodup_flatMap_of_key id (fun x : (Nat × Nat) × CellState =>
    (((x.1.1 : Nat) : Int), ((x.1.2 : Nat) : Int)))
  · intro x _
    rcases hentry (x.1.1 : Int) (x.1.2 : Int) x.2 with h | h <;> rw [h] <;> simp
  · intro x _ b hb
    rcases hentry (x.1.1 : Int) (x.1.2 : Int) x.2 with h | h
    · rw [h] at hb; simp at hb
    · rw [h] at hb
      simp only [List.map_cons, List.map_nil, List.mem_singleton] at hb
      rw [hb]; rfl
  · have hfst : (cellCoords.zip cells).map Prod.fst = cellCoords := by
      apply List.map_fst_zip
      rw [hlen]; decide
    have hmap : (cellCoords.zip cells).map (fun x : (Nat × Nat) × CellState =>
        (((x.1.1 : Nat) : Int), ((x.1.2 : Nat) : Int))) =
        cellCoords.map fun rc => (((rc.1 : Nat) : Int), ((rc.2 : Nat) : Int)) := by
      have hrhs : (cellCoords.map fun rc : Nat × Nat =>
          (((rc.1 : Nat) : Int), ((rc.2 : Nat) : Int))) =
          ((cellCoords.zip cells).map Prod.fst).map fun rc : Nat × Nat =>
            (((rc.1 : Nat) : Int), ((rc.2 : Nat) : Int)) := by
        rw [hfst]
      rw [hrhs, List.map_map]
      rfl
    rw [hmap]
    decide

/-- The state built from 25 cell values satisfies the consistency invariant. -/
theorem stateOfCells_consistent (cells : List CellState) (hlen : cells.length = 25) :
    Consistent (stateOfCells cells) := by
  obtain ⟨_, _, _, hr, hc, _⟩ := stateOfCells_fields cells
  have hb := stateOfCells_board cells hlen
  have hreg := stateOfCells_registry cells hlen
  have hw0 : (InitPieces (InitPieces NewInitialState 0) 1).whitePieces = [] := rfl
  have hb0 : (InitPieces (InitPieces NewInitialState 0) 1).blackPieces = [] := rfl
  refine ⟨hr, hc, by rw [hb, hlen], fun p hp => (hreg p).1.1 hp,
    fun p hp => (hreg p).2.1 hp, ?_, ?_⟩
  · intro r c hin hne
    rcases color_cases _ hne with hk | hk
    · refine ⟨⟨r, c, board (stateOfCells cells) r c⟩, ?_, rfl, rfl⟩
      exact List.mem_append_left _ ((hreg _).1.2 ⟨hin, rfl, hk⟩)
    · refine ⟨⟨r, c, board (stateOfCells cells) r c⟩, ?_, rfl, rfl⟩
      exact List.mem_append_right _ ((hreg _).2.2 ⟨hin, rfl, hk⟩)
  · unfold registry
    rw [List.map_append, List.nodup_append]
    refine ⟨?_, ?_, ?_⟩
    · rw [stateOfCells, placeAll_white, hw0, List.nil_append]
      apply entries_coord_nodup cells hlen whiteEntry
      intro r c v
      unfold whiteEntry
      split_ifs
      · exact Or.inr rfl
      · exact Or.inl rfl
    · rw [stateOfCells, placeAll_black, hb0, List.nil_append]
      apply entries_coord_nodup cells hlen blackEntry
      intro r c v
      unfold blackEntry
      split_ifs
      · exact Or.inr rfl
      · exact Or.inl rfl
    · intro x hxw hxb
      rw [List.mem_map] at hxw hxb
      obtain ⟨p, hp, rfl⟩ := hxw
      obtain ⟨q, hq, hqp⟩ := hxb
      have hpk := (hreg p).1.1 hp
      have hqk := (hreg q).2.1 hq
      have e1 : q.row = p.row := congrArg Prod.fst hqp
      have e2 : q.col = p.col := congrArg Prod.snd hqp
      rw [e1, e2, hpk.2.1] at hqk
      rw [← hqk.2.1, hpk.2.2] at hqk
      exact absurd hqk.2.2 (by decide)

/-- C30. For every valid input string the state returned by `DeserializeState` has current
player 0, move count 0 and the winner unset (it is not terminal), and satisfies the
board/registry consistency invariant; so for a consistent state `s` with current player 1,
a positive move count or a set winner, `DeserializeState (Serialize s)` differs from `s` in
that field: the flat serialization does not carry turn, move count or outcome. -/
theorem deserialized_counters :
    (∀ str : List Char, (str.length : Int) = kDefaultRows * kDefaultColumns →
      (∀ ch ∈ str, ch ∈ ['.', 'k', 'd', 'a', 'K', 'D', 'A']) →
      ∃ t, DeserializeState str = some t ∧ t.cur_player_ = 0 ∧ t.total_moves_ = 0 ∧
        t.winner_ = kInvalidPlayer ∧ IsTerminal t = false ∧ Consistent t) ∧
    (∀ s : BattleChessState, Consistent s →
      ∃ t, DeserializeState (Serialize s) = some t ∧ t.cur_player_ = 0 ∧
        t.total_moves_ = 0 ∧ t.winner_ = kInvalidPlayer ∧
        (s.cur_player_ = 1 → t.cur_player_ ≠ s.cur_player_ ∧ t ≠ s) ∧
        (0 < s.total_moves_ → t.total_moves_ ≠ s.total_moves_ ∧ t ≠ s) ∧
        (IsTerminal s = true → t.winner_ ≠ s.winner_ ∧ t ≠ s)) := by
  constructor
  · intro str hlen hch
    have hlen2 : str.length = 25 := by
      have h25 : kDefaultRows * kDefaultColumns = 25 := by decide
      rw [h25] at hlen
      exact_mod_cast hlen
    obtain ⟨cells, hcl, _, hd⟩ := deserialize_valid str hlen2 hch
    obtain ⟨f1, f2, f3, _, _, _⟩ := stateOfCells_fields cells
    refine ⟨_, hd, f1, f3, f2, ?_, stateOfCells_consistent cells hcl⟩
    unfold IsTerminal
    rw [f2]
    rfl
  · intro s hs
    obtain ⟨f1, f2, f3, _, _, _⟩ := stateOfCells_fields s.board_
    refine ⟨_, deserialize_serialize s hs.rows_eq hs.cols_eq hs.board_len, f1, f3, f2,
      ?_, ?_, ?_⟩
    · intro h1
      have hne : (stateOfCells s.board_).cur_player_ ≠ s.cur_player_ := by
        rw [f1, h1]; decide
      exact ⟨hne, fun he => hne (congrArg BattleChessState.cur_player_ he)⟩
    · intro h1
      have hne : (stateOfCells s.board_).total_moves_ ≠ s.total_moves_ := by
        rw [f3]; omega
      exact ⟨hne, fun he => hne (congrArg BattleChessState.total_moves_ he)⟩
    · intro h1
      have hw : s.winner_ ≥ 0 := by
        unfold IsTerminal at h1
        exact of_decide_eq_true h1
      have hne : (stateOfCells s.board_).winner_ ≠ s.winner_ := by
        rw [f2]; unfold kInvalidPlayer; omega
      exact ⟨hne, fun he => hne (congrArg BattleChessState.winner_ he)⟩

theorem deserialized_counters_witness :
    Consistent whiteKingAttacked ∧ whiteKingAttacked.cur_player_ = 1 ∧
    0 < whiteKingAttacked.total_moves_ ∧
    (∃ t, DeserializeState (Serialize whiteKingAttacked) = some t ∧ t.cur_player_ = 0 ∧
      t.total_moves_ = 0 ∧ t.winner_ = kInvalidPlayer ∧
      (whiteKingAttacked.cur_player_ = 1 →
        t.cur_player_ ≠ whiteKingAttacked.cur_player_ ∧ t ≠ whiteKingAttacked) ∧
      (0 < whiteKingAttacked.total_moves_ →
        t.total_moves_ ≠ whiteKingAttacked.total_moves_ ∧ t ≠ whiteKingAttacked) ∧
      (IsTerminal whiteKingAttacked = true →
        t.winner_ ≠ whiteKingAttacked.winner_ ∧ t ≠ whiteKingAttacked)) ∧
    ∃ t, DeserializeState "adkda.....D...d.....AKADA".toList = some t ∧ t.cur_player_ = 0 ∧
      t.total_moves_ = 0 ∧ t.winner_ = kInvalidPlayer ∧ IsTerminal t = false ∧
      Consistent t :=
  ⟨reachable_consistent reachable_whiteKingAttacked, by rfl, by decide,
    deserialized_counters.2 whiteKingAttacked
      (reachable_consistent reachable_whiteKingAttacked),
    deserialized_counters.1 "adkda.....D...d.....AKADA".toList (by decide) (by decide)⟩

end BattleChess
